import Mathlib

/-!
A shallow embedding of the phase unfolder (src/src/phase_unfolder.cpp) of the
vg repository, together with proofs about the claims of its specification.

Conventions of the embedding:
* An oriented node handle (gbwt::node_type) is a natural number `2*id + rev`.
* Walks (path_type) are lists of handles.
* External collaborators (the VG graph store, the XG path index, the GBWT
  haplotype index, gcsa::NodeMapping, xg::make_edge) are not part of the
  repository sources; they are modelled from the spec, as indicated by the
  doc comments of the corresponding definitions.
* The two while loops of verify_path are embedded with explicit fuel for the
  outer pop loop (the inner loop is structural on the remaining walk); a run
  that exhausts its fuel yields `none`, so a `some` result is the value of a
  genuinely terminated run of the loop.
-/

namespace PhaseUnfolder

/- An oriented handle (gbwt::node_type) is a plain natural number
`2*id + (reverse ? 1 : 0)` (gbwt::Node::encode); handles are written `Nat`
throughout so that arithmetic automation sees them. -/

/-- gbwt::Node::id. -/
def hid (h : Nat) : Nat := h / 2

/-- gbwt::Node::is_reverse. -/
def hrev (h : Nat) : Bool := h % 2 == 1

/-- gbwt::Node::encode. -/
def hencode (id : Nat) (rev : Bool) : Nat := 2 * id + (if rev then 1 else 0)

/-- gbwt::Node::reverse: flip the orientation bit of a handle. -/
def hrc (h : Nat) : Nat := if h % 2 == 0 then h + 1 else h - 1

/-- An edge of the graph store, as the canonical ordered pair of oriented
handles.  The four protobuf fields (from, from_start, to, to_end) of a pair
`(u, v)` are `(hid u, hrev u, hid v, hrev v)`. -/
abbrev GEdge := Nat × Nat

/-- Modelled from the spec: xg::make_edge canonicalizes an edge so that
membership in the graph store is bidirectional under canonical flipping; the
flipped form of `(u, v)` is `(hrc v, hrc u)`, and the canonical representative
is the one with the smaller from-id (for a self-loop, the one that is not
doubly reversed). -/
def mkEdge (u v : Nat) : GEdge :=
  if hid v < hid u ∨ (hid u = hid v ∧ hrev u = true ∧ hrev v = true) then
    (hrc v, hrc u)
  else
    (u, v)

/-- Modelled from the spec: the mutable variation graph store (VG), reduced to
the node ids and the canonical edges, which is all the unfolder consults.
Node sequences are irrelevant to every claim and are omitted. -/
structure Graph where
  nodes : List Nat
  edges : List GEdge
deriving Repr, DecidableEq

def Graph.empty : Graph := ⟨[], []⟩

def Graph.hasNode (g : Graph) (n : Nat) : Bool := g.nodes.contains n

def Graph.hasEdge (g : Graph) (e : GEdge) : Bool := g.edges.contains e

def Graph.addNode (g : Graph) (n : Nat) : Graph :=
  if g.nodes.contains n then g else { g with nodes := g.nodes ++ [n] }

def Graph.addEdge (g : Graph) (e : GEdge) : Graph :=
  if g.edges.contains e then g else { g with edges := g.edges ++ [e] }

/-- Modelled from the spec: VG::extend merges another graph into this one. -/
def Graph.extend (g other : Graph) : Graph :=
  let g1 := other.nodes.foldl Graph.addNode g
  other.edges.foldl Graph.addEdge g1

/-- Two graphs are structurally identical when they have the same node set and
the same edge set. -/
def Graph.equiv (g1 g2 : Graph) : Prop :=
  (∀ n, g1.hasNode n = g2.hasNode n) ∧ (∀ e, g1.hasEdge e = g2.hasEdge e)

/-- Modelled from the spec: gcsa::NodeMapping, the persistent append-only
duplicate-to-original identifier map M with fields first_node, next_node and
the sequence of original ids. -/
structure NodeMapping where
  first_node : Nat
  next_node : Nat
  mapping : List Nat
deriving Repr, DecidableEq

/-- The PhaseUnfolder constructor builds the mapping with
`first_node = next_node = next_node argument` and no stored ids. -/
def NodeMapping.init (n : Nat) : NodeMapping := ⟨n, n, []⟩

/-- Modelled from the spec: `M(dup_id)` returns the stored original id for a
duplicate in `[first_node, next_node)` and is the identity elsewhere. -/
def NodeMapping.apply (m : NodeMapping) (x : Nat) : Nat :=
  if m.first_node ≤ x ∧ x < m.next_node then m.mapping.getD (x - m.first_node) x
  else x

/-- Modelled from the spec: `M.insert(original_id)` returns `next_node`,
appends the original id and increments `next_node`. -/
def NodeMapping.insert (m : NodeMapping) (orig : Nat) : Nat × NodeMapping :=
  (m.next_node, ⟨m.first_node, m.next_node + 1, m.mapping ++ [orig]⟩)

/-- PhaseUnfolder::get_mapping. -/
def getMapping (m : NodeMapping) (node : Nat) : Nat := m.apply node

/-! ### The trie duplicator: PhaseUnfolder::insert_path -/

/-- Lexicographic strict comparison of walks (operator< of std::vector). -/
def pathLt : List Nat → List Nat → Bool
  | [], [] => false
  | [], _ :: _ => true
  | _ :: _, [] => false
  | a :: as, b :: bs => a < b || (a == b && pathLt as bs)

/-- The reverse complement of a walk: reverse the sequence and flip the
orientation of every handle. -/
def rcPath (p : List Nat) : List Nat := (p.map hrc).reverse

/-- std::min(path, reverse_complement): the lexicographically smaller of the
walk and its reverse complement (the reverse complement when it is strictly
smaller). -/
def canonicalOf (p : List Nat) : List Nat :=
  if pathLt (rcPath p) p then rcPath p else p

/-- The per-component scratch state of the unfolder: the node mapping M, the
prefix trie P, the reverse-suffix trie S and the crossing-edge set C.  The
tries are association lists keyed by handle pairs (std::unordered_map), the
crossing edges a list without duplicates (std::unordered_set). -/
structure UnfoldState where
  mapping : NodeMapping
  prefixes : List ((Nat × Nat) × Nat)
  suffixes : List ((Nat × Nat) × Nat)
  crossing : List (Nat × Nat)
deriving Repr, DecidableEq

def UnfoldState.init (m : NodeMapping) : UnfoldState := ⟨m, [], [], []⟩

/-- Association-list lookup for the tries. -/
def trieFind (t : List ((Nat × Nat) × Nat)) (k : Nat × Nat) :
    Option Nat :=
  match t.find? (fun e => e.1 == k) with
  | some e => some e.2
  | none => none

/-- Association-list update: replace the value stored for an existing key. -/
def trieSet (t : List ((Nat × Nat) × Nat)) (k : Nat × Nat)
    (v : Nat) : List ((Nat × Nat) × Nat) :=
  t.map (fun e => if e.1 == k then (e.1, v) else e)

/-- One step of the prefix loop of insert_path: `emplace((from, w_i), 0)`
followed by the allocation of a fresh duplicate when the stored value is 0.
Returns the updated trie and mapping together with the value of
`iter->second`, which becomes the new `from`. -/
def trieStep (t : List ((Nat × Nat) × Nat)) (m : NodeMapping)
    (k : Nat × Nat) (wi : Nat) :
    List ((Nat × Nat) × Nat) × NodeMapping × Nat :=
  match trieFind t k with
  | some v =>
      if v == 0 then
        let ⟨newId, m1⟩ := m.insert (hid wi)
        let d := hencode newId (hrev wi)
        (trieSet t k d, m1, d)
      else
        (t, m, v)
  | none =>
      let ⟨newId, m1⟩ := m.insert (hid wi)
      let d := hencode newId (hrev wi)
      (t ++ [(k, d)], m1, d)

/-- The accumulator of the prefix and suffix loops of insert_path: the trie,
the mapping, and the running `from` (or `to`) handle. -/
abbrev TrieAcc := List ((Nat × Nat) × Nat) × NodeMapping × Nat

/-- One iteration of the prefix loop of insert_path at index `i`: the key is
`(from, w_i)` and the value becomes the new `from`. -/
def prefixStep (w : List Nat) (acc : TrieAcc) (i : Nat) : TrieAcc :=
  trieStep acc.1 acc.2.1 (acc.2.2, w.getD i 0) (w.getD i 0)

/-- One iteration of the suffix loop of insert_path at index `i`: the key is
`(w_i, to)` and the value becomes the new `to`. -/
def suffixStep (w : List Nat) (acc : TrieAcc) (i : Nat) : TrieAcc :=
  trieStep acc.1 acc.2.1 (w.getD i 0, acc.2.2) (w.getD i 0)

/-- The prefix loop of insert_path over the canonical walk `w`: the indices
1 .. (L+1)/2 - 1 in increasing order, starting from `from = w[0]`. -/
def prefixFoldOf (st : UnfoldState) (w : List Nat) : TrieAcc :=
  ((List.range ((w.length + 1) / 2)).drop 1).foldl (prefixStep w)
    (st.prefixes, st.mapping, w.headD 0)

/-- The suffix loop of insert_path over the canonical walk `w`: the indices
L-2 down to (L+1)/2, starting from `to = w[L-1]`, with the mapping left by
the prefix loop. -/
def suffixFoldOf (st : UnfoldState) (w : List Nat) (m1 : NodeMapping) :
    TrieAcc :=
  ((List.range' ((w.length + 1) / 2) (w.length - 1 - (w.length + 1) / 2)).reverse).foldl
    (suffixStep w) (st.suffixes, m1, w.getLastD 0)

/-- PhaseUnfolder::insert_path: drop walks shorter than 2, canonicalize,
split at the midpoint `(L+1)/2`, feed the prefix half into the prefix trie
and the suffix half into the reverse-suffix trie (allocating duplicates
through M), and record one crossing edge between the full prefix and the
full suffix. -/
def insertPath (st : UnfoldState) (path : List Nat) : UnfoldState :=
  if path.length < 2 then st
  else
    let w := canonicalOf path
    let a1 := prefixFoldOf st w
    let a2 := suffixFoldOf st w a1.2.1
    -- Crossing edge (set insertion).
    let cross := if st.crossing.contains (a1.2.2, a2.2.2) then st.crossing
                 else st.crossing ++ [(a1.2.2, a2.2.2)]
    ⟨a2.2.1, a1.1, a2.1, cross⟩

/-! ### The verifier: verify_path and PhaseUnfolder::verify_paths -/

/-- A branching point of the verifier search (struct PathBranch): the walk
offset and the duplicate choices at the offset and at offset + 1. -/
structure Branch where
  offset : Nat
  curr : Nat
  next : Nat
deriving Repr, DecidableEq

/-- The reverse mapping original id → candidate duplicate ids, an association
list (std::unordered_map keyed by id). -/
abbrev RevMap := List (Nat × List Nat)

def rmFind (rm : RevMap) (nid : Nat) : Option (List Nat) :=
  match rm.find? (fun e => e.1 == nid) with
  | some e => some e.2
  | none => none

/-- The inner while loop of verify_path, structural on the walk positions that
remain after the current offset.  The stack is a LIFO list whose head is the
top (vector push_back and back/pop_back).  Returns the success flag of the
loop (offset + 1 reached path_size) and the stack as left by the pushes and
clears of the loop. -/
def verifyInner (g : Graph) (rm : RevMap) :
    List Nat → Nat → Nat → Nat → Nat → Nat → List Branch →
    Bool × List Branch
  | [], _, _, _, _, _, stack => (true, stack)
  | h :: rest, o, c, nx, cur, cd, stack =>
      let res := match rmFind rm (hid h) with
        | some dups =>
            let push :=
              if nx + 1 < dups.length then [Branch.mk o c (nx + 1)]
              else if c + 1 < cd then [Branch.mk o (c + 1) 0]
              else []
            (dups.getD nx 0, dups.length, push)
        | none =>
            let push := if c + 1 < cd then [Branch.mk o (c + 1) 0] else []
            (hid h, 0, push)
      let nid := res.1
      let nd := res.2.1
      let stack1 := res.2.2 ++ stack
      let nh := hencode nid (hrev h)
      if g.hasEdge (mkEdge cur nh) then
        let stack2 := if nd ≤ 1 then [] else stack1
        verifyInner g rm rest (o + 1) nx 0 nh nd stack2
      else
        (false, stack1)

/-- The outer pop loop of verify_path, with explicit fuel for the number of
pops; a run that exhausts the fuel yields none. -/
def verifyOuter (g : Graph) (rm : RevMap) (path : List Nat) :
    Nat → List Branch → Option Bool
  | _, [] => some false
  | 0, _ :: _ => none
  | fuel + 1, b :: stack =>
      let h0 := path.getD b.offset 0
      let res := match rmFind rm (hid h0) with
        | some dups => (dups.getD b.curr 0, dups.length)
        | none => (hid h0, 0)
      let cur := hencode res.1 (hrev h0)
      match verifyInner g rm (path.drop (b.offset + 1)) b.offset b.curr b.next
          cur res.2 stack with
      | (true, _) => some true
      | (false, stack1) => verifyOuter g rm path fuel stack1

/-- verify_path: walks shorter than 2 succeed immediately; otherwise run the
branch search from the single initial branch (0, 0, 0). -/
def verifyPath (g : Graph) (rm : RevMap) (path : List Nat) (fuel : Nat) :
    Option Bool :=
  if path.length < 2 then some true
  else verifyOuter g rm path fuel [Branch.mk 0 0 0]

/-- The candidate ids the verifier may assign to a walk position whose
original id is `nid`: the duplicates listed in the reverse mapping, or the
original id itself when the id has no entry. -/
def candidatesOf (rm : RevMap) (nid : Nat) : List Nat :=
  match rmFind rm nid with
  | some dups => dups
  | none => [nid]

/-- The property the claim specifies for the verifier: some assignment of one
candidate id to each remaining walk position makes every consecutive edge
present, starting from the already-chosen handle `cur`. -/
def realizableFrom (g : Graph) (rm : RevMap) : Nat → List Nat → Bool
  | _, [] => true
  | cur, h :: rest =>
      (candidatesOf rm (hid h)).any fun cand =>
        let nh := hencode cand (hrev h)
        g.hasEdge (mkEdge cur nh) && realizableFrom g rm nh rest

/-- Some assignment of one candidate id to each walk position makes every
consecutive edge present (walks shorter than 2 are vacuously realizable). -/
def realizable (g : Graph) (rm : RevMap) (path : List Nat) : Bool :=
  match path with
  | [] => true
  | h :: rest =>
      (candidatesOf rm (hid h)).any fun cand =>
        realizableFrom g rm (hencode cand (hrev h)) rest

/-- Insert into a sorted list (ascending). -/
def insertSorted (x : Nat) : List Nat → List Nat
  | [] => [x]
  | y :: ys => if x ≤ y then x :: y :: ys else y :: insertSorted x ys

/-- Insertion sort (ascending). -/
def sortNat (l : List Nat) : List Nat := l.foldr insertSorted []

/-- Modelled from the spec: gcsa::removeDuplicates sorts the candidate list
and removes the duplicate entries. -/
def removeDuplicates (l : List Nat) : List Nat :=
  (sortNat l).dedup

/-- The reverse mapping original → duplicates built by verify_paths: every
duplicate in [first_node, next_node) under key M(duplicate), plus the
original id itself whenever the verified graph still contains it. -/
def reverseMapping (m : NodeMapping) (g : Graph) : RevMap :=
  let dups := List.range' m.first_node (m.next_node - m.first_node)
  let raw := dups.foldl
    (fun (acc : RevMap) d =>
      let orig := m.apply d
      let old := match rmFind acc orig with
        | some l => l
        | none => []
      let l1 := old ++ [d]
      let l2 := if g.hasNode orig then l1 ++ [orig] else l1
      match rmFind acc orig with
      | some _ => acc.map (fun e => if e.1 == orig then (orig, l2) else e)
      | none => acc ++ [(orig, l2)]) []
  raw.map (fun e => (e.1, removeDuplicates e.2))

/-- PhaseUnfolder::verify_paths: count the reference paths of X and the
haplotype threads of H whose verification fails; none if any verify_path run
ran out of fuel. -/
def verifyPaths (xgPaths gbwtThreads : List (List Nat)) (m : NodeMapping)
    (g : Graph) (fuel : Nat) : Option Nat :=
  let rm := reverseMapping m g
  (xgPaths ++ gbwtThreads).foldl
    (fun acc p =>
      match acc, verifyPath g rm p fuel with
      | some k, some b => some (if b then k else k + 1)
      | _, _ => none)
    (some 0)

/-! ### Evidence indexes

The reference-path index X is a list of paths, each a list of handles
(XGPath reduced to the data the unfolder reads: node id and orientation per
rank).  The haplotype index H is the list of its threads, each a list of
handles; find and extend are the occurrence semantics of the GBWT search
interface described by the spec. -/

abbrev XgIndex := List (List Nat)
abbrev GbwtIndex := List (List Nat)

/-- Modelled from the spec: H.find(handle) returns the search state matching
a single handle, as the positions (thread, index) where it occurs. -/
def gbwtFind (hIdx : GbwtIndex) (h : Nat) : List (Nat × Nat) :=
  (List.range hIdx.length).flatMap fun t =>
    (List.range (hIdx.getD t []).length).filterMap fun i =>
      if (hIdx.getD t []).getD i 0 == h then some (t, i) else none

/-- Modelled from the spec: H.extend advances every occurrence of the search
state by the given handle, keeping the occurrences that still match. -/
def gbwtExtend (hIdx : GbwtIndex) (s : List (Nat × Nat)) (h : Nat) :
    List (Nat × Nat) :=
  s.filterMap fun oc =>
    if oc.2 + 1 < (hIdx.getD oc.1 []).length ∧
        (hIdx.getD oc.1 []).getD (oc.2 + 1) 0 == h then
      some (oc.1, oc.2 + 1)
    else none

/-! ### The complement builder -/

/-- One consecutive pair of the reference-path scan of
PhaseUnfolder::complement_components: when the edge is absent from the input
graph, add both endpoint nodes and the edge to the scratch accumulator. -/
def complementStep (g : Graph) (acc : Graph × Nat) (curr : Nat) :
    Graph × Nat :=
  let e := mkEdge acc.2 curr
  if g.hasEdge e then (acc.1, curr)
  else (((acc.1.addNode (hid e.1)).addNode (hid e.2)).addEdge e, curr)

/-- The scan of one reference path by the complement builder. -/
def complementOfPath (g : Graph) (c : Graph) (p : List Nat) : Graph :=
  match p with
  | [] => c
  | h0 :: rest => (rest.foldl (complementStep g) (c, h0)).1

/-- The XG part of PhaseUnfolder::complement_components: for every
consecutive pair of every reference path, add the nodes and the edge to the
scratch graph when the edge is absent from the input graph. -/
def complementOfPaths (xg : XgIndex) (g : Graph) (scratch : Graph) : Graph :=
  xg.foldl (complementOfPath g) scratch

/-- The GBWT part of PhaseUnfolder::complement_components: enumerate the
oriented handles of H in increasing order and, for each outgoing edge of each
handle (the distinct successors across the threads, the end marker excluded),
add the edge to the scratch graph when it is absent from the input graph. -/
def complementOfThreads (hIdx : GbwtIndex) (g : Graph) (scratch : Graph) :
    Graph :=
  let alphabet := removeDuplicates hIdx.flatten
  alphabet.foldl
    (fun c v =>
      let succs := removeDuplicates
        (hIdx.flatMap fun th =>
          (List.range th.length).filterMap fun i =>
            if th.getD i 0 == v ∧ i + 1 < th.length then
              some (th.getD (i + 1) 0)
            else none)
      succs.foldl
        (fun c2 nxt =>
          let e := mkEdge v nxt
          if g.hasEdge e then c2
          else ((c2.addNode (hid e.1)).addNode (hid e.2)).addEdge e)
        c)
    scratch

/-- The distinct successors of an oriented handle across the threads of H
(the inner enumeration of the GBWT part of complement_components). -/
def succsOf (hIdx : GbwtIndex) (v : Nat) : List Nat :=
  removeDuplicates
    (hIdx.flatMap fun th =>
      (List.range th.length).filterMap fun i =>
        if th.getD i 0 == v ∧ i + 1 < th.length then
          some (th.getD (i + 1) 0)
        else none)

/-- The scratch complement graph of both evidence sources. -/
def complementGraph (xg : XgIndex) (hIdx : GbwtIndex) (g : Graph) : Graph :=
  complementOfThreads hIdx g (complementOfPaths xg g Graph.empty)

/-- Endpoint ids of an edge. -/
def edgeIds (e : GEdge) : List Nat := [hid e.1, hid e.2]

/-- Whether an edge group shares an endpoint id with the given edge. -/
def touchesEdge (e : GEdge) (grp : List GEdge) : Bool :=
  grp.any fun e2 => (edgeIds e2).any fun n => (edgeIds e).contains n

/-- Modelled from the spec: VG::disjoint_subgraphs splits the scratch graph
into weakly connected components.  Each edge is merged with every group that
shares an endpoint id with it. -/
def componentsOfEdges (edges : List GEdge) : List (List GEdge) :=
  edges.foldl
    (fun comps e =>
      ((comps.filter (touchesEdge e)).flatten ++ [e]) ::
        comps.filter (fun grp => ! touchesEdge e grp))
    []

/-- Build a component graph from its edge group: the nodes are the endpoint
ids of its edges. -/
def graphOfEdges (edges : List GEdge) : Graph :=
  ⟨(edges.flatMap edgeIds).dedup, edges⟩

def disjointSubgraphs (g : Graph) : List Graph :=
  (componentsOfEdges g.edges).map graphOfEdges

/-! ### The evidence walk enumerators -/

/-- The extension loop shared by the forward and the backward direction of
PhaseUnfolder::generate_paths: starting from `prev`, consume the upcoming
handles while the edge to the next handle is in the component, stopping after
the first handle whose id is on the border.  Returns the handles pushed onto
the buffer after the starting one. -/
def extendWalk (comp : Graph) (border : List Nat) :
    Nat → List Nat → List Nat
  | _, [] => []
  | prev, curr :: rest =>
      if comp.hasEdge (mkEdge prev curr) then
        curr :: (if border.contains (hid curr) then []
                 else extendWalk comp border curr rest)
      else []

/-- The forward walk of generate_paths from one occurrence: start with the
handle at the occurrence in its recorded orientation and extend toward the
end of the path. -/
def forwardWalk (comp : Graph) (border : List Nat) (p : List Nat)
    (occ : Nat) : List Nat :=
  let start := p.getD occ 0
  start :: extendWalk comp border start (p.drop (occ + 1))

/-- The backward walk of generate_paths from one occurrence: start with the
handle at the occurrence in the flipped orientation and extend toward
position 0 with flipped orientations. -/
def backwardWalk (comp : Graph) (border : List Nat) (p : List Nat)
    (occ : Nat) : List Nat :=
  let start := hrc (p.getD occ 0)
  start :: extendWalk comp border start ((p.take occ).reverse.map hrc)

/-- The occurrences of a node on a path (xg node_ranks_in_path, as the sorted
positions whose handle has the given id). -/
def occurrencesOf (p : List Nat) (node : Nat) : List Nat :=
  (List.range p.length).filter fun i => hid (p.getD i 0) == node

/-- PhaseUnfolder::generate_paths: for every reference path and every
occurrence of the starting node, the forward walk followed by the backward
walk, in enumeration order.  The walks are returned in the order in which
insert_path is called on them. -/
def generatePaths (xg : XgIndex) (comp : Graph) (border : List Nat)
    (start : Nat) : List (List Nat) :=
  xg.flatMap fun p =>
    (occurrencesOf p start).flatMap fun occ =>
      [forwardWalk comp border p occ, backwardWalk comp border p occ]

/-- A GBWT search state paired with the walk so far (state_type). -/
abbrev ThreadState := (List (Nat × Nat)) × List Nat

/-- The extension attempts of one popped state of generate_threads, in the
order of the edges of the component incident to the current node: each
compatible edge endpoint is offered to H.extend, and the non-empty extended
states are pushed.  Returns the pushed states in push order together with the
was_extended flag. -/
def threadExtensions (hIdx : GbwtIndex) (comp : Graph) (st : ThreadState) :
    List ThreadState × Bool :=
  let node := hid (st.2.getLastD 0)
  let isRev := hrev (st.2.getLastD 0)
  let incident := comp.edges.filter fun e =>
    (hid e.1 == node && hrev e.1 == isRev) ||
    (hid e.2 == node && hrev e.2 != isRev)
  incident.foldl
    (fun (acc : List ThreadState × Bool) e =>
      let nxt := if hid e.1 == node && hrev e.1 == isRev then e.2
                 else hrc e.1
      let s1 := gbwtExtend hIdx st.1 nxt
      if s1.isEmpty then acc
      else (acc.1 ++ [(s1, st.2 ++ [nxt])], true))
    ([], false)

/-- The pop loop of PhaseUnfolder::generate_threads, with fuel for the number
of pops.  The stack is a LIFO list whose head is the top; emitted
border-to-border and maximal walks are collected in emission order.  When the
fuel runs out the remaining stack is abandoned (the fuel is always chosen
large enough in the theorems below; with an empty H the stack is empty). -/
def threadLoop (hIdx : GbwtIndex) (comp : Graph) (border : List Nat) :
    Nat → List ThreadState → List (List Nat)
  | 0, _ => []
  | _ + 1, [] => []
  | fuel + 1, st :: stack =>
      if st.2.length ≥ 2 ∧ border.contains (hid (st.2.getLastD 0)) then
        st.2 :: threadLoop hIdx comp border fuel stack
      else
        let ext := threadExtensions hIdx comp st
        if ext.2 then
          threadLoop hIdx comp border fuel (ext.1.reverse ++ stack)
        else
          st.2 :: threadLoop hIdx comp border fuel stack

/-- PhaseUnfolder::create_state: the initial states of a border node, one per
orientation, keeping the non-empty ones.  The push order makes the reverse
orientation the top of the stack. -/
def createStates (hIdx : GbwtIndex) (node : Nat) : List ThreadState :=
  let fw := gbwtFind hIdx (hencode node false)
  let bw := gbwtFind hIdx (hencode node true)
  (if bw.isEmpty then [] else [(bw, [hencode node true])]) ++
  (if fw.isEmpty then [] else [(fw, [hencode node false])])

/-- PhaseUnfolder::generate_threads: run the DFS from the initial states of
the border node. -/
def generateThreads (hIdx : GbwtIndex) (comp : Graph) (border : List Nat)
    (start : Nat) (fuel : Nat) : List (List Nat) :=
  threadLoop hIdx comp border fuel (createStates hIdx start)

/-! ### unfold_component, unfold and restore_paths -/

/-- The node insertion of the assembler: the node keeps the duplicate id of
the handle (the sequence, fetched through M from the original, is not
modelled). -/
def insertNode (unfolded : Graph) (h : Nat) : Graph :=
  unfolded.addNode (hid h)

/-- Materialize one prefix-trie entry: the edge runs from the parent handle
to the duplicate child. -/
def assembleP (g : Graph) (e : (Nat × Nat) × Nat) : Graph :=
  (insertNode (insertNode g e.1.1) e.2).addEdge (mkEdge e.1.1 e.2)

/-- Materialize one suffix-trie entry: the edge runs from the duplicate child
to the parent handle. -/
def assembleS (g : Graph) (e : (Nat × Nat) × Nat) : Graph :=
  (insertNode (insertNode g e.2) e.1.2).addEdge (mkEdge e.2 e.1.2)

/-- Materialize one crossing edge. -/
def assembleC (g : Graph) (e : Nat × Nat) : Graph :=
  (insertNode (insertNode g e.1) e.2).addEdge (mkEdge e.1 e.2)

/-- The assembly part of PhaseUnfolder::unfold_component: materialize the
prefix-trie edges, the suffix-trie edges and the crossing edges in the
unfolded graph. -/
def assemble (st : UnfoldState) (unfolded : Graph) : Graph :=
  st.crossing.foldl assembleC
    (st.suffixes.foldl assembleS (st.prefixes.foldl assembleP unfolded))

/-- PhaseUnfolder::unfold_component: find the border, generate the paths and
the threads from every border node, insert them, and assemble the tries into
the unfolded graph.  Returns the new mapping, the grown unfolded graph and
the number of haplotype paths (the crossing edges of the component). -/
def unfoldComponent (xg : XgIndex) (hIdx : GbwtIndex) (comp : Graph)
    (g : Graph) (m : NodeMapping) (unfolded : Graph) (fuel : Nat) :
    NodeMapping × Graph × Nat :=
  let border := comp.nodes.filter fun n => g.hasNode n
  let walks := border.flatMap fun n =>
    generatePaths xg comp border n ++ generateThreads hIdx comp border n fuel
  let st := walks.foldl insertPath (UnfoldState.init m)
  (st.mapping, assemble st unfolded, st.crossing.length)

/-- PhaseUnfolder::unfold, returning all the parts: the extended input graph,
the final mapping, the unfolded subgraph and the haplotype path count. -/
def unfoldParts (xg : XgIndex) (hIdx : GbwtIndex) (g : Graph)
    (m : NodeMapping) (fuel : Nat) : Graph × NodeMapping × Graph × Nat :=
  let comps := disjointSubgraphs (complementGraph xg hIdx g)
  let res := comps.foldl
    (fun (acc : NodeMapping × Graph × Nat) comp =>
      let r := unfoldComponent xg hIdx comp g acc.1 acc.2.1 fuel
      (r.1, r.2.1, acc.2.2 + r.2.2))
    (m, Graph.empty, 0)
  (g.extend res.2.1, res.1, res.2.1, res.2.2)

/-- PhaseUnfolder::unfold: the extended input graph and the final mapping. -/
def unfold (xg : XgIndex) (hIdx : GbwtIndex) (g : Graph) (m : NodeMapping)
    (fuel : Nat) : Graph × NodeMapping :=
  let r := unfoldParts xg hIdx g m fuel
  (r.1, r.2.1)

/-- One consecutive pair of the restore_paths scan: the candidate edge is
checked against the graph being restored (which grows as the scan
proceeds). -/
def restoreStep (acc : Graph × Nat) (curr : Nat) : Graph × Nat :=
  let e := mkEdge acc.2 curr
  if acc.1.hasEdge e then (acc.1, curr)
  else (((acc.1.addNode (hid e.1)).addNode (hid e.2)).addEdge e, curr)

/-- The scan of one reference path by restore_paths. -/
def restorePath (c : Graph) (p : List Nat) : Graph :=
  match p with
  | [] => c
  | h0 :: rest => (rest.foldl restoreStep (c, h0)).1

/-- PhaseUnfolder::restore_paths: write the missing reference path edges
directly into the graph with the original ids; the node mapping is not
touched (the method is const). -/
def restorePaths (xg : XgIndex) (g : Graph) : Graph :=
  xg.foldl restorePath g

/-! ### Mapping file input and output -/

/-- Modelled from the spec: the file system as seen by read_mapping and
write_mapping.  A readable file holds a serialized node mapping; a name that
cannot be opened maps to none.  Writability is a separate predicate. -/
structure MappingFs where
  readFile : String → Option NodeMapping
  canCreate : String → Bool

/-- PhaseUnfolder::read_mapping: when the file cannot be opened, log to
standard error and return with the mapping unchanged; otherwise replace the
mapping with the loaded one.  The second component is the standard error
output. -/
def readMapping (fs : MappingFs) (m : NodeMapping) (filename : String) :
    NodeMapping × List String :=
  match fs.readFile filename with
  | none =>
      (m, ["[PhaseUnfolder]: cannot open mapping file " ++ filename])
  | some loaded => (loaded, [])

/-- PhaseUnfolder::write_mapping: when the file cannot be created, log to
standard error and return; otherwise the serialized mapping is written.  The
first component is the written content. -/
def writeMapping (fs : MappingFs) (m : NodeMapping) (filename : String) :
    Option NodeMapping × List String :=
  if fs.canCreate filename then (some m, [])
  else (none, ["[PhaseUnfolder]: cannot create mapping file " ++ filename])


/-- The consecutive pairs of a walk. -/
def pairsOf (p : List Nat) : List (Nat × Nat) := p.zip p.tail

/-! ### Invariant predicates -/

/-- A well-formed node mapping: one stored original id per duplicate in
[first_node, next_node). -/
def MappingWf (m : NodeMapping) : Prop :=
  m.first_node ≤ m.next_node ∧
  m.mapping.length = m.next_node - m.first_node

/-- The trie-entry invariant for a prefix-trie entry ((u, v_orig), v_dup):
the duplicate is a real duplicate of the mapping, maps back through M to the
original id, and keeps the orientation of the original. -/
def GoodP (m : NodeMapping) (e : (Nat × Nat) × Nat) : Prop :=
  m.first_node ≤ hid e.2 ∧ hid e.2 < m.next_node ∧
  m.apply (hid e.2) = hid e.1.2 ∧ hrev e.2 = hrev e.1.2

/-- The trie-entry invariant for a suffix-trie entry ((v_orig, u), v_dup). -/
def GoodS (m : NodeMapping) (e : (Nat × Nat) × Nat) : Prop :=
  m.first_node ≤ hid e.2 ∧ hid e.2 < m.next_node ∧
  m.apply (hid e.2) = hid e.1.1 ∧ hrev e.2 = hrev e.1.1

/-- The state records the handle `h` as the entry point of an inserted walk:
either a prefix-trie entry starts its key at `h` (the walk head is the
from-handle of the first prefix edge) or a crossing edge leaves from `h`.
The assembler inserts the node id of `h` in both cases. -/
def HeadIn (st : UnfoldState) (h : Nat) : Prop :=
  (∃ e ∈ st.prefixes, e.1.1 = h) ∨ (∃ c ∈ st.crossing, c.1 = h)

/-- The state records the handle `h` as the exit point of an inserted walk:
either a suffix-trie entry ends its key at `h` or a crossing edge enters
`h`.  The assembler inserts the node id of `h` in both cases. -/
def LastIn (st : UnfoldState) (h : Nat) : Prop :=
  (∃ e ∈ st.suffixes, e.1.2 = h) ∨ (∃ c ∈ st.crossing, c.2 = h)

/-- The running invariant of the per-component state: well-formed mapping,
well-formed trie entries, and a positive first duplicate id (ids start at 1
in vg, so allocated duplicate handles are never the null handle 0). -/
def StInv (st : UnfoldState) : Prop :=
  MappingWf st.mapping ∧ (∀ e ∈ st.prefixes, GoodP st.mapping e) ∧
  (∀ e ∈ st.suffixes, GoodS st.mapping e) ∧ 1 ≤ st.mapping.first_node

/-- The stack discipline of generate_threads over an all-border component:
every pending search state carries either a single starting handle or a
border-ending 2-walk along a component edge. -/
def StateOK (K : Graph) (border : List Nat) (st : ThreadState) : Prop :=
  (∃ h, st.2 = [h]) ∨
  (∃ a b, st.2 = [a, b] ∧ K.hasEdge (mkEdge a b) = true ∧
    border.contains (hid b) = true)

/-- Fuel measure for the pop loop of generate_threads: a starting state may
push up to one state per component edge before it is consumed, and an
extension state is consumed by a single pop. -/
def stackWeight (E : Nat) (stack : List ThreadState) : Nat :=
  (stack.map fun st => if st.2.length = 1 then E + 1 else 1).sum

/-- The handle offered to H.extend for one incident edge of the current
search state (the edge read away from the current node). -/
def nextOf (node : Nat) (isRev : Bool) (e : GEdge) : Nat :=
  if hid e.1 == node && hrev e.1 == isRev then e.2 else hrc e.1

/-- One extension attempt of one popped state of generate_threads. -/
def extStep (hIdx : GbwtIndex) (s0 : List (Nat × Nat)) (w0 : List Nat)
    (node : Nat) (isRev : Bool) (acc : List ThreadState × Bool) (e : GEdge) :
    List ThreadState × Bool :=
  let nxt := nextOf node isRev e
  let s1 := gbwtExtend hIdx s0 nxt
  if s1.isEmpty then acc else (acc.1 ++ [(s1, w0 ++ [nxt])], true)

/-! ### Concrete instances used by the claim evaluations -/

/-- The unfolded graph of the verifier counterexample: edges 1+ to 4+ and
5+ to 3+ (nodes 4 and 5 are duplicates of node 2). -/
def exVerifyGraph : Graph := ⟨[1, 2, 3, 4, 5], [(2, 8), (7, 11)]⟩

/-- The reverse mapping of the verifier counterexample: node 2 has the
duplicates 4 and 5. -/
def exVerifyRm : RevMap := [(2, [4, 5])]


/-! ## Helper lemmas -/

theorem hrc_hrc (h : Nat) : hrc (hrc h) = h := by
  simp only [hrc, beq_iff_eq]
  rcases Nat.mod_two_eq_zero_or_one h with hp | hp
  · have h1 : (h + 1) % 2 = 1 := by omega
    simp [hp, h1]
  · have h0 : (h - 1) % 2 = 0 := by omega
    simp [hp, h0]
    omega

theorem length_rcPath (p : List Nat) : (rcPath p).length = p.length := by
  simp [rcPath]

theorem rcPath_rcPath (p : List Nat) : rcPath (rcPath p) = p := by
  simp [rcPath, List.map_reverse, List.map_map, Function.comp_def, hrc_hrc]

theorem pathLt_asymm (a b : List Nat) (h : pathLt a b = true) :
    pathLt b a = false := by
  induction a generalizing b with
  | nil =>
      cases b with
      | nil => simp [pathLt] at h
      | cons y ys => simp [pathLt]
  | cons x xs ih =>
      cases b with
      | nil => simp [pathLt] at h
      | cons y ys =>
          simp [pathLt] at h ⊢
          rcases h with h | ⟨rfl, h⟩
          · exact ⟨by omega, fun hyx => by omega⟩
          · exact ⟨by omega, fun _ => ih ys h⟩

theorem pathLt_total (a b : List Nat) (hab : pathLt a b = false)
    (hba : pathLt b a = false) : a = b := by
  induction a generalizing b with
  | nil =>
      cases b with
      | nil => rfl
      | cons y ys => simp [pathLt] at hab
  | cons x xs ih =>
      cases b with
      | nil => simp [pathLt] at hba
      | cons y ys =>
          simp [pathLt] at hab hba
          have hxy : x = y := by omega
          subst hxy
          rw [ih ys (hab.2 rfl) (hba.2 rfl)]

theorem canonicalOf_rcPath (p : List Nat) :
    canonicalOf (rcPath p) = canonicalOf p := by
  unfold canonicalOf
  rw [rcPath_rcPath]
  rcases hlt : pathLt (rcPath p) p with _ | _
  · rcases hlt2 : pathLt p (rcPath p) with _ | _
    · simp only [Bool.false_eq_true, if_false]
      exact (pathLt_total _ _ hlt2 hlt).symm
    · simp
  · rw [pathLt_asymm _ _ hlt]
    simp

/-! ## Claim theorems -/

/-- C6: Orientation symmetry.  For every walk W and every state of the tries,
crossing-edge set and mapping, insert_path(W) and insert_path(RC(W)) perform
identical mutations of P, S, C and M, because both reduce to the
lexicographically smaller of W and RC(W) before insertion.  (The theorem
holds without the length restriction of the claim: walks shorter than 2 are
ignored by both calls.) -/
theorem insert_path_orientation_symmetry (st : UnfoldState) (p : List Nat) :
    insertPath st p = insertPath st (rcPath p) := by
  unfold insertPath
  rw [length_rcPath, canonicalOf_rcPath]

/-- C10: verify_path returns true unconditionally for every walk of length 0
or 1, with every unfolded graph and reverse mapping (including the empty
graph), so such walks are never counted among the failures of
verify_paths. -/
theorem verify_path_short_walk (g : Graph) (rm : RevMap) (p : List Nat)
    (fuel : Nat) (h : p.length < 2) : verifyPath g rm p fuel = some true := by
  simp [verifyPath, h]

theorem verify_path_short_walk_witness :
    ([2] : List Nat).length < 2 ∧
    verifyPath Graph.empty [] [2] 0 = some true :=
  ⟨by decide, verify_path_short_walk Graph.empty [] [2] 0 (by decide)⟩

/-- C9: I/O failure atomicity.  For every filename that cannot be opened,
read_mapping and write_mapping log a message to standard error and return
(without throwing: both are total functions of the model), and read_mapping
leaves the node mapping M completely unchanged. -/
theorem mapping_io_failure (fs : MappingFs) (m : NodeMapping) (name : String)
    (hr : fs.readFile name = none) (hw : fs.canCreate name = false) :
    readMapping fs m name =
      (m, ["[PhaseUnfolder]: cannot open mapping file " ++ name]) ∧
    writeMapping fs m name =
      (none, ["[PhaseUnfolder]: cannot create mapping file " ++ name]) := by
  constructor
  · simp [readMapping, hr]
  · simp [writeMapping, hw]

theorem mapping_io_failure_witness :
    (MappingFs.mk (fun _ => none) (fun _ => false)).readFile "x.map" = none ∧
    (MappingFs.mk (fun _ => none) (fun _ => false)).canCreate "x.map" = false ∧
    (readMapping (MappingFs.mk (fun _ => none) (fun _ => false))
        (NodeMapping.init 0) "x.map" =
      ((NodeMapping.init 0),
        ["[PhaseUnfolder]: cannot open mapping file " ++ "x.map"]) ∧
     writeMapping (MappingFs.mk (fun _ => none) (fun _ => false))
        (NodeMapping.init 0) "x.map" =
      (none, ["[PhaseUnfolder]: cannot create mapping file " ++ "x.map"])) :=
  ⟨rfl, rfl,
    mapping_io_failure (MappingFs.mk (fun _ => none) (fun _ => false))
      (NodeMapping.init 0) "x.map" rfl rfl⟩

/-- C2 (code_bug evaluation): at the walk 1+ 2+ 3+ with reverse mapping
2 mapsto [4, 5] and unfolded edges 1+ to 4+ and 5+ to 3+, verify_path
returns true although no assignment of one candidate per position realizes
every consecutive edge, contradicting the claimed equivalence (and the
documented purpose of verify_paths).  The popped branch (offset 1, curr 1,
next 0) resumes at offset 1 without rechecking the edge from offset 0, and
the subsequent unique-candidate commit clears the remaining sound
branches. -/
theorem verify_path_accepts_unrealizable_walk :
    verifyPath exVerifyGraph exVerifyRm [2, 4, 6] 10 = some true ∧
    realizable exVerifyGraph exVerifyRm [2, 4, 6] = false :=
  ⟨by decide, by decide⟩

theorem hid_hencode (n : Nat) (r : Bool) : hid (hencode n r) = n := by
  unfold hid hencode
  cases r <;> simp <;> omega

theorem hrev_hencode (n : Nat) (r : Bool) : hrev (hencode n r) = r := by
  unfold hrev hencode
  cases r <;> simp <;> omega

theorem hid_hrc (h : Nat) : hid (hrc h) = hid h := by
  unfold hid hrc
  rcases Nat.mod_two_eq_zero_or_one h with hp | hp <;> simp [hp] <;> omega

theorem trieFind_eq_none (t : List ((Nat × Nat) × Nat)) (k : Nat × Nat)
    (h : ∀ e ∈ t, e.1 ≠ k) : trieFind t k = none := by
  unfold trieFind
  rw [List.find?_eq_none.mpr]
  intro e he
  simpa using h e he

theorem trieStep_miss (t : List ((Nat × Nat) × Nat)) (m : NodeMapping)
    (k : Nat × Nat) (wi : Nat) (h : trieFind t k = none) :
    trieStep t m k wi =
      (t ++ [(k, hencode m.next_node (hrev wi))],
       ⟨m.first_node, m.next_node + 1, m.mapping ++ [hid wi]⟩,
       hencode m.next_node (hrev wi)) := by
  unfold trieStep NodeMapping.insert
  rw [h]

theorem insertPath_eq (st : UnfoldState) (p : List Nat)
    (h : ¬ p.length < 2) :
    insertPath st p =
      ⟨(suffixFoldOf st (canonicalOf p)
          (prefixFoldOf st (canonicalOf p)).2.1).2.1,
       (prefixFoldOf st (canonicalOf p)).1,
       (suffixFoldOf st (canonicalOf p)
          (prefixFoldOf st (canonicalOf p)).2.1).1,
       if st.crossing.contains ((prefixFoldOf st (canonicalOf p)).2.2,
           (suffixFoldOf st (canonicalOf p)
             (prefixFoldOf st (canonicalOf p)).2.1).2.2) then st.crossing
       else st.crossing ++ [((prefixFoldOf st (canonicalOf p)).2.2,
           (suffixFoldOf st (canonicalOf p)
             (prefixFoldOf st (canonicalOf p)).2.1).2.2)]⟩ := by
  unfold insertPath
  rw [if_neg h]

theorem prefixFold_spec (w : List Nat) (is : List Nat) :
    ∀ (t : List ((Nat × Nat) × Nat)) (m : NodeMapping) (fid : Nat),
    (∀ e ∈ t, hid e.1.1 < hid fid) → hid fid < m.next_node →
    ((is.foldl (prefixStep w) (t, m, fid)).1.length = t.length + is.length ∧
     (is.foldl (prefixStep w) (t, m, fid)).2.1.next_node =
       m.next_node + is.length ∧
     (is.foldl (prefixStep w) (t, m, fid)).2.1.first_node = m.first_node ∧
     hid (is.foldl (prefixStep w) (t, m, fid)).2.2 <
       (is.foldl (prefixStep w) (t, m, fid)).2.1.next_node) := by
  induction is with
  | nil => intro t m fid hT hF; simpa using hF
  | cons i rest ih =>
      intro t m fid hT hF
      have hmiss : trieFind t (fid, w.getD i 0) = none := by
        apply trieFind_eq_none
        intro e he hk
        have := hT e he
        rw [hk] at this
        exact absurd this (lt_irrefl _)
      have hstep : prefixStep w (t, m, fid) i =
          (t ++ [((fid, w.getD i 0), hencode m.next_node (hrev (w.getD i 0)))],
           ⟨m.first_node, m.next_node + 1, m.mapping ++ [hid (w.getD i 0)]⟩,
           hencode m.next_node (hrev (w.getD i 0))) := by
        unfold prefixStep
        exact trieStep_miss _ _ _ _ hmiss
      rw [List.foldl_cons, hstep]
      have hT2 : ∀ e ∈ t ++ [((fid, w.getD i 0),
          hencode m.next_node (hrev (w.getD i 0)))],
          hid e.1.1 < hid (hencode m.next_node (hrev (w.getD i 0))) := by
        rw [hid_hencode]
        intro e he
        rcases List.mem_append.mp he with h1 | h2
        · exact lt_trans (hT e h1) hF
        · rcases List.mem_singleton.mp h2 with rfl
          exact hF
      have hF2 : hid (hencode m.next_node (hrev (w.getD i 0))) <
          (NodeMapping.mk m.first_node (m.next_node + 1)
            (m.mapping ++ [hid (w.getD i 0)])).next_node := by
        rw [hid_hencode]
        simp
      obtain ⟨hl, hn, hf, hfi⟩ := ih _ _ _ hT2 hF2
      refine ⟨?_, ?_, ?_, hfi⟩
      · rw [hl]; simp; omega
      · rw [hn]; simp; omega
      · rw [hf]

theorem suffixFold_spec (w : List Nat) (is : List Nat) :
    ∀ (t : List ((Nat × Nat) × Nat)) (m : NodeMapping) (tid : Nat),
    (∀ e ∈ t, hid e.1.2 < hid tid) → hid tid < m.next_node →
    ((is.foldl (suffixStep w) (t, m, tid)).1.length = t.length + is.length ∧
     (is.foldl (suffixStep w) (t, m, tid)).2.1.next_node =
       m.next_node + is.length ∧
     (is.foldl (suffixStep w) (t, m, tid)).2.1.first_node = m.first_node ∧
     hid (is.foldl (suffixStep w) (t, m, tid)).2.2 <
       (is.foldl (suffixStep w) (t, m, tid)).2.1.next_node) := by
  induction is with
  | nil => intro t m tid hT hF; simpa using hF
  | cons i rest ih =>
      intro t m tid hT hF
      have hmiss : trieFind t (w.getD i 0, tid) = none := by
        apply trieFind_eq_none
        intro e he hk
        have := hT e he
        rw [hk] at this
        exact absurd this (lt_irrefl _)
      have hstep : suffixStep w (t, m, tid) i =
          (t ++ [((w.getD i 0, tid), hencode m.next_node (hrev (w.getD i 0)))],
           ⟨m.first_node, m.next_node + 1, m.mapping ++ [hid (w.getD i 0)]⟩,
           hencode m.next_node (hrev (w.getD i 0))) := by
        unfold suffixStep
        exact trieStep_miss _ _ _ _ hmiss
      rw [List.foldl_cons, hstep]
      have hT2 : ∀ e ∈ t ++ [((w.getD i 0, tid),
          hencode m.next_node (hrev (w.getD i 0)))],
          hid e.1.2 < hid (hencode m.next_node (hrev (w.getD i 0))) := by
        rw [hid_hencode]
        intro e he
        rcases List.mem_append.mp he with h1 | h2
        · exact lt_trans (hT e h1) hF
        · rcases List.mem_singleton.mp h2 with rfl
          exact hF
      have hF2 : hid (hencode m.next_node (hrev (w.getD i 0))) <
          (NodeMapping.mk m.first_node (m.next_node + 1)
            (m.mapping ++ [hid (w.getD i 0)])).next_node := by
        rw [hid_hencode]
        simp
      obtain ⟨hl, hn, hf, hfi⟩ := ih _ _ _ hT2 hF2
      refine ⟨?_, ?_, ?_, hfi⟩
      · rw [hl]; simp; omega
      · rw [hn]; simp; omega
      · rw [hf]

theorem length_canonicalOf (p : List Nat) :
    (canonicalOf p).length = p.length := by
  unfold canonicalOf
  split
  · exact length_rcPath p
  · rfl

theorem hid_lt_of_mem_canonicalOf (p : List Nat) (N : Nat)
    (hall : ∀ h ∈ p, hid h < N) : ∀ h ∈ canonicalOf p, hid h < N := by
  unfold canonicalOf
  split
  · intro h hm
    simp only [rcPath, List.mem_reverse, List.mem_map] at hm
    obtain ⟨x, hx, rfl⟩ := hm
    rw [hid_hrc]
    exact hall x hx
  · exact hall

theorem getLastD_mem (l : List Nat) (d : Nat) (h : l ≠ []) :
    l.getLastD d ∈ l := by
  rw [List.getLastD_eq_getLast? , List.getLast?_eq_getLast l h]
  simp only [Option.getD_some]
  exact List.getLast_mem h

theorem headD_mem (l : List Nat) (d : Nat) (h : l ≠ []) : l.headD d ∈ l := by
  cases l with
  | nil => exact absurd rfl h
  | cons a as => simp

/-- C5: Midpoint split arithmetic.  For every walk of length L at least 2
whose node ids are dominated by next_node (the constructor contract: the
mapping starts past every original id), inserting the walk into empty tries
creates exactly ceil(L/2) - 1 = (L+1)/2 - 1 prefix-trie entries (the indices
1 to (L+1)/2 - 1), exactly floor(L/2) - 1 = L/2 - 1 suffix-trie entries (the
indices L-2 down to (L+1)/2), and exactly one crossing edge; the split index
is (L+1)/2. -/
theorem insert_path_midpoint_split (m : NodeMapping) (p : List Nat)
    (hlen : 2 ≤ p.length) (hids : ∀ h ∈ p, hid h < m.next_node) :
    (insertPath (UnfoldState.init m) p).prefixes.length =
      (p.length + 1) / 2 - 1 ∧
    (insertPath (UnfoldState.init m) p).suffixes.length = p.length / 2 - 1 ∧
    (insertPath (UnfoldState.init m) p).crossing.length = 1 := by
  have hnot : ¬ p.length < 2 := by omega
  have hw : ∀ h ∈ canonicalOf p, hid h < m.next_node :=
    hid_lt_of_mem_canonicalOf p m.next_node hids
  have hwlen : (canonicalOf p).length = p.length := length_canonicalOf p
  have hne : canonicalOf p ≠ [] := by
    intro hc
    rw [hc] at hwlen
    simp at hwlen
    omega
  rw [insertPath_eq _ _ hnot]
  dsimp only
  have e1 : prefixFoldOf (UnfoldState.init m) (canonicalOf p) =
      ((List.range (((canonicalOf p).length + 1) / 2)).drop 1).foldl
        (prefixStep (canonicalOf p)) ([], m, (canonicalOf p).headD 0) := rfl
  rw [e1]
  obtain ⟨hl1, hn1, hf1, hfi1⟩ := prefixFold_spec (canonicalOf p)
    ((List.range (((canonicalOf p).length + 1) / 2)).drop 1)
    [] m ((canonicalOf p).headD 0) (by simp)
    (hw _ (headD_mem _ 0 hne))
  have e2 : ∀ m1, suffixFoldOf (UnfoldState.init m) (canonicalOf p) m1 =
      ((List.range' (((canonicalOf p).length + 1) / 2)
        ((canonicalOf p).length - 1 - ((canonicalOf p).length + 1) / 2)).reverse).foldl
        (suffixStep (canonicalOf p)) ([], m1, (canonicalOf p).getLastD 0) :=
    fun m1 => rfl
  rw [e2]
  obtain ⟨hl2, hn2, hf2, hfi2⟩ := suffixFold_spec (canonicalOf p)
    ((List.range' (((canonicalOf p).length + 1) / 2)
      ((canonicalOf p).length - 1 - ((canonicalOf p).length + 1) / 2)).reverse)
    [] (((List.range (((canonicalOf p).length + 1) / 2)).drop 1).foldl
        (prefixStep (canonicalOf p)) ([], m, (canonicalOf p).headD 0)).2.1
    ((canonicalOf p).getLastD 0) (by simp)
    (by
      have hg := hw _ (getLastD_mem _ 0 hne)
      omega)
  refine ⟨?_, ?_, ?_⟩
  · rw [hl1]
    simp [hwlen]
  · rw [hl2]
    simp only [List.length_nil, List.length_reverse, List.length_range']
    omega
  · rw [show (UnfoldState.init m).crossing = [] from rfl]
    simp

theorem insert_path_midpoint_split_witness :
    (2 ≤ ([2, 4, 6, 8, 10] : List Nat).length ∧
     ∀ h ∈ ([2, 4, 6, 8, 10] : List Nat),
       hid h < (NodeMapping.init 6).next_node) ∧
    ((insertPath (UnfoldState.init (NodeMapping.init 6))
        [2, 4, 6, 8, 10]).prefixes.length =
      (([2, 4, 6, 8, 10] : List Nat).length + 1) / 2 - 1 ∧
     (insertPath (UnfoldState.init (NodeMapping.init 6))
        [2, 4, 6, 8, 10]).suffixes.length =
      ([2, 4, 6, 8, 10] : List Nat).length / 2 - 1 ∧
     (insertPath (UnfoldState.init (NodeMapping.init 6))
        [2, 4, 6, 8, 10]).crossing.length = 1) :=
  ⟨⟨by decide, by decide⟩,
   insert_path_midpoint_split (NodeMapping.init 6) [2, 4, 6, 8, 10]
     (by decide) (by decide)⟩


theorem insert_snd_spec (m : NodeMapping) (orig : Nat) (hwf : MappingWf m) :
    MappingWf (m.insert orig).2 ∧
    (m.insert orig).2.first_node = m.first_node ∧
    (m.insert orig).2.next_node = m.next_node + 1 ∧
    (∀ d, m.first_node ≤ d → d < m.next_node →
      (m.insert orig).2.apply d = m.apply d) ∧
    (m.insert orig).2.apply m.next_node = orig := by
  obtain ⟨h1, h2⟩ := hwf
  unfold NodeMapping.insert
  refine ⟨⟨by simpa using by omega, by simp; omega⟩, rfl, rfl, ?_, ?_⟩
  · intro d hd1 hd2
    unfold NodeMapping.apply
    simp only
    rw [if_pos ⟨hd1, by omega⟩, if_pos ⟨hd1, hd2⟩]
    have hlt : d - m.first_node < m.mapping.length := by omega
    rw [List.getD_eq_getElem?_getD, List.getD_eq_getElem?_getD,
        List.getElem?_append_left hlt]
  · unfold NodeMapping.apply
    simp only
    rw [if_pos ⟨h1, by omega⟩]
    have : m.next_node - m.first_node = m.mapping.length := by omega
    rw [List.getD_eq_getElem?_getD, this]
    simp


theorem GoodP_mono (m1 m2 : NodeMapping) (e : (Nat × Nat) × Nat)
    (hg : GoodP m1 e) (hfi : m2.first_node = m1.first_node)
    (hnx : m1.next_node ≤ m2.next_node)
    (hst : ∀ d, m1.first_node ≤ d → d < m1.next_node →
      m2.apply d = m1.apply d) : GoodP m2 e := by
  obtain ⟨h1, h2, h3, h4⟩ := hg
  exact ⟨by omega, by omega, by rw [hst _ h1 h2]; exact h3, h4⟩

theorem GoodS_mono (m1 m2 : NodeMapping) (e : (Nat × Nat) × Nat)
    (hg : GoodS m1 e) (hfi : m2.first_node = m1.first_node)
    (hnx : m1.next_node ≤ m2.next_node)
    (hst : ∀ d, m1.first_node ≤ d → d < m1.next_node →
      m2.apply d = m1.apply d) : GoodS m2 e := by
  obtain ⟨h1, h2, h3, h4⟩ := hg
  exact ⟨by omega, by omega, by rw [hst _ h1 h2]; exact h3, h4⟩

theorem trieStep_hit (t : List ((Nat × Nat) × Nat)) (m : NodeMapping)
    (k : Nat × Nat) (wi v : Nat) (h : trieFind t k = some v)
    (hv : v ≠ 0) : trieStep t m k wi = (t, m, v) := by
  unfold trieStep
  rw [h]
  simp [hv]

theorem trieStep_zero (t : List ((Nat × Nat) × Nat)) (m : NodeMapping)
    (k : Nat × Nat) (wi : Nat) (h : trieFind t k = some 0) :
    trieStep t m k wi =
      (trieSet t k (hencode m.next_node (hrev wi)),
       ⟨m.first_node, m.next_node + 1, m.mapping ++ [hid wi]⟩,
       hencode m.next_node (hrev wi)) := by
  unfold trieStep NodeMapping.insert
  rw [h]
  simp

theorem trieStep_spec (t : List ((Nat × Nat) × Nat)) (m : NodeMapping)
    (k : Nat × Nat) (wi : Nat) (hwf : MappingWf m) :
    MappingWf (trieStep t m k wi).2.1 ∧
    (trieStep t m k wi).2.1.first_node = m.first_node ∧
    m.next_node ≤ (trieStep t m k wi).2.1.next_node ∧
    (∀ d, m.first_node ≤ d → d < m.next_node →
      (trieStep t m k wi).2.1.apply d = m.apply d) ∧
    (∀ e ∈ (trieStep t m k wi).1,
      e ∈ t ∨
      (e.1 = k ∧ m.first_node ≤ hid e.2 ∧
       hid e.2 < (trieStep t m k wi).2.1.next_node ∧
       (trieStep t m k wi).2.1.apply (hid e.2) = hid wi ∧
       hrev e.2 = hrev wi)) := by
  obtain ⟨hw1, hw2, hw3, hw4, hw5⟩ := insert_snd_spec m (hid wi) hwf
  rcases hf : trieFind t k with _ | v
  · rw [trieStep_miss t m k wi hf]
    have hm : (⟨m.first_node, m.next_node + 1, m.mapping ++ [hid wi]⟩ :
        NodeMapping) = (m.insert (hid wi)).2 := rfl
    rw [hm]
    dsimp only
    refine ⟨hw1, hw2, by rw [hw3]; omega, hw4, ?_⟩
    intro e he
    rcases List.mem_append.mp he with h1 | h2
    · exact Or.inl h1
    · rcases List.mem_singleton.mp h2 with rfl
      refine Or.inr ⟨rfl, ?_, ?_, ?_, hrev_hencode _ _⟩
      · rw [hid_hencode]; exact hwf.1
      · rw [hid_hencode, hw3]; omega
      · rw [hid_hencode]; exact hw5
  · by_cases hv : v = 0
    · subst hv
      rw [trieStep_zero t m k wi hf]
      have hm : (⟨m.first_node, m.next_node + 1, m.mapping ++ [hid wi]⟩ :
          NodeMapping) = (m.insert (hid wi)).2 := rfl
      rw [hm]
      dsimp only
      refine ⟨hw1, hw2, by rw [hw3]; omega, hw4, ?_⟩
      intro e he
      unfold trieSet at he
      rcases List.mem_map.mp he with ⟨e0, he0, heq⟩
      by_cases hk : e0.1 = k
      · rw [if_pos (by simpa using hk)] at heq
        subst heq
        refine Or.inr ⟨hk, ?_, ?_, ?_, hrev_hencode _ _⟩
        · rw [hid_hencode]; exact hwf.1
        · rw [hid_hencode, hw3]; omega
        · rw [hid_hencode]; exact hw5
      · rw [if_neg (by simpa using hk)] at heq
        subst heq
        exact Or.inl he0
    · rw [trieStep_hit t m k wi v hf hv]
      exact ⟨hwf, rfl, le_refl _, fun d _ _ => rfl, fun e he => Or.inl he⟩


theorem prefixFold_preserves (w : List Nat) (is : List Nat) :
    ∀ (acc : TrieAcc), MappingWf acc.2.1 →
    (∀ e ∈ acc.1, GoodP acc.2.1 e) →
    (MappingWf (is.foldl (prefixStep w) acc).2.1 ∧
     (is.foldl (prefixStep w) acc).2.1.first_node = acc.2.1.first_node ∧
     acc.2.1.next_node ≤ (is.foldl (prefixStep w) acc).2.1.next_node ∧
     (∀ d, acc.2.1.first_node ≤ d → d < acc.2.1.next_node →
       (is.foldl (prefixStep w) acc).2.1.apply d = acc.2.1.apply d) ∧
     (∀ e ∈ (is.foldl (prefixStep w) acc).1,
       GoodP (is.foldl (prefixStep w) acc).2.1 e)) := by
  induction is with
  | nil =>
      intro acc hwf hg
      exact ⟨hwf, rfl, le_refl _, fun d _ _ => rfl, hg⟩
  | cons i rest ih =>
      intro acc hwf hg
      rw [List.foldl_cons]
      have hdef : prefixStep w acc i =
          trieStep acc.1 acc.2.1 (acc.2.2, w.getD i 0) (w.getD i 0) := rfl
      obtain ⟨hs1, hs2, hs3, hs4, hs5⟩ :=
        trieStep_spec acc.1 acc.2.1 (acc.2.2, w.getD i 0) (w.getD i 0) hwf
      rw [← hdef] at hs1 hs2 hs3 hs4 hs5
      have hg2 : ∀ e ∈ (prefixStep w acc i).1,
          GoodP (prefixStep w acc i).2.1 e := by
        intro e he
        rcases hs5 e he with hold | ⟨hk, hb1, hb2, hb3, hb4⟩
        · exact GoodP_mono _ _ _ (hg e hold) hs2 hs3 hs4
        · refine ⟨by rw [hs2]; exact hb1, hb2, ?_, ?_⟩
          · rw [hb3, hk]
          · rw [hb4, hk]
      obtain ⟨hr1, hr2, hr3, hr4, hr5⟩ := ih (prefixStep w acc i) hs1 hg2
      refine ⟨hr1, by rw [hr2, hs2], by omega, ?_, hr5⟩
      intro d hd1 hd2
      rw [hr4 d (by rw [hs2]; exact hd1) (by omega), hs4 d hd1 hd2]

theorem suffixFold_preserves (w : List Nat) (is : List Nat) :
    ∀ (acc : TrieAcc), MappingWf acc.2.1 →
    (∀ e ∈ acc.1, GoodS acc.2.1 e) →
    (MappingWf (is.foldl (suffixStep w) acc).2.1 ∧
     (is.foldl (suffixStep w) acc).2.1.first_node = acc.2.1.first_node ∧
     acc.2.1.next_node ≤ (is.foldl (suffixStep w) acc).2.1.next_node ∧
     (∀ d, acc.2.1.first_node ≤ d → d < acc.2.1.next_node →
       (is.foldl (suffixStep w) acc).2.1.apply d = acc.2.1.apply d) ∧
     (∀ e ∈ (is.foldl (suffixStep w) acc).1,
       GoodS (is.foldl (suffixStep w) acc).2.1 e)) := by
  induction is with
  | nil =>
      intro acc hwf hg
      exact ⟨hwf, rfl, le_refl _, fun d _ _ => rfl, hg⟩
  | cons i rest ih =>
      intro acc hwf hg
      rw [List.foldl_cons]
      have hdef : suffixStep w acc i =
          trieStep acc.1 acc.2.1 (w.getD i 0, acc.2.2) (w.getD i 0) := rfl
      obtain ⟨hs1, hs2, hs3, hs4, hs5⟩ :=
        trieStep_spec acc.1 acc.2.1 (w.getD i 0, acc.2.2) (w.getD i 0) hwf
      rw [← hdef] at hs1 hs2 hs3 hs4 hs5
      have hg2 : ∀ e ∈ (suffixStep w acc i).1,
          GoodS (suffixStep w acc i).2.1 e := by
        intro e he
        rcases hs5 e he with hold | ⟨hk, hb1, hb2, hb3, hb4⟩
        · exact GoodS_mono _ _ _ (hg e hold) hs2 hs3 hs4
        · refine ⟨by rw [hs2]; exact hb1, hb2, ?_, ?_⟩
          · rw [hb3, hk]
          · rw [hb4, hk]
      obtain ⟨hr1, hr2, hr3, hr4, hr5⟩ := ih (suffixStep w acc i) hs1 hg2
      refine ⟨hr1, by rw [hr2, hs2], by omega, ?_, hr5⟩
      intro d hd1 hd2
      rw [hr4 d (by rw [hs2]; exact hd1) (by omega), hs4 d hd1 hd2]

theorem insertPath_preserves_inv (st : UnfoldState) (p : List Nat)
    (hwf : MappingWf st.mapping)
    (hp : ∀ e ∈ st.prefixes, GoodP st.mapping e)
    (hs : ∀ e ∈ st.suffixes, GoodS st.mapping e) :
    MappingWf (insertPath st p).mapping ∧
    (∀ e ∈ (insertPath st p).prefixes, GoodP (insertPath st p).mapping e) ∧
    (∀ e ∈ (insertPath st p).suffixes, GoodS (insertPath st p).mapping e) := by
  by_cases hlen : p.length < 2
  · unfold insertPath
    rw [if_pos hlen]
    exact ⟨hwf, hp, hs⟩
  · rw [insertPath_eq st p hlen]
    dsimp only
    have e1 : prefixFoldOf st (canonicalOf p) =
        ((List.range (((canonicalOf p).length + 1) / 2)).drop 1).foldl
          (prefixStep (canonicalOf p))
          (st.prefixes, st.mapping, (canonicalOf p).headD 0) := rfl
    obtain ⟨h11, h12, h13, h14, h15⟩ := prefixFold_preserves (canonicalOf p)
      ((List.range (((canonicalOf p).length + 1) / 2)).drop 1)
      (st.prefixes, st.mapping, (canonicalOf p).headD 0) hwf hp
    rw [← e1] at h11 h12 h13 h14 h15
    have e2 : suffixFoldOf st (canonicalOf p) (prefixFoldOf st (canonicalOf p)).2.1 =
        ((List.range' (((canonicalOf p).length + 1) / 2)
          ((canonicalOf p).length - 1 - ((canonicalOf p).length + 1) / 2)).reverse).foldl
          (suffixStep (canonicalOf p))
          (st.suffixes, (prefixFoldOf st (canonicalOf p)).2.1,
           (canonicalOf p).getLastD 0) := rfl
    have hs2 : ∀ e ∈ st.suffixes,
        GoodS (prefixFoldOf st (canonicalOf p)).2.1 e := by
      intro e he
      exact GoodS_mono _ _ _ (hs e he) h12 h13 h14
    obtain ⟨h21, h22, h23, h24, h25⟩ := suffixFold_preserves (canonicalOf p)
      ((List.range' (((canonicalOf p).length + 1) / 2)
        ((canonicalOf p).length - 1 - ((canonicalOf p).length + 1) / 2)).reverse)
      (st.suffixes, (prefixFoldOf st (canonicalOf p)).2.1,
       (canonicalOf p).getLastD 0) h11 hs2
    rw [← e2] at h21 h22 h23 h24 h25
    refine ⟨h21, ?_, h25⟩
    intro e he
    exact GoodP_mono _ _ _ (h15 e he) h22 h23 h24


theorem insertPath_fold_inv (ws : List (List Nat)) :
    ∀ (st : UnfoldState), MappingWf st.mapping →
    (∀ e ∈ st.prefixes, GoodP st.mapping e) →
    (∀ e ∈ st.suffixes, GoodS st.mapping e) →
    (MappingWf (ws.foldl insertPath st).mapping ∧
     (∀ e ∈ (ws.foldl insertPath st).prefixes,
       GoodP (ws.foldl insertPath st).mapping e) ∧
     (∀ e ∈ (ws.foldl insertPath st).suffixes,
       GoodS (ws.foldl insertPath st).mapping e)) := by
  induction ws with
  | nil => intro st h1 h2 h3; exact ⟨h1, h2, h3⟩
  | cons p rest ih =>
      intro st h1 h2 h3
      rw [List.foldl_cons]
      obtain ⟨g1, g2, g3⟩ := insertPath_preserves_inv st p h1 h2 h3
      exact ih (insertPath st p) g1 g2 g3

/-- C7: Trie-entry mapping invariant.  After any sequence of insert_path
calls starting from the per-component initial state (empty tries, any
well-formed mapping), every stored prefix-trie entry P[(u, v_orig)] = v_dup
satisfies M(id(v_dup)) = id(v_orig) and reverse(v_dup) = reverse(v_orig),
and symmetrically every suffix-trie entry S[(v_orig, u)] = v_dup maps back
through M to id(v_orig) with the orientation of v_orig. -/
theorem trie_entry_mapping_invariant (m0 : NodeMapping)
    (ws : List (List Nat)) (hwf : MappingWf m0) :
    (∀ e ∈ (ws.foldl insertPath (UnfoldState.init m0)).prefixes,
      (ws.foldl insertPath (UnfoldState.init m0)).mapping.apply (hid e.2) =
        hid e.1.2 ∧ hrev e.2 = hrev e.1.2) ∧
    (∀ e ∈ (ws.foldl insertPath (UnfoldState.init m0)).suffixes,
      (ws.foldl insertPath (UnfoldState.init m0)).mapping.apply (hid e.2) =
        hid e.1.1 ∧ hrev e.2 = hrev e.1.1) := by
  obtain ⟨g1, g2, g3⟩ := insertPath_fold_inv ws (UnfoldState.init m0) hwf
    (by intro e he; simp [UnfoldState.init] at he)
    (by intro e he; simp [UnfoldState.init] at he)
  constructor
  · intro e he
    obtain ⟨_, _, h3, h4⟩ := g2 e he
    exact ⟨h3, h4⟩
  · intro e he
    obtain ⟨_, _, h3, h4⟩ := g3 e he
    exact ⟨h3, h4⟩

theorem trie_entry_mapping_invariant_witness :
    MappingWf (NodeMapping.init 4) ∧
    ((∀ e ∈ (([[2, 4, 6], [2, 8, 6]] : List (List Nat)).foldl insertPath
        (UnfoldState.init (NodeMapping.init 4))).prefixes,
      (([[2, 4, 6], [2, 8, 6]] : List (List Nat)).foldl insertPath
        (UnfoldState.init (NodeMapping.init 4))).mapping.apply (hid e.2) =
        hid e.1.2 ∧ hrev e.2 = hrev e.1.2) ∧
     (∀ e ∈ (([[2, 4, 6], [2, 8, 6]] : List (List Nat)).foldl insertPath
        (UnfoldState.init (NodeMapping.init 4))).suffixes,
      (([[2, 4, 6], [2, 8, 6]] : List (List Nat)).foldl insertPath
        (UnfoldState.init (NodeMapping.init 4))).mapping.apply (hid e.2) =
        hid e.1.1 ∧ hrev e.2 = hrev e.1.1)) :=
  ⟨⟨by decide, by decide⟩,
   trie_entry_mapping_invariant (NodeMapping.init 4) [[2, 4, 6], [2, 8, 6]]
     ⟨by decide, by decide⟩⟩

/-! ## Graph operation lemmas -/

theorem hasNode_addNode (g : Graph) (n x : Nat) :
    (g.addNode n).hasNode x = true ↔ (g.hasNode x = true ∨ x = n) := by
  unfold Graph.addNode Graph.hasNode
  split
  · rename_i hc
    constructor
    · exact fun h => Or.inl h
    · rintro (h | rfl)
      · exact h
      · simpa using hc
  · simp

theorem hasEdge_addNode (g : Graph) (n : Nat) (e : GEdge) :
    (g.addNode n).hasEdge e = g.hasEdge e := by
  unfold Graph.addNode Graph.hasEdge
  split <;> rfl

theorem hasNode_addEdge (g : Graph) (e : GEdge) (x : Nat) :
    (g.addEdge e).hasNode x = g.hasNode x := by
  unfold Graph.addEdge Graph.hasNode
  split <;> rfl

theorem hasEdge_addEdge (g : Graph) (e f : GEdge) :
    (g.addEdge e).hasEdge f = true ↔ (g.hasEdge f = true ∨ f = e) := by
  unfold Graph.addEdge Graph.hasEdge
  split
  · rename_i hc
    constructor
    · exact fun h => Or.inl h
    · rintro (h | rfl)
      · exact h
      · simpa using hc
  · simp

theorem foldl_addNode_spec (ns : List Nat) :
    ∀ (g : Graph) (x : Nat),
    ((ns.foldl Graph.addNode g).hasNode x = true ↔
      (g.hasNode x = true ∨ x ∈ ns)) ∧
    (∀ e, (ns.foldl Graph.addNode g).hasEdge e = g.hasEdge e) := by
  induction ns with
  | nil => intro g x; simp
  | cons n rest ih =>
      intro g x
      rw [List.foldl_cons]
      constructor
      · rw [(ih (g.addNode n) x).1, hasNode_addNode]
        simp
        tauto
      · intro e
        rw [(ih (g.addNode n) x).2 e, hasEdge_addNode]

theorem foldl_addEdge_spec (es : List GEdge) :
    ∀ (g : Graph) (f : GEdge),
    ((es.foldl Graph.addEdge g).hasEdge f = true ↔
      (g.hasEdge f = true ∨ f ∈ es)) ∧
    (∀ x, (es.foldl Graph.addEdge g).hasNode x = g.hasNode x) := by
  induction es with
  | nil => intro g f; simp
  | cons n rest ih =>
      intro g f
      rw [List.foldl_cons]
      constructor
      · rw [(ih (g.addEdge n) f).1, hasEdge_addEdge]
        simp
        tauto
      · intro x
        rw [(ih (g.addEdge n) f).2 x, hasNode_addEdge]

theorem extend_hasNode (g o : Graph) (x : Nat) :
    (g.extend o).hasNode x = true ↔
      (g.hasNode x = true ∨ o.hasNode x = true) := by
  unfold Graph.extend
  rw [(foldl_addEdge_spec o.edges _ (0, 0)).2 x,
      (foldl_addNode_spec o.nodes g x).1]
  unfold Graph.hasNode
  simp

theorem extend_hasEdge (g o : Graph) (e : GEdge) :
    (g.extend o).hasEdge e = true ↔
      (g.hasEdge e = true ∨ o.hasEdge e = true) := by
  unfold Graph.extend
  rw [(foldl_addEdge_spec o.edges _ e).1,
      (foldl_addNode_spec o.nodes g 0).2 e]
  unfold Graph.hasEdge
  simp

/-! ## Complement builder characterization -/

theorem complementStep_snd (g : Graph) (acc : Graph × Nat) (curr : Nat) :
    (complementStep g acc curr).2 = curr := by
  unfold complementStep
  dsimp only
  split <;> rfl

theorem complementStep_hasEdge (g : Graph) (acc : Graph × Nat) (curr : Nat)
    (f : GEdge) :
    (complementStep g acc curr).1.hasEdge f = true ↔
      (acc.1.hasEdge f = true ∨
       (f = mkEdge acc.2 curr ∧ g.hasEdge (mkEdge acc.2 curr) = false)) := by
  unfold complementStep
  dsimp only
  split
  · rename_i hg
    constructor
    · exact fun h => Or.inl h
    · rintro (h | ⟨rfl, hmiss⟩)
      · exact h
      · rw [hg] at hmiss
        exact Bool.noConfusion hmiss
  · rename_i hg
    rw [hasEdge_addEdge, hasEdge_addNode, hasEdge_addNode]
    have hgf : g.hasEdge (mkEdge acc.2 curr) = false :=
      Bool.eq_false_iff.mpr hg
    constructor
    · rintro (h | rfl)
      · exact Or.inl h
      · exact Or.inr ⟨rfl, hgf⟩
    · rintro (h | ⟨rfl, _⟩)
      · exact Or.inl h
      · exact Or.inr rfl

theorem complementStep_hasNode (g : Graph) (acc : Graph × Nat) (curr : Nat)
    (x : Nat) :
    (complementStep g acc curr).1.hasNode x = true ↔
      (acc.1.hasNode x = true ∨
       (x ∈ edgeIds (mkEdge acc.2 curr) ∧
        g.hasEdge (mkEdge acc.2 curr) = false)) := by
  unfold complementStep
  dsimp only
  split
  · rename_i hg
    constructor
    · exact fun h => Or.inl h
    · rintro (h | ⟨_, hmiss⟩)
      · exact h
      · rw [hg] at hmiss
        exact Bool.noConfusion hmiss
  · rename_i hg
    rw [hasNode_addEdge, hasNode_addNode, hasNode_addNode]
    have hgf : g.hasEdge (mkEdge acc.2 curr) = false :=
      Bool.eq_false_iff.mpr hg
    unfold edgeIds
    constructor
    · rintro ((h | rfl) | rfl)
      · exact Or.inl h
      · exact Or.inr ⟨by simp, hgf⟩
      · exact Or.inr ⟨by simp, hgf⟩
    · rintro (h | ⟨hx, _⟩)
      · exact Or.inl (Or.inl h)
      · simp at hx
        rcases hx with rfl | rfl
        · exact Or.inl (Or.inr rfl)
        · exact Or.inr rfl

theorem complementFold_spec (g : Graph) (rest : List Nat) :
    ∀ (c : Graph) (prev : Nat),
    (∀ f, ((rest.foldl (complementStep g) (c, prev)).1.hasEdge f = true ↔
      (c.hasEdge f = true ∨ ∃ pr ∈ pairsOf (prev :: rest),
        f = mkEdge pr.1 pr.2 ∧ g.hasEdge (mkEdge pr.1 pr.2) = false))) ∧
    (∀ x, ((rest.foldl (complementStep g) (c, prev)).1.hasNode x = true ↔
      (c.hasNode x = true ∨ ∃ pr ∈ pairsOf (prev :: rest),
        x ∈ edgeIds (mkEdge pr.1 pr.2) ∧
        g.hasEdge (mkEdge pr.1 pr.2) = false))) := by
  induction rest with
  | nil =>
      intro c prev
      constructor
      · intro f
        simp [pairsOf]
      · intro x
        simp [pairsOf]
  | cons r1 rest2 ih =>
      intro c prev
      rw [List.foldl_cons]
      have hstep : complementStep g (c, prev) r1 =
          ((complementStep g (c, prev) r1).1, r1) :=
        Prod.ext rfl (complementStep_snd g (c, prev) r1)
      rw [hstep]
      have hpairs : pairsOf (prev :: r1 :: rest2) =
          (prev, r1) :: pairsOf (r1 :: rest2) := rfl
      constructor
      · intro f
        rw [(ih _ r1).1 f, complementStep_hasEdge, hpairs]
        simp only [List.mem_cons]
        constructor
        · rintro ((h | h) | ⟨pr, hpr, h1, h2⟩)
          · exact Or.inl h
          · exact Or.inr ⟨(prev, r1), Or.inl rfl, h⟩
          · exact Or.inr ⟨pr, Or.inr hpr, h1, h2⟩
        · rintro (h | ⟨pr, hpr | hpr, h1, h2⟩)
          · exact Or.inl (Or.inl h)
          · subst hpr
            exact Or.inl (Or.inr ⟨h1, h2⟩)
          · exact Or.inr ⟨pr, hpr, h1, h2⟩
      · intro x
        rw [(ih _ r1).2 x, complementStep_hasNode, hpairs]
        simp only [List.mem_cons]
        constructor
        · rintro ((h | h) | ⟨pr, hpr, h1, h2⟩)
          · exact Or.inl h
          · exact Or.inr ⟨(prev, r1), Or.inl rfl, h⟩
          · exact Or.inr ⟨pr, Or.inr hpr, h1, h2⟩
        · rintro (h | ⟨pr, hpr | hpr, h1, h2⟩)
          · exact Or.inl (Or.inl h)
          · subst hpr
            exact Or.inl (Or.inr ⟨h1, h2⟩)
          · exact Or.inr ⟨pr, hpr, h1, h2⟩

theorem complementOfPath_spec (g : Graph) (p : List Nat) (c : Graph) :
    (∀ f, ((complementOfPath g c p).hasEdge f = true ↔
      (c.hasEdge f = true ∨ ∃ pr ∈ pairsOf p,
        f = mkEdge pr.1 pr.2 ∧ g.hasEdge (mkEdge pr.1 pr.2) = false))) ∧
    (∀ x, ((complementOfPath g c p).hasNode x = true ↔
      (c.hasNode x = true ∨ ∃ pr ∈ pairsOf p,
        x ∈ edgeIds (mkEdge pr.1 pr.2) ∧
        g.hasEdge (mkEdge pr.1 pr.2) = false))) := by
  cases p with
  | nil =>
      unfold complementOfPath
      constructor
      · intro f; simp [pairsOf]
      · intro x; simp [pairsOf]
  | cons h0 rest =>
      unfold complementOfPath
      exact complementFold_spec g rest c h0

theorem complementOfPaths_spec (g : Graph) (xg : XgIndex) :
    ∀ (scratch : Graph),
    (∀ f, ((complementOfPaths xg g scratch).hasEdge f = true ↔
      (scratch.hasEdge f = true ∨ ∃ p ∈ xg, ∃ pr ∈ pairsOf p,
        f = mkEdge pr.1 pr.2 ∧ g.hasEdge (mkEdge pr.1 pr.2) = false))) ∧
    (∀ x, ((complementOfPaths xg g scratch).hasNode x = true ↔
      (scratch.hasNode x = true ∨ ∃ p ∈ xg, ∃ pr ∈ pairsOf p,
        x ∈ edgeIds (mkEdge pr.1 pr.2) ∧
        g.hasEdge (mkEdge pr.1 pr.2) = false))) := by
  induction xg with
  | nil =>
      intro scratch
      constructor
      · intro f; simp [complementOfPaths]
      · intro x; simp [complementOfPaths]
  | cons p rest ih =>
      intro scratch
      have hfold : complementOfPaths (p :: rest) g scratch =
          complementOfPaths rest g (complementOfPath g scratch p) := rfl
      rw [hfold]
      constructor
      · intro f
        rw [(ih _).1 f, (complementOfPath_spec g p scratch).1 f]
        simp only [List.mem_cons]
        constructor
        · rintro ((h | ⟨pr, hpr, h1, h2⟩) | ⟨q, hq, pr, hpr, h1, h2⟩)
          · exact Or.inl h
          · exact Or.inr ⟨p, Or.inl rfl, pr, hpr, h1, h2⟩
          · exact Or.inr ⟨q, Or.inr hq, pr, hpr, h1, h2⟩
        · rintro (h | ⟨q, hq | hq, pr, hpr, h1, h2⟩)
          · exact Or.inl (Or.inl h)
          · subst hq
            exact Or.inl (Or.inr ⟨pr, hpr, h1, h2⟩)
          · exact Or.inr ⟨q, hq, pr, hpr, h1, h2⟩
      · intro x
        rw [(ih _).2 x, (complementOfPath_spec g p scratch).2 x]
        simp only [List.mem_cons]
        constructor
        · rintro ((h | ⟨pr, hpr, h1, h2⟩) | ⟨q, hq, pr, hpr, h1, h2⟩)
          · exact Or.inl h
          · exact Or.inr ⟨p, Or.inl rfl, pr, hpr, h1, h2⟩
          · exact Or.inr ⟨q, Or.inr hq, pr, hpr, h1, h2⟩
        · rintro (h | ⟨q, hq | hq, pr, hpr, h1, h2⟩)
          · exact Or.inl (Or.inl h)
          · subst hq
            exact Or.inl (Or.inr ⟨pr, hpr, h1, h2⟩)
          · exact Or.inr ⟨q, hq, pr, hpr, h1, h2⟩

theorem complementGraph_no_threads (xg : XgIndex) (g : Graph) :
    complementGraph xg [] g = complementOfPaths xg g Graph.empty := rfl

theorem complementGraph_spec (xg : XgIndex) (g : Graph) :
    (∀ f, ((complementGraph xg [] g).hasEdge f = true ↔
      (∃ p ∈ xg, ∃ pr ∈ pairsOf p,
        f = mkEdge pr.1 pr.2 ∧ g.hasEdge (mkEdge pr.1 pr.2) = false))) ∧
    (∀ x, ((complementGraph xg [] g).hasNode x = true ↔
      (∃ p ∈ xg, ∃ pr ∈ pairsOf p,
        x ∈ edgeIds (mkEdge pr.1 pr.2) ∧
        g.hasEdge (mkEdge pr.1 pr.2) = false))) := by
  rw [complementGraph_no_threads]
  constructor
  · intro f
    rw [(complementOfPaths_spec g xg Graph.empty).1 f]
    have : Graph.empty.hasEdge f = false := rfl
    simp [this]
  · intro x
    rw [(complementOfPaths_spec g xg Graph.empty).2 x]
    have : Graph.empty.hasNode x = false := rfl
    simp [this]

/-! ## Component partition lemmas -/

theorem componentsOfEdges_mem (es : List GEdge) :
    ∀ (comps : List (List GEdge)) (x : GEdge),
    ((∃ grp ∈ es.foldl
        (fun comps e =>
          ((comps.filter (touchesEdge e)).flatten ++ [e]) ::
            comps.filter (fun grp => ! touchesEdge e grp))
        comps, x ∈ grp) ↔
      ((∃ grp ∈ comps, x ∈ grp) ∨ x ∈ es)) := by
  induction es with
  | nil => intro comps x; simp
  | cons e rest ih =>
      intro comps x
      rw [List.foldl_cons, ih]
      constructor
      · rintro (⟨grp, hgrp, hx⟩ | hx)
        · rcases List.mem_cons.mp hgrp with rfl | hgrp2
          · rcases List.mem_append.mp hx with h1 | h2
            · rcases List.mem_flatten.mp h1 with ⟨t, ht, hxt⟩
              exact Or.inl ⟨t, (List.mem_filter.mp ht).1, hxt⟩
            · rcases List.mem_singleton.mp h2 with rfl
              exact Or.inr (List.mem_cons_self _ _)
          · exact Or.inl ⟨grp, (List.mem_filter.mp hgrp2).1, hx⟩
        · exact Or.inr (List.mem_cons_of_mem _ hx)
      · rintro (⟨grp, hgrp, hx⟩ | hx)
        · by_cases ht : touchesEdge e grp = true
          · refine Or.inl ⟨(comps.filter (touchesEdge e)).flatten ++ [e],
              List.mem_cons_self _ _, ?_⟩
            exact List.mem_append.mpr (Or.inl (List.mem_flatten.mpr
              ⟨grp, List.mem_filter.mpr ⟨hgrp, ht⟩, hx⟩))
          · refine Or.inl ⟨grp, List.mem_cons_of_mem _
              (List.mem_filter.mpr ⟨hgrp, by simp [ht]⟩), hx⟩
        · rcases List.mem_cons.mp hx with rfl | hx2
          · exact Or.inl ⟨(comps.filter (touchesEdge x)).flatten ++ [x],
              List.mem_cons_self _ _, List.mem_append.mpr (Or.inr (by simp))⟩
          · exact Or.inr hx2

theorem disjointSubgraphs_edges (g : Graph) (x : GEdge) :
    (∃ K ∈ disjointSubgraphs g, x ∈ K.edges) ↔ x ∈ g.edges := by
  unfold disjointSubgraphs graphOfEdges componentsOfEdges
  rw [show (∃ K ∈ (g.edges.foldl
      (fun comps e =>
        ((comps.filter (touchesEdge e)).flatten ++ [e]) ::
          comps.filter (fun grp => ! touchesEdge e grp)) []).map
        (fun edges => (⟨(edges.flatMap edgeIds).dedup, edges⟩ : Graph)),
      x ∈ K.edges) ↔
    (∃ grp ∈ g.edges.foldl
      (fun comps e =>
        ((comps.filter (touchesEdge e)).flatten ++ [e]) ::
          comps.filter (fun grp => ! touchesEdge e grp)) [], x ∈ grp)
    from by
      constructor
      · rintro ⟨K, hK, hx⟩
        rcases List.mem_map.mp hK with ⟨grp, hgrp, rfl⟩
        exact ⟨grp, hgrp, hx⟩
      · rintro ⟨grp, hgrp, hx⟩
        exact ⟨⟨(grp.flatMap edgeIds).dedup, grp⟩, List.mem_map.mpr
          ⟨grp, hgrp, rfl⟩, hx⟩]
  rw [componentsOfEdges_mem g.edges [] x]
  simp

theorem disjointSubgraphs_nodes (g : Graph) (K : Graph)
    (hK : K ∈ disjointSubgraphs g) (x : Nat) :
    x ∈ K.nodes ↔ ∃ e ∈ K.edges, x ∈ edgeIds e := by
  unfold disjointSubgraphs at hK
  rcases List.mem_map.mp hK with ⟨grp, hgrp, rfl⟩
  unfold graphOfEdges
  simp only [List.mem_dedup, List.mem_flatMap]

/-! ## Handle and edge lemmas -/

theorem hrev_hrc (h : Nat) : hrev (hrc h) = ! hrev h := by
  unfold hrev hrc
  rcases Nat.mod_two_eq_zero_or_one h with hp | hp
  · have h1 : (h + 1) % 2 = 1 := by omega
    simp [hp, h1]
  · have h0 : (h - 1) % 2 = 0 := by omega
    simp [hp, h0]

theorem handle_ext (a b : Nat) (h1 : hid a = hid b) (h2 : hrev a = hrev b) :
    a = b := by
  unfold hid at h1
  unfold hrev at h2
  rcases Nat.mod_two_eq_zero_or_one a with ha | ha <;>
    rcases Nat.mod_two_eq_zero_or_one b with hb | hb <;>
    rw [ha, hb] at h2 <;> first
    | omega
    | exact absurd h2 (by decide)

theorem mkEdge_flip (u v : Nat) : mkEdge (hrc v) (hrc u) = mkEdge u v := by
  unfold mkEdge
  rw [hid_hrc, hid_hrc, hrev_hrc, hrev_hrc]
  rcases Nat.lt_trichotomy (hid u) (hid v) with hlt | heq | hgt
  · rw [if_pos (Or.inl hlt), if_neg (by
      rintro (h | ⟨h, _, _⟩)
      · omega
      · omega)]
    rw [hrc_hrc, hrc_hrc]
  · rcases hu : hrev u with _ | _ <;> rcases hv : hrev v with _ | _
    · -- (false, false): the flipped condition holds, the original does not
      rw [if_pos (Or.inr ⟨heq.symm, rfl, rfl⟩), if_neg (by
            rintro (h | ⟨_, h2, _⟩)
            · omega
            · exact Bool.noConfusion h2)]
      rw [hrc_hrc, hrc_hrc]
    · -- (false, true): neither holds; hrc v = u and hrc u = v
      rw [if_neg (by
            rintro (h | ⟨_, h2, _⟩)
            · omega
            · simp at h2),
          if_neg (by
            rintro (h | ⟨_, h2, _⟩)
            · omega
            · exact Bool.noConfusion h2)]
      have e1 : hrc v = u := handle_ext _ _ (by rw [hid_hrc]; omega)
        (by rw [hrev_hrc, hv, hu]; rfl)
      have e2 : hrc u = v := handle_ext _ _ (by rw [hid_hrc]; omega)
        (by rw [hrev_hrc, hu, hv]; rfl)
      rw [e1, e2]
    · -- (true, false): neither holds; hrc v = u and hrc u = v
      rw [if_neg (by
            rintro (h | ⟨_, _, h3⟩)
            · omega
            · simp at h3),
          if_neg (by
            rintro (h | ⟨_, _, h3⟩)
            · omega
            · exact Bool.noConfusion h3)]
      have e1 : hrc v = u := handle_ext _ _ (by rw [hid_hrc]; omega)
        (by rw [hrev_hrc, hv, hu]; rfl)
      have e2 : hrc u = v := handle_ext _ _ (by rw [hid_hrc]; omega)
        (by rw [hrev_hrc, hu, hv]; rfl)
      rw [e1, e2]
    · -- (true, true): the original condition holds, the flipped does not
      rw [if_neg (by
            rintro (h | ⟨_, h2, _⟩)
            · omega
            · simp at h2),
          if_pos (Or.inr ⟨heq, rfl, rfl⟩)]
  · rw [if_neg (by
      rintro (h | ⟨h, _, _⟩)
      · omega
      · omega),
      if_pos (Or.inl hgt)]

theorem mem_edgeIds_mkEdge (u v x : Nat) :
    x ∈ edgeIds (mkEdge u v) ↔ (x = hid u ∨ x = hid v) := by
  unfold mkEdge edgeIds
  split
  · simp [hid_hrc]
    tauto
  · simp

/-! ## Walk enumerator lemmas -/

theorem extendWalk_shape (K : Graph) (border : List Nat)
    (hB : ∀ e, K.hasEdge e = true → ∀ n ∈ edgeIds e, n ∈ border) :
    ∀ (prev : Nat) (rest : List Nat),
    extendWalk K border prev rest = [] ∨
    (∃ c, extendWalk K border prev rest = [c] ∧
      K.hasEdge (mkEdge prev c) = true) := by
  intro prev rest
  cases rest with
  | nil => exact Or.inl rfl
  | cons c rest2 =>
      unfold extendWalk
      by_cases he : K.hasEdge (mkEdge prev c) = true
      · right
        refine ⟨c, ?_, he⟩
        rw [if_pos he, if_pos ?_]
        have hmem : hid c ∈ border :=
          hB _ he (hid c) ((mem_edgeIds_mkEdge prev c (hid c)).mpr (Or.inr rfl))
        simpa using hmem
      · left
        rw [if_neg he]

theorem forwardWalk_shape (K : Graph) (border : List Nat) (p : List Nat)
    (occ : Nat)
    (hB : ∀ e, K.hasEdge e = true → ∀ n ∈ edgeIds e, n ∈ border) :
    forwardWalk K border p occ = [p.getD occ 0] ∨
    (∃ c, forwardWalk K border p occ = [p.getD occ 0, c] ∧
      K.hasEdge (mkEdge (p.getD occ 0) c) = true) := by
  unfold forwardWalk
  dsimp only
  rcases extendWalk_shape K border hB (p.getD occ 0) (p.drop (occ + 1)) with
    h | ⟨c, h, he⟩
  · rw [h]
    exact Or.inl rfl
  · rw [h]
    exact Or.inr ⟨c, rfl, he⟩

theorem backwardWalk_shape (K : Graph) (border : List Nat) (p : List Nat)
    (occ : Nat)
    (hB : ∀ e, K.hasEdge e = true → ∀ n ∈ edgeIds e, n ∈ border) :
    backwardWalk K border p occ = [hrc (p.getD occ 0)] ∨
    (∃ c, backwardWalk K border p occ = [hrc (p.getD occ 0), c] ∧
      K.hasEdge (mkEdge (hrc (p.getD occ 0)) c) = true) := by
  unfold backwardWalk
  dsimp only
  rcases extendWalk_shape K border hB (hrc (p.getD occ 0))
    ((p.take occ).reverse.map hrc) with h | ⟨c, h, he⟩
  · rw [h]
    exact Or.inl rfl
  · rw [h]
    exact Or.inr ⟨c, rfl, he⟩

theorem generatePaths_shape (xg : XgIndex) (K : Graph) (border : List Nat)
    (u : Nat)
    (hB : ∀ e, K.hasEdge e = true → ∀ n ∈ edgeIds e, n ∈ border) :
    ∀ w ∈ generatePaths xg K border u,
    w.length = 1 ∨
    (∃ a c, w = [a, c] ∧ K.hasEdge (mkEdge a c) = true) := by
  intro w hw
  unfold generatePaths at hw
  rcases List.mem_flatMap.mp hw with ⟨p, hp, hw2⟩
  rcases List.mem_flatMap.mp hw2 with ⟨occ, hocc, hw3⟩
  rcases List.mem_cons.mp hw3 with rfl | hw4
  · rcases forwardWalk_shape K border p occ hB with h | ⟨c, h, he⟩
    · rw [h]
      exact Or.inl rfl
    · rw [h]
      exact Or.inr ⟨_, c, rfl, he⟩
  · rcases List.mem_cons.mp hw4 with rfl | hw5
    · rcases backwardWalk_shape K border p occ hB with h | ⟨c, h, he⟩
      · rw [h]
        exact Or.inl rfl
      · rw [h]
        exact Or.inr ⟨_, c, rfl, he⟩
    · exact absurd hw5 (List.not_mem_nil _)

theorem pairsOf_index (p : List Nat) (pr : Nat × Nat)
    (hpr : pr ∈ pairsOf p) :
    ∃ i, i + 1 < p.length ∧ p.getD i 0 = pr.1 ∧ p.getD (i + 1) 0 = pr.2 := by
  unfold pairsOf at hpr
  rcases List.mem_iff_getElem.mp hpr with ⟨i, hi, hget⟩
  have hlen : (p.zip p.tail).length = min p.length p.tail.length :=
    List.length_zip p p.tail
  have htail : p.tail.length = p.length - 1 := List.length_tail p
  have hip : i < p.length := by omega
  have hit : i < p.tail.length := by omega
  have hi1 : i + 1 < p.length := by omega
  rw [List.getElem_zip] at hget
  have hf := congrArg Prod.fst hget
  have hs := congrArg Prod.snd hget
  simp only at hf hs
  have hs2 : p[i + 1] = pr.2 := by
    rw [← hs]
    simp [List.getElem_tail]
  refine ⟨i, hi1, ?_, ?_⟩
  · rw [List.getD_eq_getElem p 0 hip]
    exact hf
  · rw [List.getD_eq_getElem p 0 hi1]
    exact hs2

theorem occurrencesOf_mem (p : List Nat) (i : Nat) (hi : i < p.length) :
    i ∈ occurrencesOf p (hid (p.getD i 0)) := by
  unfold occurrencesOf
  refine List.mem_filter.mpr ⟨List.mem_range.mpr hi, by simp⟩

theorem generatePaths_cover (xg : XgIndex) (K : Graph) (border : List Nat)
    (p : List Nat) (hp : p ∈ xg) (pr : Nat × Nat) (hpr : pr ∈ pairsOf p)
    (hKe : K.hasEdge (mkEdge pr.1 pr.2) = true)
    (hstop : hid pr.2 ∈ border) :
    [pr.1, pr.2] ∈ generatePaths xg K border (hid pr.1) := by
  rcases pairsOf_index p pr hpr with ⟨i, hi1, hg1, hg2⟩
  have hwalk : forwardWalk K border p i = [pr.1, pr.2] := by
    unfold forwardWalk
    dsimp only
    have hdrop : p.drop (i + 1) = p.getD (i + 1) 0 :: p.drop (i + 2) := by
      rw [List.getD_eq_getElem p 0 hi1]
      exact List.drop_eq_getElem_cons hi1
    rw [hg1, hdrop, hg2]
    unfold extendWalk
    rw [if_pos hKe, if_pos (by simpa using hstop)]
  rw [← hwalk]
  unfold generatePaths
  refine List.mem_flatMap.mpr ⟨p, hp, ?_⟩
  refine List.mem_flatMap.mpr ⟨i, ?_, by simp⟩
  have := occurrencesOf_mem p i (by omega)
  rw [hg1] at this
  exact this

/-! ## Two-walk insertion characterization -/

theorem generateThreads_empty (K : Graph) (border : List Nat) (u fuel : Nat) :
    generateThreads [] K border u fuel = [] := by
  unfold generateThreads createStates gbwtFind
  simp
  cases fuel <;> rfl

theorem insertPath_short (st : UnfoldState) (w : List Nat)
    (h : w.length < 2) : insertPath st w = st := by
  unfold insertPath
  rw [if_pos h]

theorem rcPath_pair (a b : Nat) : rcPath [a, b] = [hrc b, hrc a] := rfl

theorem canonicalOf_pair (a b : Nat) :
    canonicalOf [a, b] = [a, b] ∨ canonicalOf [a, b] = [hrc b, hrc a] := by
  unfold canonicalOf
  rw [rcPath_pair]
  split
  · exact Or.inr rfl
  · exact Or.inl rfl

theorem prefixFoldOf_pair (st : UnfoldState) (x y : Nat) :
    prefixFoldOf st [x, y] = (st.prefixes, st.mapping, x) := by
  simp [prefixFoldOf]

theorem suffixFoldOf_pair (st : UnfoldState) (x y : Nat) (m1 : NodeMapping) :
    suffixFoldOf st [x, y] m1 = (st.suffixes, m1, y) := by
  simp [suffixFoldOf]

theorem insertPath_pair_eq (st : UnfoldState) (a b : Nat) :
    ∃ c1 c2, mkEdge c1 c2 = mkEdge a b ∧
      insertPath st [a, b] =
        ⟨st.mapping, st.prefixes, st.suffixes,
         if st.crossing.contains (c1, c2) then st.crossing
         else st.crossing ++ [(c1, c2)]⟩ := by
  have hnot : ¬ ([a, b] : List Nat).length < 2 := by simp
  rcases canonicalOf_pair a b with hc | hc
  · refine ⟨a, b, rfl, ?_⟩
    rw [insertPath_eq st [a, b] hnot, hc, prefixFoldOf_pair, suffixFoldOf_pair]
  · refine ⟨hrc b, hrc a, mkEdge_flip a b, ?_⟩
    rw [insertPath_eq st [a, b] hnot, hc, prefixFoldOf_pair, suffixFoldOf_pair]

theorem insertPath_crossing_mono (st : UnfoldState) (p : List Nat)
    (c : Nat × Nat) (hc : c ∈ st.crossing) :
    c ∈ (insertPath st p).crossing := by
  by_cases h : p.length < 2
  · rw [insertPath_short st p h]
    exact hc
  · rw [insertPath_eq st p h]
    dsimp only
    split
    · exact hc
    · exact List.mem_append.mpr (Or.inl hc)

theorem foldl_insertPath_crossing_mono (ws : List (List Nat)) :
    ∀ (st : UnfoldState) (c : Nat × Nat), c ∈ st.crossing →
    c ∈ (ws.foldl insertPath st).crossing := by
  induction ws with
  | nil => intro st c hc; exact hc
  | cons w rest ih =>
      intro st c hc
      rw [List.foldl_cons]
      exact ih _ c (insertPath_crossing_mono st w c hc)

theorem insertPath_fold_pairs (P : Nat → Nat → Prop) (ws : List (List Nat)) :
    ∀ (st : UnfoldState),
    (∀ w ∈ ws, w.length = 1 ∨ ∃ a b, w = [a, b] ∧ P a b) →
    ((ws.foldl insertPath st).mapping = st.mapping ∧
     (ws.foldl insertPath st).prefixes = st.prefixes ∧
     (ws.foldl insertPath st).suffixes = st.suffixes ∧
     (∀ c ∈ (ws.foldl insertPath st).crossing, c ∈ st.crossing ∨
       ∃ a b, P a b ∧ mkEdge c.1 c.2 = mkEdge a b) ∧
     (∀ w ∈ ws, ∀ a b, w = [a, b] →
       ∃ c ∈ (ws.foldl insertPath st).crossing,
         mkEdge c.1 c.2 = mkEdge a b)) := by
  induction ws with
  | nil =>
      intro st hws
      refine ⟨rfl, rfl, rfl, fun c hc => Or.inl hc, fun w hw => absurd hw
        (List.not_mem_nil _)⟩
  | cons w rest ih =>
      intro st hws
      rw [List.foldl_cons]
      rcases hws w (List.mem_cons_self _ _) with hw1 | ⟨a, b, rfl, hP⟩
      · -- a length-1 walk changes nothing
        rw [insertPath_short st w (by omega)]
        obtain ⟨g1, g2, g3, g4, g5⟩ := ih st
          (fun v hv => hws v (List.mem_cons_of_mem _ hv))
        refine ⟨g1, g2, g3, g4, ?_⟩
        intro v hv a b hvab
        rcases List.mem_cons.mp hv with rfl | hv2
        · rw [hvab] at hw1
          simp at hw1
        · exact g5 v hv2 a b hvab
      · -- a border-to-border 2-walk adds its canonical crossing edge
        obtain ⟨c1, c2, hmk, heq⟩ := insertPath_pair_eq st a b
        rw [heq]
        obtain ⟨g1, g2, g3, g4, g5⟩ := ih
          ⟨st.mapping, st.prefixes, st.suffixes,
           if st.crossing.contains (c1, c2) then st.crossing
           else st.crossing ++ [(c1, c2)]⟩
          (fun v hv => hws v (List.mem_cons_of_mem _ hv))
        refine ⟨g1, g2, g3, ?_, ?_⟩
        · intro c hc
          rcases g4 c hc with hcin | hex
          · dsimp only at hcin
            by_cases hin : st.crossing.contains (c1, c2) = true
            · rw [if_pos hin] at hcin
              exact Or.inl hcin
            · rw [if_neg hin] at hcin
              rcases List.mem_append.mp hcin with h1 | h2
              · exact Or.inl h1
              · rcases List.mem_singleton.mp h2 with rfl
                exact Or.inr ⟨a, b, hP, hmk⟩
          · exact Or.inr hex
        · intro v hv x y hvxy
          rcases List.mem_cons.mp hv with rfl | hv2
          · -- the inserted walk itself
            obtain ⟨rfl, rfl⟩ : a = x ∧ b = y := by simpa using hvxy
            have hc12 : (c1, c2) ∈
                (if st.crossing.contains (c1, c2) then st.crossing
                 else st.crossing ++ [(c1, c2)]) := by
              by_cases hin : st.crossing.contains (c1, c2) = true
              · rw [if_pos hin]
                simpa using hin
              · rw [if_neg hin]
                simp
            refine ⟨(c1, c2), ?_, hmk⟩
            exact foldl_insertPath_crossing_mono rest _ (c1, c2) hc12
          · exact g5 v hv2 x y hvxy

/-! ## Assembly characterization -/

theorem insertNode_hasNode (g : Graph) (h : Nat) (x : Nat) :
    (insertNode g h).hasNode x = true ↔ (g.hasNode x = true ∨ x = hid h) := by
  unfold insertNode
  exact hasNode_addNode g (hid h) x

theorem insertNode_hasEdge (g : Graph) (h : Nat) (f : GEdge) :
    (insertNode g h).hasEdge f = g.hasEdge f := by
  unfold insertNode
  exact hasEdge_addNode g (hid h) f

theorem foldl_assembleC_spec (cs : List (Nat × Nat)) :
    ∀ (u : Graph),
    (∀ f, ((cs.foldl assembleC u).hasEdge f = true ↔
      (u.hasEdge f = true ∨ ∃ c ∈ cs, f = mkEdge c.1 c.2))) ∧
    (∀ x, ((cs.foldl assembleC u).hasNode x = true ↔
      (u.hasNode x = true ∨ ∃ c ∈ cs, x = hid c.1 ∨ x = hid c.2))) := by
  induction cs with
  | nil => intro u; constructor <;> intro y <;> simp
  | cons c rest ih =>
      intro u
      rw [List.foldl_cons]
      constructor
      · intro f
        rw [(ih _).1 f]
        unfold assembleC
        rw [hasEdge_addEdge, insertNode_hasEdge, insertNode_hasEdge]
        simp only [List.mem_cons]
        constructor
        · rintro ((h | rfl) | ⟨d, hd, rfl⟩)
          · exact Or.inl h
          · exact Or.inr ⟨c, Or.inl rfl, rfl⟩
          · exact Or.inr ⟨d, Or.inr hd, rfl⟩
        · rintro (h | ⟨d, hd | hd, rfl⟩)
          · exact Or.inl (Or.inl h)
          · subst hd
            exact Or.inl (Or.inr rfl)
          · exact Or.inr ⟨d, hd, rfl⟩
      · intro x
        rw [(ih _).2 x]
        unfold assembleC
        rw [hasNode_addEdge, insertNode_hasNode, insertNode_hasNode]
        simp only [List.mem_cons]
        constructor
        · rintro (((h | rfl) | rfl) | ⟨d, hd, hx⟩)
          · exact Or.inl h
          · exact Or.inr ⟨c, Or.inl rfl, Or.inl rfl⟩
          · exact Or.inr ⟨c, Or.inl rfl, Or.inr rfl⟩
          · exact Or.inr ⟨d, Or.inr hd, hx⟩
        · rintro (h | ⟨d, hd | hd, hx⟩)
          · exact Or.inl (Or.inl (Or.inl h))
          · subst hd
            rcases hx with rfl | rfl
            · exact Or.inl (Or.inl (Or.inr rfl))
            · exact Or.inl (Or.inr rfl)
          · exact Or.inr ⟨d, hd, hx⟩

theorem foldl_assembleP_spec (es : List ((Nat × Nat) × Nat)) :
    ∀ (u : Graph),
    (∀ f, ((es.foldl assembleP u).hasEdge f = true ↔
      (u.hasEdge f = true ∨ ∃ e ∈ es, f = mkEdge e.1.1 e.2))) ∧
    (∀ x, ((es.foldl assembleP u).hasNode x = true ↔
      (u.hasNode x = true ∨ ∃ e ∈ es, x = hid e.1.1 ∨ x = hid e.2))) := by
  induction es with
  | nil => intro u; constructor <;> intro y <;> simp
  | cons c rest ih =>
      intro u
      rw [List.foldl_cons]
      constructor
      · intro f
        rw [(ih _).1 f]
        unfold assembleP
        rw [hasEdge_addEdge, insertNode_hasEdge, insertNode_hasEdge]
        simp only [List.mem_cons]
        constructor
        · rintro ((h | rfl) | ⟨d, hd, rfl⟩)
          · exact Or.inl h
          · exact Or.inr ⟨c, Or.inl rfl, rfl⟩
          · exact Or.inr ⟨d, Or.inr hd, rfl⟩
        · rintro (h | ⟨d, hd | hd, rfl⟩)
          · exact Or.inl (Or.inl h)
          · subst hd
            exact Or.inl (Or.inr rfl)
          · exact Or.inr ⟨d, hd, rfl⟩
      · intro x
        rw [(ih _).2 x]
        unfold assembleP
        rw [hasNode_addEdge, insertNode_hasNode, insertNode_hasNode]
        simp only [List.mem_cons]
        constructor
        · rintro (((h | rfl) | rfl) | ⟨d, hd, hx⟩)
          · exact Or.inl h
          · exact Or.inr ⟨c, Or.inl rfl, Or.inl rfl⟩
          · exact Or.inr ⟨c, Or.inl rfl, Or.inr rfl⟩
          · exact Or.inr ⟨d, Or.inr hd, hx⟩
        · rintro (h | ⟨d, hd | hd, hx⟩)
          · exact Or.inl (Or.inl (Or.inl h))
          · subst hd
            rcases hx with rfl | rfl
            · exact Or.inl (Or.inl (Or.inr rfl))
            · exact Or.inl (Or.inr rfl)
          · exact Or.inr ⟨d, hd, hx⟩

theorem foldl_assembleS_spec (es : List ((Nat × Nat) × Nat)) :
    ∀ (u : Graph),
    (∀ f, ((es.foldl assembleS u).hasEdge f = true ↔
      (u.hasEdge f = true ∨ ∃ e ∈ es, f = mkEdge e.2 e.1.2))) ∧
    (∀ x, ((es.foldl assembleS u).hasNode x = true ↔
      (u.hasNode x = true ∨ ∃ e ∈ es, x = hid e.2 ∨ x = hid e.1.2))) := by
  induction es with
  | nil => intro u; constructor <;> intro y <;> simp
  | cons c rest ih =>
      intro u
      rw [List.foldl_cons]
      constructor
      · intro f
        rw [(ih _).1 f]
        unfold assembleS
        rw [hasEdge_addEdge, insertNode_hasEdge, insertNode_hasEdge]
        simp only [List.mem_cons]
        constructor
        · rintro ((h | rfl) | ⟨d, hd, rfl⟩)
          · exact Or.inl h
          · exact Or.inr ⟨c, Or.inl rfl, rfl⟩
          · exact Or.inr ⟨d, Or.inr hd, rfl⟩
        · rintro (h | ⟨d, hd | hd, rfl⟩)
          · exact Or.inl (Or.inl h)
          · subst hd
            exact Or.inl (Or.inr rfl)
          · exact Or.inr ⟨d, hd, rfl⟩
      · intro x
        rw [(ih _).2 x]
        unfold assembleS
        rw [hasNode_addEdge, insertNode_hasNode, insertNode_hasNode]
        simp only [List.mem_cons]
        constructor
        · rintro (((h | rfl) | rfl) | ⟨d, hd, hx⟩)
          · exact Or.inl h
          · exact Or.inr ⟨c, Or.inl rfl, Or.inl rfl⟩
          · exact Or.inr ⟨c, Or.inl rfl, Or.inr rfl⟩
          · exact Or.inr ⟨d, Or.inr hd, hx⟩
        · rintro (h | ⟨d, hd | hd, hx⟩)
          · exact Or.inl (Or.inl (Or.inl h))
          · subst hd
            rcases hx with rfl | rfl
            · exact Or.inl (Or.inl (Or.inr rfl))
            · exact Or.inl (Or.inr rfl)
          · exact Or.inr ⟨d, hd, hx⟩



theorem unfoldComponent_eq (xg : XgIndex) (hIdx : GbwtIndex) (K g : Graph)
    (m : NodeMapping) (u : Graph) (fuel : Nat) :
    unfoldComponent xg hIdx K g m u fuel =
      ((((K.nodes.filter (fun n => g.hasNode n)).flatMap fun n =>
          generatePaths xg K (K.nodes.filter (fun n => g.hasNode n)) n ++
          generateThreads hIdx K (K.nodes.filter (fun n => g.hasNode n)) n
            fuel).foldl insertPath (UnfoldState.init m)).mapping,
       assemble (((K.nodes.filter (fun n => g.hasNode n)).flatMap fun n =>
          generatePaths xg K (K.nodes.filter (fun n => g.hasNode n)) n ++
          generateThreads hIdx K (K.nodes.filter (fun n => g.hasNode n)) n
            fuel).foldl insertPath (UnfoldState.init m)) u,
       (((K.nodes.filter (fun n => g.hasNode n)).flatMap fun n =>
          generatePaths xg K (K.nodes.filter (fun n => g.hasNode n)) n ++
          generateThreads hIdx K (K.nodes.filter (fun n => g.hasNode n)) n
            fuel).foldl insertPath
            (UnfoldState.init m)).crossing.length) := rfl

theorem unfoldComponent_spec (xg : XgIndex) (K g : Graph) (m : NodeMapping)
    (u : Graph) (fuel : Nat)
    (HN : ∀ x, x ∈ K.nodes ↔ ∃ e ∈ K.edges, x ∈ edgeIds e)
    (HP : ∀ e ∈ K.edges, ∃ p ∈ xg, ∃ pr ∈ pairsOf p, e = mkEdge pr.1 pr.2)
    (HB : ∀ n ∈ K.nodes, g.hasNode n = true) :
    (unfoldComponent xg [] K g m u fuel).1 = m ∧
    (∀ f, ((unfoldComponent xg [] K g m u fuel).2.1.hasEdge f = true ↔
      (u.hasEdge f = true ∨ f ∈ K.edges))) ∧
    (∀ x, ((unfoldComponent xg [] K g m u fuel).2.1.hasNode x = true ↔
      (u.hasNode x = true ∨ x ∈ K.nodes))) := by
  rw [unfoldComponent_eq]
  have hborder : K.nodes.filter (fun n => g.hasNode n) = K.nodes :=
    List.filter_eq_self.mpr (fun a ha => HB a ha)
  rw [hborder]
  have hKm : ∀ e, K.hasEdge e = true ↔ e ∈ K.edges := by
    intro e
    unfold Graph.hasEdge
    simp
  have hB : ∀ e, K.hasEdge e = true → ∀ n ∈ edgeIds e, n ∈ K.nodes := by
    intro e he n hn
    exact (HN n).mpr ⟨e, (hKm e).mp he, hn⟩
  have hshape : ∀ w ∈ (K.nodes.flatMap fun n =>
      generatePaths xg K K.nodes n ++ generateThreads [] K K.nodes n fuel),
      w.length = 1 ∨
      ∃ a b, w = [a, b] ∧ K.hasEdge (mkEdge a b) = true := by
    intro w hw
    rcases List.mem_flatMap.mp hw with ⟨n, hn, hw2⟩
    rcases List.mem_append.mp hw2 with h1 | h2
    · exact generatePaths_shape xg K K.nodes n hB w h1
    · rw [generateThreads_empty] at h2
      exact absurd h2 (List.not_mem_nil _)
  obtain ⟨g1, g2, g3, g4, g5⟩ := insertPath_fold_pairs
    (fun a b => K.hasEdge (mkEdge a b) = true)
    (K.nodes.flatMap fun n =>
      generatePaths xg K K.nodes n ++ generateThreads [] K K.nodes n fuel)
    (UnfoldState.init m) hshape
  have hcover : ∀ e ∈ K.edges,
      ∃ c ∈ ((K.nodes.flatMap fun n =>
        generatePaths xg K K.nodes n ++
        generateThreads [] K K.nodes n fuel).foldl insertPath
          (UnfoldState.init m)).crossing,
      mkEdge c.1 c.2 = e := by
    intro e he
    obtain ⟨p, hp, pr, hpr, hmk⟩ := HP e he
    have he1 : hid pr.1 ∈ K.nodes :=
      (HN _).mpr ⟨e, he, by
        rw [hmk]
        exact (mem_edgeIds_mkEdge pr.1 pr.2 (hid pr.1)).mpr (Or.inl rfl)⟩
    have he2 : hid pr.2 ∈ K.nodes :=
      (HN _).mpr ⟨e, he, by
        rw [hmk]
        exact (mem_edgeIds_mkEdge pr.1 pr.2 (hid pr.2)).mpr (Or.inr rfl)⟩
    have hKe : K.hasEdge (mkEdge pr.1 pr.2) = true := by
      rw [hKm, ← hmk]
      exact he
    have hwalkmem : [pr.1, pr.2] ∈ (K.nodes.flatMap fun n =>
        generatePaths xg K K.nodes n ++
        generateThreads [] K K.nodes n fuel) := by
      refine List.mem_flatMap.mpr ⟨hid pr.1, he1, ?_⟩
      exact List.mem_append.mpr
        (Or.inl (generatePaths_cover xg K K.nodes p hp pr hpr hKe he2))
    obtain ⟨c, hc, hmkc⟩ := g5 _ hwalkmem pr.1 pr.2 rfl
    refine ⟨c, hc, ?_⟩
    rw [hmkc, ← hmk]
  have hasmb : assemble ((K.nodes.flatMap fun n =>
      generatePaths xg K K.nodes n ++
      generateThreads [] K K.nodes n fuel).foldl insertPath
        (UnfoldState.init m)) u =
      ((K.nodes.flatMap fun n =>
        generatePaths xg K K.nodes n ++
        generateThreads [] K K.nodes n fuel).foldl insertPath
          (UnfoldState.init m)).crossing.foldl assembleC u := by
    unfold assemble
    rw [g2, g3]
    rfl
  refine ⟨g1, ?_, ?_⟩
  · intro f
    dsimp only
    rw [hasmb, (foldl_assembleC_spec _ u).1 f]
    constructor
    · rintro (h | ⟨c, hc, rfl⟩)
      · exact Or.inl h
      · rcases g4 c hc with hcin | ⟨a, b, hPab, hmkc⟩
        · rw [show (UnfoldState.init m).crossing = [] from rfl] at hcin
          exact absurd hcin (List.not_mem_nil _)
        · rw [hmkc]
          exact Or.inr ((hKm _).mp hPab)
    · rintro (h | he)
      · exact Or.inl h
      · obtain ⟨c, hc, hmkc⟩ := hcover f he
        exact Or.inr ⟨c, hc, hmkc.symm⟩
  · intro x
    dsimp only
    rw [hasmb, (foldl_assembleC_spec _ u).2 x]
    constructor
    · rintro (h | ⟨c, hc, hx⟩)
      · exact Or.inl h
      · rcases g4 c hc with hcin | ⟨a, b, hPab, hmkc⟩
        · rw [show (UnfoldState.init m).crossing = [] from rfl] at hcin
          exact absurd hcin (List.not_mem_nil _)
        · right
          refine (HN x).mpr ⟨mkEdge a b, (hKm _).mp hPab, ?_⟩
          rw [← hmkc]
          rcases hx with rfl | rfl
          · exact (mem_edgeIds_mkEdge c.1 c.2 _).mpr (Or.inl rfl)
          · exact (mem_edgeIds_mkEdge c.1 c.2 _).mpr (Or.inr rfl)
    · rintro (h | hx)
      · exact Or.inl h
      · obtain ⟨e, he, hxe⟩ := (HN x).mp hx
        obtain ⟨c, hc, hmkc⟩ := hcover e he
        right
        refine ⟨c, hc, ?_⟩
        rw [← hmkc] at hxe
        exact (mem_edgeIds_mkEdge c.1 c.2 x).mp hxe



theorem pairsOf_mem_of_mem (p : List Nat) (pr : Nat × Nat)
    (h : pr ∈ pairsOf p) : pr.1 ∈ p ∧ pr.2 ∈ p := by
  rcases pairsOf_index p pr h with ⟨i, hi, h1, h2⟩
  constructor
  · rw [← h1, List.getD_eq_getElem p 0 (by omega)]
    exact List.getElem_mem _
  · rw [← h2, List.getD_eq_getElem p 0 hi]
    exact List.getElem_mem _

theorem foldComps_spec (xg : XgIndex) (g : Graph) (fuel : Nat)
    (comps : List Graph) :
    ∀ (acc : NodeMapping × Graph × Nat),
    (∀ K ∈ comps,
      (∀ x, x ∈ K.nodes ↔ ∃ e ∈ K.edges, x ∈ edgeIds e) ∧
      (∀ e ∈ K.edges, ∃ p ∈ xg, ∃ pr ∈ pairsOf p, e = mkEdge pr.1 pr.2) ∧
      (∀ n ∈ K.nodes, g.hasNode n = true)) →
    ((comps.foldl
        (fun (acc : NodeMapping × Graph × Nat) comp =>
          let r := unfoldComponent xg [] comp g acc.1 acc.2.1 fuel
          (r.1, r.2.1, acc.2.2 + r.2.2)) acc).1 = acc.1 ∧
     (∀ f, ((comps.foldl
        (fun (acc : NodeMapping × Graph × Nat) comp =>
          let r := unfoldComponent xg [] comp g acc.1 acc.2.1 fuel
          (r.1, r.2.1, acc.2.2 + r.2.2)) acc).2.1.hasEdge f = true ↔
       (acc.2.1.hasEdge f = true ∨ ∃ K ∈ comps, f ∈ K.edges))) ∧
     (∀ x, ((comps.foldl
        (fun (acc : NodeMapping × Graph × Nat) comp =>
          let r := unfoldComponent xg [] comp g acc.1 acc.2.1 fuel
          (r.1, r.2.1, acc.2.2 + r.2.2)) acc).2.1.hasNode x = true ↔
       (acc.2.1.hasNode x = true ∨ ∃ K ∈ comps, x ∈ K.nodes)))) := by
  induction comps with
  | nil =>
      intro acc hh
      refine ⟨rfl, fun f => by simp, fun x => by simp⟩
  | cons K rest ih =>
      intro acc hh
      rw [List.foldl_cons]
      obtain ⟨hKN, hKP, hKB⟩ := hh K (List.mem_cons_self _ _)
      obtain ⟨s1, s2, s3⟩ :=
        unfoldComponent_spec xg K g acc.1 acc.2.1 fuel hKN hKP hKB
      obtain ⟨r1, r2, r3⟩ := ih
        ((unfoldComponent xg [] K g acc.1 acc.2.1 fuel).1,
         (unfoldComponent xg [] K g acc.1 acc.2.1 fuel).2.1,
         acc.2.2 + (unfoldComponent xg [] K g acc.1 acc.2.1 fuel).2.2)
        (fun K2 hK2 => hh K2 (List.mem_cons_of_mem _ hK2))
      refine ⟨by rw [r1]; exact s1, ?_, ?_⟩
      · intro f
        rw [r2 f]
        dsimp only
        rw [s2 f]
        simp only [List.mem_cons]
        constructor
        · rintro ((h | h) | ⟨K2, hK2, h⟩)
          · exact Or.inl h
          · exact Or.inr ⟨K, Or.inl rfl, h⟩
          · exact Or.inr ⟨K2, Or.inr hK2, h⟩
        · rintro (h | ⟨K2, hK2 | hK2, h⟩)
          · exact Or.inl (Or.inl h)
          · subst hK2
            exact Or.inl (Or.inr h)
          · exact Or.inr ⟨K2, hK2, h⟩
      · intro x
        rw [r3 x]
        dsimp only
        rw [s3 x]
        simp only [List.mem_cons]
        constructor
        · rintro ((h | h) | ⟨K2, hK2, h⟩)
          · exact Or.inl h
          · exact Or.inr ⟨K, Or.inl rfl, h⟩
          · exact Or.inr ⟨K2, Or.inr hK2, h⟩
        · rintro (h | ⟨K2, hK2 | hK2, h⟩)
          · exact Or.inl (Or.inl h)
          · subst hK2
            exact Or.inl (Or.inr h)
          · exact Or.inr ⟨K2, hK2, h⟩

end PhaseUnfolder

namespace PhaseUnfolder

theorem hencode_hid_hrev (h : Nat) : hencode (hid h) (hrev h) = h := by
  unfold hencode hid hrev
  rcases Nat.mod_two_eq_zero_or_one h with hp | hp
  · simp [hp]
    omega
  · simp [hp]
    omega

theorem rmFind_nil (nid : Nat) : rmFind [] nid = none := rfl

theorem verifyInner_chain (g : Graph) :
    ∀ (l : List Nat) (cur : Nat),
    (∀ pr ∈ pairsOf (cur :: l), g.hasEdge (mkEdge pr.1 pr.2) = true) →
    ∀ (o c nx : Nat) (stack : List Branch),
    (verifyInner g [] l o c nx cur 0 stack).1 = true := by
  intro l
  induction l with
  | nil => intro cur hch o c nx stack; rfl
  | cons h rest ih =>
      intro cur hch o c nx stack
      have hedge : g.hasEdge (mkEdge cur h) = true :=
        hch (cur, h) (by exact List.mem_cons_self _ _)
      unfold verifyInner
      rw [rmFind_nil]
      dsimp only
      rw [hencode_hid_hrev, hedge]
      exact ih h (fun pr hpr => hch pr (List.mem_cons_of_mem _ hpr)) (o + 1) nx 0
        (if (0:Nat) ≤ 1 then [] else [] ++ stack)

theorem verifyPath_chain (g : Graph) (p : List Nat) (fuel : Nat)
    (hfuel : 1 ≤ fuel)
    (hch : ∀ pr ∈ pairsOf p, g.hasEdge (mkEdge pr.1 pr.2) = true) :
    verifyPath g [] p fuel = some true := by
  unfold verifyPath
  by_cases hlen : p.length < 2
  · rw [if_pos hlen]
  · rw [if_neg hlen]
    obtain ⟨f, rfl⟩ : ∃ f, fuel = f + 1 := ⟨fuel - 1, by omega⟩
    rcases p with _ | ⟨h0, _ | ⟨h1, rest⟩⟩
    · simp at hlen
    · simp at hlen
    · unfold verifyOuter
      dsimp only
      rw [rmFind_nil]
      dsimp only
      rw [hencode_hid_hrev]
      have hinner := verifyInner_chain g (h1 :: rest) h0 hch 0 0 0 []
      rcases hV : verifyInner g [] (h1 :: rest) 0 0 0 h0 0 [] with ⟨b, s⟩
      rw [hV] at hinner
      dsimp at hinner
      subst hinner
      rw [show ((h0 :: h1 :: rest).drop (0 + 1)) = h1 :: rest from rfl,
          show ((h0 :: h1 :: rest).getD 0 0) = h0 from rfl]
      rw [hV]

theorem reverseMapping_eq_nil (m : NodeMapping) (g : Graph)
    (h : m.next_node = m.first_node) :
    reverseMapping m g = [] := by
  unfold reverseMapping
  rw [h]
  simp

theorem verifyPaths_zero (xg hIdx : List (List Nat)) (m : NodeMapping)
    (g : Graph) (fuel : Nat)
    (h : ∀ p ∈ xg ++ hIdx,
      verifyPath g (reverseMapping m g) p fuel = some true) :
    verifyPaths xg hIdx m g fuel = some 0 := by
  unfold verifyPaths
  dsimp only
  have key : ∀ (l : List (List Nat)),
      (∀ p ∈ l, verifyPath g (reverseMapping m g) p fuel = some true) →
      ∀ k : Nat,
      l.foldl
        (fun acc p =>
          match acc, verifyPath g (reverseMapping m g) p fuel with
          | some k, some b => some (if b then k else k + 1)
          | _, _ => none)
        (some k) = some k := by
    intro l
    induction l with
    | nil => intro _ k; rfl
    | cons p rest ih =>
        intro hl k
        rw [List.foldl_cons]
        have hp := hl p (List.mem_cons_self _ _)
        simp only [hp]
        exact ih (fun q hq => hl q (List.mem_cons_of_mem _ hq)) k
  exact key (xg ++ hIdx) h 0

end PhaseUnfolder

namespace PhaseUnfolder

theorem unfoldParts_spec (xg : XgIndex) (g : Graph) (m : NodeMapping)
    (fuel : Nat)
    (hnodes : ∀ p ∈ xg, ∀ h ∈ p, g.hasNode (hid h) = true) :
    (unfoldParts xg [] g m fuel).2.1 = m ∧
    (∀ f, ((unfoldParts xg [] g m fuel).1.hasEdge f = true ↔
      (g.hasEdge f = true ∨ ∃ p ∈ xg, ∃ pr ∈ pairsOf p,
        f = mkEdge pr.1 pr.2))) ∧
    (∀ x, ((unfoldParts xg [] g m fuel).1.hasNode x = true ↔
      g.hasNode x = true)) := by
  unfold unfoldParts
  dsimp only
  set comp := complementGraph xg [] g with hcomp
  set comps := disjointSubgraphs comp with hcomps
  have hmemEdge : ∀ e, e ∈ comp.edges ↔ comp.hasEdge e = true := by
    intro e
    unfold Graph.hasEdge
    simp
  have hhyp : ∀ K ∈ comps,
      (∀ x, x ∈ K.nodes ↔ ∃ e ∈ K.edges, x ∈ edgeIds e) ∧
      (∀ e ∈ K.edges, ∃ p ∈ xg, ∃ pr ∈ pairsOf p, e = mkEdge pr.1 pr.2) ∧
      (∀ n ∈ K.nodes, g.hasNode n = true) := by
    intro K hK
    have hN := disjointSubgraphs_nodes comp K hK
    have hE : ∀ e ∈ K.edges, comp.hasEdge e = true := by
      intro e he
      exact (hmemEdge e).mp ((disjointSubgraphs_edges comp e).mp ⟨K, hK, he⟩)
    refine ⟨hN, ?_, ?_⟩
    · intro e he
      rcases ((complementGraph_spec xg g).1 e).mp (hE e he) with
        ⟨p, hp, pr, hpr, heq, _⟩
      exact ⟨p, hp, pr, hpr, heq⟩
    · intro n hn
      rcases (hN n).mp hn with ⟨e, he, hne⟩
      rcases ((complementGraph_spec xg g).1 e).mp (hE e he) with
        ⟨p, hp, pr, hpr, heq, _⟩
      rw [heq] at hne
      rcases (mem_edgeIds_mkEdge pr.1 pr.2 n).mp hne with h1 | h1
      · rw [h1]
        exact hnodes p hp pr.1 (pairsOf_mem_of_mem p pr hpr).1
      · rw [h1]
        exact hnodes p hp pr.2 (pairsOf_mem_of_mem p pr hpr).2
  obtain ⟨r1, r2, r3⟩ := foldComps_spec xg g fuel comps (m, Graph.empty, 0) hhyp
  have hEmptyE : ∀ f, Graph.empty.hasEdge f = false := fun _ => rfl
  have hEmptyN : ∀ x, Graph.empty.hasNode x = false := fun _ => rfl
  refine ⟨r1, ?_, ?_⟩
  · intro f
    rw [extend_hasEdge, r2 f]
    simp only [hEmptyE]
    constructor
    · rintro (h | h | ⟨K, hK, hf⟩)
      · exact Or.inl h
      · exact absurd h (by simp)
      · rcases ((complementGraph_spec xg g).1 f).mp
          ((hmemEdge f).mp ((disjointSubgraphs_edges comp f).mp ⟨K, hK, hf⟩))
          with ⟨p, hp, pr, hpr, heq, _⟩
        exact Or.inr ⟨p, hp, pr, hpr, heq⟩
    · rintro (h | ⟨p, hp, pr, hpr, heq⟩)
      · exact Or.inl h
      · by_cases hg : g.hasEdge f = true
        · exact Or.inl hg
        · refine Or.inr (Or.inr ?_)
          have hc : comp.hasEdge f = true := by
            refine ((complementGraph_spec xg g).1 f).mpr
              ⟨p, hp, pr, hpr, heq, ?_⟩
            rw [← heq]
            exact Bool.eq_false_iff.mpr (fun hx => hg hx)
          rcases (disjointSubgraphs_edges comp f).mpr ((hmemEdge f).mpr hc)
            with ⟨K, hK, hf⟩
          exact ⟨K, hK, hf⟩
  · intro x
    rw [extend_hasNode, r3 x]
    simp only [hEmptyN]
    constructor
    · rintro (h | h | ⟨K, hK, hx⟩)
      · exact h
      · exact absurd h (by simp)
      · exact (hhyp K hK).2.2 x hx
    · intro h
      exact Or.inl h

end PhaseUnfolder

namespace PhaseUnfolder

/-- C1 counterexample: with X holding the single path 2+ (handles [2, 4],
nodes 1 and 2) and an input graph with no nodes at all, the unfolded
component is empty (no border), the missing edge is never restored, and
verify_paths reports one failing path instead of zero. -/
theorem evidence_preservation_cex :
    verifyPaths [[2, 4]] []
      (unfold [[2, 4]] [] Graph.empty (NodeMapping.init 3) 1).2
      (unfold [[2, 4]] [] Graph.empty (NodeMapping.init 3) 1).1 1 = some 1 := by
  decide

end PhaseUnfolder

namespace PhaseUnfolder

theorem bool_eq_of_iff {a b : Bool} (h : a = true ↔ b = true) : a = b := by
  cases a <;> cases b <;> simp_all

theorem restoreStep_snd (acc : Graph × Nat) (curr : Nat) :
    (restoreStep acc curr).2 = curr := by
  unfold restoreStep
  dsimp only
  split <;> rfl

theorem restoreStep_hasEdge (acc : Graph × Nat) (curr : Nat) (f : GEdge) :
    (restoreStep acc curr).1.hasEdge f = true ↔
      (acc.1.hasEdge f = true ∨ f = mkEdge acc.2 curr) := by
  unfold restoreStep
  dsimp only
  split
  · rename_i hg
    constructor
    · exact fun h => Or.inl h
    · rintro (h | rfl)
      · exact h
      · exact hg
  · rw [hasEdge_addEdge, hasEdge_addNode, hasEdge_addNode]

theorem restoreStep_hasNode_of (acc : Graph × Nat) (curr : Nat) (x : Nat)
    (h : (restoreStep acc curr).1.hasNode x = true) :
    acc.1.hasNode x = true ∨ x ∈ edgeIds (mkEdge acc.2 curr) := by
  unfold restoreStep at h
  dsimp only at h
  revert h
  split
  · exact fun h => Or.inl h
  · rw [hasNode_addEdge, hasNode_addNode, hasNode_addNode]
    unfold edgeIds
    rintro ((h | rfl) | rfl)
    · exact Or.inl h
    · exact Or.inr (by simp)
    · exact Or.inr (by simp)

theorem restoreStep_hasNode_mono (acc : Graph × Nat) (curr : Nat) (x : Nat)
    (h : acc.1.hasNode x = true) :
    (restoreStep acc curr).1.hasNode x = true := by
  unfold restoreStep
  dsimp only
  split
  · exact h
  · rw [hasNode_addEdge, hasNode_addNode, hasNode_addNode]
    exact Or.inl (Or.inl h)

theorem restoreFold_spec (rest : List Nat) :
    ∀ (c : Graph) (prev : Nat),
    (∀ f, ((rest.foldl restoreStep (c, prev)).1.hasEdge f = true ↔
      (c.hasEdge f = true ∨ ∃ pr ∈ pairsOf (prev :: rest),
        f = mkEdge pr.1 pr.2))) ∧
    (∀ x, (rest.foldl restoreStep (c, prev)).1.hasNode x = true →
      (c.hasNode x = true ∨ ∃ pr ∈ pairsOf (prev :: rest),
        x ∈ edgeIds (mkEdge pr.1 pr.2))) ∧
    (∀ x, c.hasNode x = true →
      (rest.foldl restoreStep (c, prev)).1.hasNode x = true) := by
  induction rest with
  | nil =>
      intro c prev
      refine ⟨fun f => by simp [pairsOf], fun x h => Or.inl h, fun x h => h⟩
  | cons r1 rest2 ih =>
      intro c prev
      rw [List.foldl_cons]
      have hstep : restoreStep (c, prev) r1 =
          ((restoreStep (c, prev) r1).1, r1) :=
        Prod.ext rfl (restoreStep_snd (c, prev) r1)
      rw [hstep]
      have hpairs : pairsOf (prev :: r1 :: rest2) =
          (prev, r1) :: pairsOf (r1 :: rest2) := rfl
      obtain ⟨ihE, ihN, ihM⟩ := ih (restoreStep (c, prev) r1).1 r1
      refine ⟨?_, ?_, ?_⟩
      · intro f
        rw [ihE f, restoreStep_hasEdge, hpairs]
        simp only [List.mem_cons]
        constructor
        · rintro ((h | h) | ⟨pr, hpr, h1⟩)
          · exact Or.inl h
          · exact Or.inr ⟨(prev, r1), Or.inl rfl, h⟩
          · exact Or.inr ⟨pr, Or.inr hpr, h1⟩
        · rintro (h | ⟨pr, hpr | hpr, h1⟩)
          · exact Or.inl (Or.inl h)
          · subst hpr
            exact Or.inl (Or.inr h1)
          · exact Or.inr ⟨pr, hpr, h1⟩
      · intro x hx
        rw [hpairs]
        simp only [List.mem_cons]
        rcases ihN x hx with h | ⟨pr, hpr, h1⟩
        · rcases restoreStep_hasNode_of (c, prev) r1 x h with h2 | h2
          · exact Or.inl h2
          · exact Or.inr ⟨(prev, r1), Or.inl rfl, h2⟩
        · exact Or.inr ⟨pr, Or.inr hpr, h1⟩
      · intro x hx
        exact ihM x (restoreStep_hasNode_mono (c, prev) r1 x hx)

theorem restorePath_spec (c : Graph) (p : List Nat) :
    (∀ f, ((restorePath c p).hasEdge f = true ↔
      (c.hasEdge f = true ∨ ∃ pr ∈ pairsOf p, f = mkEdge pr.1 pr.2))) ∧
    (∀ x, (restorePath c p).hasNode x = true →
      (c.hasNode x = true ∨ ∃ pr ∈ pairsOf p,
        x ∈ edgeIds (mkEdge pr.1 pr.2))) ∧
    (∀ x, c.hasNode x = true → (restorePath c p).hasNode x = true) := by
  cases p with
  | nil =>
      unfold restorePath
      refine ⟨fun f => by simp [pairsOf], fun x h => Or.inl h, fun x h => h⟩
  | cons h0 rest =>
      unfold restorePath
      exact restoreFold_spec rest c h0

theorem restorePaths_spec (xg : XgIndex) :
    ∀ (g : Graph),
    (∀ f, ((restorePaths xg g).hasEdge f = true ↔
      (g.hasEdge f = true ∨ ∃ p ∈ xg, ∃ pr ∈ pairsOf p,
        f = mkEdge pr.1 pr.2))) ∧
    (∀ x, (restorePaths xg g).hasNode x = true →
      (g.hasNode x = true ∨ ∃ p ∈ xg, ∃ pr ∈ pairsOf p,
        x ∈ edgeIds (mkEdge pr.1 pr.2))) ∧
    (∀ x, g.hasNode x = true → (restorePaths xg g).hasNode x = true) := by
  induction xg with
  | nil =>
      intro g
      refine ⟨fun f => by simp [restorePaths], fun x h => Or.inl h,
        fun x h => h⟩
  | cons p rest ih =>
      intro g
      have hfold : restorePaths (p :: rest) g =
          restorePaths rest (restorePath g p) := rfl
      rw [hfold]
      obtain ⟨ihE, ihN, ihM⟩ := ih (restorePath g p)
      obtain ⟨pE, pN, pM⟩ := restorePath_spec g p
      refine ⟨?_, ?_, ?_⟩
      · intro f
        rw [ihE f, pE f]
        simp only [List.mem_cons]
        constructor
        · rintro ((h | ⟨pr, hpr, h1⟩) | ⟨q, hq, pr, hpr, h1⟩)
          · exact Or.inl h
          · exact Or.inr ⟨p, Or.inl rfl, pr, hpr, h1⟩
          · exact Or.inr ⟨q, Or.inr hq, pr, hpr, h1⟩
        · rintro (h | ⟨q, hq | hq, pr, hpr, h1⟩)
          · exact Or.inl (Or.inl h)
          · subst hq
            exact Or.inl (Or.inr ⟨pr, hpr, h1⟩)
          · exact Or.inr ⟨q, hq, pr, hpr, h1⟩
      · intro x hx
        simp only [List.mem_cons]
        rcases ihN x hx with h | ⟨q, hq, pr, hpr, h1⟩
        · rcases pN x h with h2 | ⟨pr, hpr, h1⟩
          · exact Or.inl h2
          · exact Or.inr ⟨p, Or.inl rfl, pr, hpr, h1⟩
        · exact Or.inr ⟨q, Or.inr hq, pr, hpr, h1⟩
      · intro x hx
        exact ihM x (pM x hx)

end PhaseUnfolder

namespace PhaseUnfolder

/-- C3 counterexample: with X holding the single path 2+ and an input graph
with no nodes, unfold produces an empty graph (no border, nothing assembled)
while restore_paths writes the nodes and the edge of the path; the two
results are not structurally identical (node 1 distinguishes them). -/
theorem restore_unfold_equivalence_cex :
    ¬ Graph.equiv (unfold [[2, 4]] [] Graph.empty (NodeMapping.init 3) 1).1
      (restorePaths [[2, 4]] Graph.empty) := by
  intro h
  have h1 := h.1 1
  have ha : (unfold [[2, 4]] [] Graph.empty
      (NodeMapping.init 3) 1).1.hasNode 1 = false := by decide
  have hb : (restorePaths [[2, 4]] Graph.empty).hasNode 1 = true := by decide
  rw [ha, hb] at h1
  exact Bool.noConfusion h1

/-- C3 (amended): restore/unfold equivalence, restricted to inputs whose
reference paths only visit nodes present in G.  With the haplotype index
empty and a fresh mapping, unfold and restore_paths produce structurally
identical graphs, and no duplicate ids are allocated: the mapping comes back
exactly as initialized. -/
theorem restore_unfold_equivalence (xg : XgIndex) (g : Graph)
    (n0 fuel : Nat)
    (hnodes : ∀ p ∈ xg, ∀ h ∈ p, g.hasNode (hid h) = true) :
    Graph.equiv (unfold xg [] g (NodeMapping.init n0) fuel).1
      (restorePaths xg g) ∧
    (unfold xg [] g (NodeMapping.init n0) fuel).2 = NodeMapping.init n0 := by
  obtain ⟨hm, hE, hN⟩ := unfoldParts_spec xg g (NodeMapping.init n0) fuel hnodes
  obtain ⟨rE, rN, rM⟩ := restorePaths_spec xg g
  have hu1 : (unfold xg [] g (NodeMapping.init n0) fuel).1 =
      (unfoldParts xg [] g (NodeMapping.init n0) fuel).1 := rfl
  have hu2 : (unfold xg [] g (NodeMapping.init n0) fuel).2 =
      (unfoldParts xg [] g (NodeMapping.init n0) fuel).2.1 := rfl
  refine ⟨⟨?_, ?_⟩, by rw [hu2, hm]⟩
  · intro n
    rw [hu1]
    apply bool_eq_of_iff
    rw [hN n]
    constructor
    · exact fun h => rM n h
    · intro h
      rcases rN n h with h2 | ⟨p, hp, pr, hpr, h1⟩
      · exact h2
      · rcases (mem_edgeIds_mkEdge pr.1 pr.2 n).mp h1 with h3 | h3
        · rw [h3]
          exact hnodes p hp pr.1 (pairsOf_mem_of_mem p pr hpr).1
        · rw [h3]
          exact hnodes p hp pr.2 (pairsOf_mem_of_mem p pr hpr).2
  · intro e
    rw [hu1]
    apply bool_eq_of_iff
    rw [hE e, rE e]

/-- C3 witness: the amended theorem at X = [path 1+ 2+], G with nodes 1 and 2
and no edges, fresh mapping at 3. -/
theorem restore_unfold_equivalence_witness :
    (∀ p ∈ [[2, 4]], ∀ h ∈ p,
      (Graph.mk [1, 2] []).hasNode (hid h) = true) ∧
    (Graph.equiv
      (unfold [[2, 4]] [] (Graph.mk [1, 2] []) (NodeMapping.init 3) 1).1
      (restorePaths [[2, 4]] (Graph.mk [1, 2] [])) ∧
    (unfold [[2, 4]] [] (Graph.mk [1, 2] [])
      (NodeMapping.init 3) 1).2 = NodeMapping.init 3) :=
  ⟨by decide,
    restore_unfold_equivalence [[2, 4]] (Graph.mk [1, 2] []) 3 1 (by decide)⟩

end PhaseUnfolder

namespace PhaseUnfolder

/-- C4 counterexample: in scenario (b) — X paths 1+ 2+ 3+ and 1+ 4+ 3+, H
empty, G holding nodes 1..4 and no edges — every node of each component is on
the border, so only length-2 walks arise and no interior duplicate is ever
allocated: next_node stays 5 instead of increasing by 2. -/
theorem concrete_scenario_cex :
    (unfold [[2, 4, 6], [2, 8, 6]] [] (Graph.mk [1, 2, 3, 4] [])
      (NodeMapping.init 5) 1).2.next_node = 5 := by
  decide

/-- C4 (amended): in scenario (b) the walks degenerate to the four
border-to-border 2-walks 1+2+, 2+3+, 1+4+ and 4+3+; no duplicates are
allocated (next_node stays 5), four crossing edges are recorded and
materialized as exactly the four canonical evidence edges, and verification
still passes. -/
theorem concrete_scenario :
    (unfoldParts [[2, 4, 6], [2, 8, 6]] [] (Graph.mk [1, 2, 3, 4] [])
       (NodeMapping.init 5) 1).2.1.next_node = 5 ∧
    (unfoldParts [[2, 4, 6], [2, 8, 6]] [] (Graph.mk [1, 2, 3, 4] [])
       (NodeMapping.init 5) 1).2.2.2 = 4 ∧
    (unfoldParts [[2, 4, 6], [2, 8, 6]] [] (Graph.mk [1, 2, 3, 4] [])
       (NodeMapping.init 5) 1).2.2.1.edges.length = 4 ∧
    mkEdge 2 4 ∈ (unfoldParts [[2, 4, 6], [2, 8, 6]] []
       (Graph.mk [1, 2, 3, 4] []) (NodeMapping.init 5) 1).2.2.1.edges ∧
    mkEdge 4 6 ∈ (unfoldParts [[2, 4, 6], [2, 8, 6]] []
       (Graph.mk [1, 2, 3, 4] []) (NodeMapping.init 5) 1).2.2.1.edges ∧
    mkEdge 2 8 ∈ (unfoldParts [[2, 4, 6], [2, 8, 6]] []
       (Graph.mk [1, 2, 3, 4] []) (NodeMapping.init 5) 1).2.2.1.edges ∧
    mkEdge 8 6 ∈ (unfoldParts [[2, 4, 6], [2, 8, 6]] []
       (Graph.mk [1, 2, 3, 4] []) (NodeMapping.init 5) 1).2.2.1.edges ∧
    verifyPaths [[2, 4, 6], [2, 8, 6]] []
      (unfold [[2, 4, 6], [2, 8, 6]] [] (Graph.mk [1, 2, 3, 4] [])
        (NodeMapping.init 5) 1).2
      (unfold [[2, 4, 6], [2, 8, 6]] [] (Graph.mk [1, 2, 3, 4] [])
        (NodeMapping.init 5) 1).1 1 = some 0 := by
  refine ⟨by decide, by decide, by decide, by decide, by decide, by decide,
    by decide, by decide⟩

/-- C8 counterexample: a haplotype thread traversed in a single orientation
(thread 2- 1-, i.e. handles [4, 2] in H) produces a component whose border
node 1 is in G, yet the unfolded output graph does not contain node 1: the
thread walk is enumerated in an orientation whose canonical form keeps only
the other endpoint. -/
theorem border_fidelity_cex :
    disjointSubgraphs (complementGraph [] [[4, 2]] (Graph.mk [1] [])) =
      [Graph.mk [1, 2] [(3, 5)]] ∧
    (Graph.mk [1] []).hasNode 1 = true ∧
    (unfoldParts [] [[4, 2]] (Graph.mk [1] [])
      (NodeMapping.init 3) 10).2.2.1.hasNode 1 = false := by
  refine ⟨by decide, by decide, by decide⟩

end PhaseUnfolder

namespace PhaseUnfolder

theorem trieFind_some (t : List ((Nat × Nat) × Nat)) (k : Nat × Nat)
    (v : Nat) (h : trieFind t k = some v) :
    ∃ e ∈ t, e.1 = k ∧ e.2 = v := by
  unfold trieFind at h
  rcases hf : t.find? (fun e => e.1 == k) with _ | e0
  · rw [hf] at h
    exact Option.noConfusion h
  · rw [hf] at h
    have hmem := List.mem_of_find?_eq_some hf
    have hpred := List.find?_some hf
    have hk : e0.1 = k := by simpa using hpred
    have hv : e0.2 = v := by simpa using h
    exact ⟨e0, hmem, hk, hv⟩

theorem trieStep_mem_mono (t : List ((Nat × Nat) × Nat)) (m : NodeMapping)
    (k : Nat × Nat) (wi : Nat) (hnz : ∀ e ∈ t, e.2 ≠ 0) (e : (Nat × Nat) × Nat)
    (he : e ∈ t) : e ∈ (trieStep t m k wi).1 := by
  rcases hf : trieFind t k with _ | v
  · rw [trieStep_miss t m k wi hf]
    exact List.mem_append.mpr (Or.inl he)
  · by_cases hv : v = 0
    · subst hv
      rcases trieFind_some t k 0 hf with ⟨e0, he0, _, hv0⟩
      exact absurd hv0 (hnz e0 he0)
    · rw [trieStep_hit t m k wi v hf hv]
      exact he

theorem goodP_nz (m : NodeMapping) (hfn : 1 ≤ m.first_node)
    (t : List ((Nat × Nat) × Nat)) (hg : ∀ e ∈ t, GoodP m e) :
    ∀ e ∈ t, e.2 ≠ 0 := by
  intro e he h0
  have h1 := (hg e he).1
  rw [h0] at h1
  unfold hid at h1
  omega

theorem goodS_nz (m : NodeMapping) (hfn : 1 ≤ m.first_node)
    (t : List ((Nat × Nat) × Nat)) (hg : ∀ e ∈ t, GoodS m e) :
    ∀ e ∈ t, e.2 ≠ 0 := by
  intro e he h0
  have h1 := (hg e he).1
  rw [h0] at h1
  unfold hid at h1
  omega

theorem trieStep_first_node (t : List ((Nat × Nat) × Nat)) (m : NodeMapping)
    (k : Nat × Nat) (wi : Nat) :
    (trieStep t m k wi).2.1.first_node = m.first_node := by
  rcases hf : trieFind t k with _ | v
  · rw [trieStep_miss t m k wi hf]
  · by_cases hv : v = 0
    · subst hv
      rw [trieStep_zero t m k wi hf]
    · rw [trieStep_hit t m k wi v hf hv]

theorem prefixStep_first_node (w : List Nat) (acc : TrieAcc) (i : Nat) :
    (prefixStep w acc i).2.1.first_node = acc.2.1.first_node :=
  trieStep_first_node _ _ _ _

theorem suffixStep_first_node (w : List Nat) (acc : TrieAcc) (i : Nat) :
    (suffixStep w acc i).2.1.first_node = acc.2.1.first_node :=
  trieStep_first_node _ _ _ _

theorem prefixFold_mem_mono (w : List Nat) (is : List Nat) :
    ∀ (acc : TrieAcc), MappingWf acc.2.1 →
    (∀ e ∈ acc.1, GoodP acc.2.1 e) → 1 ≤ acc.2.1.first_node →
    ∀ e ∈ acc.1, e ∈ (is.foldl (prefixStep w) acc).1 := by
  induction is with
  | nil => intro acc _ _ _ e he; exact he
  | cons i rest ih =>
      intro acc hwf hg hfn e he
      rw [List.foldl_cons]
      have hdef : prefixStep w acc i =
          trieStep acc.1 acc.2.1 (acc.2.2, w.getD i 0) (w.getD i 0) := rfl
      obtain ⟨hs1, hs2, hs3, hs4, hs5⟩ :=
        trieStep_spec acc.1 acc.2.1 (acc.2.2, w.getD i 0) (w.getD i 0) hwf
      rw [← hdef] at hs1 hs2 hs3 hs4 hs5
      have hg2 : ∀ e2 ∈ (prefixStep w acc i).1,
          GoodP (prefixStep w acc i).2.1 e2 := by
        intro e2 he2
        rcases hs5 e2 he2 with hold | ⟨hk, hb1, hb2, hb3, hb4⟩
        · exact GoodP_mono _ _ _ (hg e2 hold) hs2 hs3 hs4
        · refine ⟨by rw [hs2]; exact hb1, hb2, ?_, ?_⟩
          · rw [hb3, hk]
          · rw [hb4, hk]
      have hmem : e ∈ (prefixStep w acc i).1 := by
        rw [hdef]
        exact trieStep_mem_mono _ _ _ _ (goodP_nz acc.2.1 hfn acc.1 hg) e he
      exact ih (prefixStep w acc i) hs1 hg2 (by rw [hs2]; exact hfn) e hmem

theorem suffixFold_mem_mono (w : List Nat) (is : List Nat) :
    ∀ (acc : TrieAcc), MappingWf acc.2.1 →
    (∀ e ∈ acc.1, GoodS acc.2.1 e) → 1 ≤ acc.2.1.first_node →
    ∀ e ∈ acc.1, e ∈ (is.foldl (suffixStep w) acc).1 := by
  induction is with
  | nil => intro acc _ _ _ e he; exact he
  | cons i rest ih =>
      intro acc hwf hg hfn e he
      rw [List.foldl_cons]
      have hdef : suffixStep w acc i =
          trieStep acc.1 acc.2.1 (w.getD i 0, acc.2.2) (w.getD i 0) := rfl
      obtain ⟨hs1, hs2, hs3, hs4, hs5⟩ :=
        trieStep_spec acc.1 acc.2.1 (w.getD i 0, acc.2.2) (w.getD i 0) hwf
      rw [← hdef] at hs1 hs2 hs3 hs4 hs5
      have hg2 : ∀ e2 ∈ (suffixStep w acc i).1,
          GoodS (suffixStep w acc i).2.1 e2 := by
        intro e2 he2
        rcases hs5 e2 he2 with hold | ⟨hk, hb1, hb2, hb3, hb4⟩
        · exact GoodS_mono _ _ _ (hg e2 hold) hs2 hs3 hs4
        · refine ⟨by rw [hs2]; exact hb1, hb2, ?_, ?_⟩
          · rw [hb3, hk]
          · rw [hb4, hk]
      have hmem : e ∈ (suffixStep w acc i).1 := by
        rw [hdef]
        exact trieStep_mem_mono _ _ _ _ (goodS_nz acc.2.1 hfn acc.1 hg) e he
      exact ih (suffixStep w acc i) hs1 hg2 (by rw [hs2]; exact hfn) e hmem

theorem foldl_first_node (step : TrieAcc → Nat → TrieAcc)
    (hstep : ∀ acc i, (step acc i).2.1.first_node = acc.2.1.first_node)
    (is : List Nat) :
    ∀ (acc : TrieAcc),
    (is.foldl step acc).2.1.first_node = acc.2.1.first_node := by
  induction is with
  | nil => intro acc; rfl
  | cons i rest ih =>
      intro acc
      rw [List.foldl_cons, ih (step acc i), hstep acc i]

theorem insertPath_first_node (st : UnfoldState) (p : List Nat) :
    (insertPath st p).mapping.first_node = st.mapping.first_node := by
  by_cases h : p.length < 2
  · rw [insertPath_short st p h]
  · rw [insertPath_eq st p h]
    dsimp only
    unfold suffixFoldOf
    rw [foldl_first_node (suffixStep (canonicalOf p))
      (suffixStep_first_node (canonicalOf p))]
    dsimp only
    unfold prefixFoldOf
    rw [foldl_first_node (prefixStep (canonicalOf p))
      (prefixStep_first_node (canonicalOf p))]

end PhaseUnfolder

namespace PhaseUnfolder

theorem prefixFold_head_entry (w : List Nat) (i0 : Nat) (rest : List Nat)
    (acc : TrieAcc) (hwf : MappingWf acc.2.1)
    (hg : ∀ e ∈ acc.1, GoodP acc.2.1 e) (hfn : 1 ≤ acc.2.1.first_node) :
    ∃ e ∈ ((i0 :: rest).foldl (prefixStep w) acc).1, e.1.1 = acc.2.2 := by
  rw [List.foldl_cons]
  have hdef : prefixStep w acc i0 =
      trieStep acc.1 acc.2.1 (acc.2.2, w.getD i0 0) (w.getD i0 0) := rfl
  obtain ⟨hs1, hs2, hs3, hs4, hs5⟩ :=
    trieStep_spec acc.1 acc.2.1 (acc.2.2, w.getD i0 0) (w.getD i0 0) hwf
  rw [← hdef] at hs1 hs2 hs3 hs4 hs5
  have hg2 : ∀ e2 ∈ (prefixStep w acc i0).1,
      GoodP (prefixStep w acc i0).2.1 e2 := by
    intro e2 he2
    rcases hs5 e2 he2 with hold | ⟨hk, hb1, hb2, hb3, hb4⟩
    · exact GoodP_mono _ _ _ (hg e2 hold) hs2 hs3 hs4
    · refine ⟨by rw [hs2]; exact hb1, hb2, ?_, ?_⟩
      · rw [hb3, hk]
      · rw [hb4, hk]
  have hentry : ∃ e ∈ (prefixStep w acc i0).1, e.1.1 = acc.2.2 := by
    rw [hdef]
    rcases hf : trieFind acc.1 (acc.2.2, w.getD i0 0) with _ | v
    · rw [trieStep_miss _ _ _ _ hf]
      exact ⟨((acc.2.2, w.getD i0 0),
          hencode acc.2.1.next_node (hrev (w.getD i0 0))),
        List.mem_append.mpr (Or.inr (List.mem_singleton.mpr rfl)), rfl⟩
    · by_cases hv : v = 0
      · subst hv
        rcases trieFind_some _ _ _ hf with ⟨e0, he0, _, hv0⟩
        exact absurd hv0 (goodP_nz acc.2.1 hfn acc.1 hg e0 he0)
      · rw [trieStep_hit _ _ _ _ _ hf hv]
        rcases trieFind_some _ _ _ hf with ⟨e0, he0, hk, _⟩
        exact ⟨e0, he0, by rw [hk]⟩
  rcases hentry with ⟨e, he, hkey⟩
  exact ⟨e, prefixFold_mem_mono w rest (prefixStep w acc i0) hs1 hg2
    (by rw [hs2]; exact hfn) e he, hkey⟩

theorem suffixFold_last_entry (w : List Nat) (i0 : Nat) (rest : List Nat)
    (acc : TrieAcc) (hwf : MappingWf acc.2.1)
    (hg : ∀ e ∈ acc.1, GoodS acc.2.1 e) (hfn : 1 ≤ acc.2.1.first_node) :
    ∃ e ∈ ((i0 :: rest).foldl (suffixStep w) acc).1, e.1.2 = acc.2.2 := by
  rw [List.foldl_cons]
  have hdef : suffixStep w acc i0 =
      trieStep acc.1 acc.2.1 (w.getD i0 0, acc.2.2) (w.getD i0 0) := rfl
  obtain ⟨hs1, hs2, hs3, hs4, hs5⟩ :=
    trieStep_spec acc.1 acc.2.1 (w.getD i0 0, acc.2.2) (w.getD i0 0) hwf
  rw [← hdef] at hs1 hs2 hs3 hs4 hs5
  have hg2 : ∀ e2 ∈ (suffixStep w acc i0).1,
      GoodS (suffixStep w acc i0).2.1 e2 := by
    intro e2 he2
    rcases hs5 e2 he2 with hold | ⟨hk, hb1, hb2, hb3, hb4⟩
    · exact GoodS_mono _ _ _ (hg e2 hold) hs2 hs3 hs4
    · refine ⟨by rw [hs2]; exact hb1, hb2, ?_, ?_⟩
      · rw [hb3, hk]
      · rw [hb4, hk]
  have hentry : ∃ e ∈ (suffixStep w acc i0).1, e.1.2 = acc.2.2 := by
    rw [hdef]
    rcases hf : trieFind acc.1 (w.getD i0 0, acc.2.2) with _ | v
    · rw [trieStep_miss _ _ _ _ hf]
      exact ⟨((w.getD i0 0, acc.2.2),
          hencode acc.2.1.next_node (hrev (w.getD i0 0))),
        List.mem_append.mpr (Or.inr (List.mem_singleton.mpr rfl)), rfl⟩
    · by_cases hv : v = 0
      · subst hv
        rcases trieFind_some _ _ _ hf with ⟨e0, he0, _, hv0⟩
        exact absurd hv0 (goodS_nz acc.2.1 hfn acc.1 hg e0 he0)
      · rw [trieStep_hit _ _ _ _ _ hf hv]
        rcases trieFind_some _ _ _ hf with ⟨e0, he0, hk, _⟩
        exact ⟨e0, he0, by rw [hk]⟩
  rcases hentry with ⟨e, he, hkey⟩
  exact ⟨e, suffixFold_mem_mono w rest (suffixStep w acc i0) hs1 hg2
    (by rw [hs2]; exact hfn) e he, hkey⟩

theorem insertPath_prefixes (st : UnfoldState) (p : List Nat)
    (h : ¬ p.length < 2) :
    (insertPath st p).prefixes = (prefixFoldOf st (canonicalOf p)).1 := by
  rw [insertPath_eq st p h]

theorem insertPath_suffixes (st : UnfoldState) (p : List Nat)
    (h : ¬ p.length < 2) :
    (insertPath st p).suffixes =
      (suffixFoldOf st (canonicalOf p)
        (prefixFoldOf st (canonicalOf p)).2.1).1 := by
  rw [insertPath_eq st p h]

theorem insertPath_crossing_self (st : UnfoldState) (p : List Nat)
    (h : ¬ p.length < 2) :
    ((prefixFoldOf st (canonicalOf p)).2.2,
     (suffixFoldOf st (canonicalOf p)
       (prefixFoldOf st (canonicalOf p)).2.1).2.2) ∈
      (insertPath st p).crossing := by
  rw [insertPath_eq st p h]
  dsimp only
  split
  · rename_i hc
    simpa using hc
  · exact List.mem_append.mpr (Or.inr (by simp))

end PhaseUnfolder

namespace PhaseUnfolder

theorem insertPath_endpoints (st : UnfoldState) (p : List Nat)
    (h2 : 2 ≤ p.length) (hwf : MappingWf st.mapping)
    (hgp : ∀ e ∈ st.prefixes, GoodP st.mapping e)
    (hgs : ∀ e ∈ st.suffixes, GoodS st.mapping e)
    (hfn : 1 ≤ st.mapping.first_node) :
    HeadIn (insertPath st p) ((canonicalOf p).headD 0) ∧
    LastIn (insertPath st p) ((canonicalOf p).getLastD 0) := by
  have hnot : ¬ p.length < 2 := by omega
  have hwlen : (canonicalOf p).length = p.length := length_canonicalOf p
  -- The prefix fold, named by its defining equation.
  have epre : prefixFoldOf st (canonicalOf p) =
      ((List.range (((canonicalOf p).length + 1) / 2)).drop 1).foldl
        (prefixStep (canonicalOf p))
        (st.prefixes, st.mapping, (canonicalOf p).headD 0) := rfl
  obtain ⟨h11, h12, h13, h14, h15⟩ := prefixFold_preserves (canonicalOf p)
    ((List.range (((canonicalOf p).length + 1) / 2)).drop 1)
    (st.prefixes, st.mapping, (canonicalOf p).headD 0) hwf hgp
  rw [← epre] at h11 h12 h13 h14 h15
  have esuf : suffixFoldOf st (canonicalOf p)
      (prefixFoldOf st (canonicalOf p)).2.1 =
      ((List.range' (((canonicalOf p).length + 1) / 2)
        ((canonicalOf p).length - 1 - ((canonicalOf p).length + 1) / 2)).reverse).foldl
        (suffixStep (canonicalOf p))
        (st.suffixes, (prefixFoldOf st (canonicalOf p)).2.1,
         (canonicalOf p).getLastD 0) := rfl
  have hgs1 : ∀ e ∈ st.suffixes,
      GoodS (prefixFoldOf st (canonicalOf p)).2.1 e := by
    intro e he
    exact GoodS_mono _ _ _ (hgs e he) h12 h13 h14
  have hfn1 : 1 ≤ (prefixFoldOf st (canonicalOf p)).2.1.first_node := by
    rw [h12]
    exact hfn
  constructor
  · -- Head endpoint.
    by_cases hp3 : 3 ≤ p.length
    · -- Nonempty prefix index list: a prefix entry keyed from the head.
      have hne : ((List.range (((canonicalOf p).length + 1) / 2)).drop 1) ≠
          [] := by
        intro hnil
        have := congrArg List.length hnil
        rw [List.length_drop, List.length_range, hwlen] at this
        simp at this
        omega
      obtain ⟨i0, rest, hcons⟩ := List.exists_cons_of_ne_nil hne
      obtain ⟨e, he, hkey⟩ := prefixFold_head_entry (canonicalOf p) i0 rest
        (st.prefixes, st.mapping, (canonicalOf p).headD 0) hwf hgp hfn
      refine Or.inl ⟨e, ?_, hkey⟩
      rw [insertPath_prefixes st p hnot, epre, hcons]
      exact he
    · -- Walk of length 2: the crossing edge leaves from the head.
      have hL2 : (canonicalOf p).length = 2 := by omega
      have hempty : ((List.range (((canonicalOf p).length + 1) / 2)).drop 1) =
          [] := by
        rw [hL2]
        rfl
      have hpre2 : prefixFoldOf st (canonicalOf p) =
          (st.prefixes, st.mapping, (canonicalOf p).headD 0) := by
        rw [epre, hempty]
        rfl
      refine Or.inr ⟨((prefixFoldOf st (canonicalOf p)).2.2,
        (suffixFoldOf st (canonicalOf p)
          (prefixFoldOf st (canonicalOf p)).2.1).2.2),
        insertPath_crossing_self st p hnot, ?_⟩
      rw [hpre2]
  · -- Last endpoint.
    by_cases hp4 : 4 ≤ p.length
    · -- Nonempty suffix index list: a suffix entry keyed into the last.
      have hne : ((List.range' (((canonicalOf p).length + 1) / 2)
          ((canonicalOf p).length - 1 -
            ((canonicalOf p).length + 1) / 2)).reverse) ≠ [] := by
        intro hnil
        have := congrArg List.length hnil
        rw [List.length_reverse, List.length_range'] at this
        rw [hwlen] at this
        simp at this
        omega
      obtain ⟨i0, rest, hcons⟩ := List.exists_cons_of_ne_nil hne
      obtain ⟨e, he, hkey⟩ := suffixFold_last_entry (canonicalOf p) i0 rest
        (st.suffixes, (prefixFoldOf st (canonicalOf p)).2.1,
         (canonicalOf p).getLastD 0) h11 hgs1 hfn1
      refine Or.inl ⟨e, ?_, hkey⟩
      rw [insertPath_suffixes st p hnot, esuf, hcons]
      exact he
    · -- Walk of length 2 or 3: the crossing edge enters the last handle.
      have hcount : (canonicalOf p).length - 1 -
          ((canonicalOf p).length + 1) / 2 = 0 := by
        rw [hwlen]
        omega
      have hempty : ((List.range' (((canonicalOf p).length + 1) / 2)
          ((canonicalOf p).length - 1 -
            ((canonicalOf p).length + 1) / 2)).reverse) = [] := by
        rw [hcount]
        rfl
      have hsuf2 : suffixFoldOf st (canonicalOf p)
          (prefixFoldOf st (canonicalOf p)).2.1 =
          (st.suffixes, (prefixFoldOf st (canonicalOf p)).2.1,
           (canonicalOf p).getLastD 0) := by
        rw [esuf, hempty]
        rfl
      refine Or.inr ⟨((prefixFoldOf st (canonicalOf p)).2.2,
        (suffixFoldOf st (canonicalOf p)
          (prefixFoldOf st (canonicalOf p)).2.1).2.2),
        insertPath_crossing_self st p hnot, ?_⟩
      rw [hsuf2]

end PhaseUnfolder

namespace PhaseUnfolder

theorem insertPath_mem_mono (st : UnfoldState) (p : List Nat)
    (hinv : StInv st) :
    (∀ e ∈ st.prefixes, e ∈ (insertPath st p).prefixes) ∧
    (∀ e ∈ st.suffixes, e ∈ (insertPath st p).suffixes) := by
  obtain ⟨hwf, hgp, hgs, hfn⟩ := hinv
  by_cases h : p.length < 2
  · rw [insertPath_short st p h]
    exact ⟨fun e he => he, fun e he => he⟩
  · have epre : prefixFoldOf st (canonicalOf p) =
        ((List.range (((canonicalOf p).length + 1) / 2)).drop 1).foldl
          (prefixStep (canonicalOf p))
          (st.prefixes, st.mapping, (canonicalOf p).headD 0) := rfl
    obtain ⟨h11, h12, h13, h14, h15⟩ := prefixFold_preserves (canonicalOf p)
      ((List.range (((canonicalOf p).length + 1) / 2)).drop 1)
      (st.prefixes, st.mapping, (canonicalOf p).headD 0) hwf hgp
    rw [← epre] at h11 h12 h13 h14 h15
    have esuf : suffixFoldOf st (canonicalOf p)
        (prefixFoldOf st (canonicalOf p)).2.1 =
        ((List.range' (((canonicalOf p).length + 1) / 2)
          ((canonicalOf p).length - 1 - ((canonicalOf p).length + 1) / 2)).reverse).foldl
          (suffixStep (canonicalOf p))
          (st.suffixes, (prefixFoldOf st (canonicalOf p)).2.1,
           (canonicalOf p).getLastD 0) := rfl
    have hgs1 : ∀ e ∈ st.suffixes,
        GoodS (prefixFoldOf st (canonicalOf p)).2.1 e := by
      intro e he
      exact GoodS_mono _ _ _ (hgs e he) h12 h13 h14
    have hfn1 : 1 ≤ (prefixFoldOf st (canonicalOf p)).2.1.first_node := by
      rw [h12]
      exact hfn
    constructor
    · intro e he
      rw [insertPath_prefixes st p h, epre]
      exact prefixFold_mem_mono (canonicalOf p) _
        (st.prefixes, st.mapping, (canonicalOf p).headD 0) hwf hgp hfn e he
    · intro e he
      rw [insertPath_suffixes st p h, esuf]
      exact suffixFold_mem_mono (canonicalOf p) _
        (st.suffixes, (prefixFoldOf st (canonicalOf p)).2.1,
         (canonicalOf p).getLastD 0) h11 hgs1 hfn1 e he

theorem insertPath_stInv (st : UnfoldState) (p : List Nat)
    (hinv : StInv st) : StInv (insertPath st p) := by
  obtain ⟨hwf, hgp, hgs, hfn⟩ := hinv
  obtain ⟨h1, h2, h3⟩ := insertPath_preserves_inv st p hwf hgp hgs
  refine ⟨h1, h2, h3, ?_⟩
  rw [insertPath_first_node st p]
  exact hfn

theorem insertPath_headIn_mono (st : UnfoldState) (p : List Nat)
    (hinv : StInv st) (h : Nat) (hh : HeadIn st h) :
    HeadIn (insertPath st p) h := by
  rcases hh with ⟨e, he, hk⟩ | ⟨c, hc, hk⟩
  · exact Or.inl ⟨e, (insertPath_mem_mono st p hinv).1 e he, hk⟩
  · exact Or.inr ⟨c, insertPath_crossing_mono st p c hc, hk⟩

theorem insertPath_lastIn_mono (st : UnfoldState) (p : List Nat)
    (hinv : StInv st) (h : Nat) (hh : LastIn st h) :
    LastIn (insertPath st p) h := by
  rcases hh with ⟨e, he, hk⟩ | ⟨c, hc, hk⟩
  · exact Or.inl ⟨e, (insertPath_mem_mono st p hinv).2 e he, hk⟩
  · exact Or.inr ⟨c, insertPath_crossing_mono st p c hc, hk⟩

theorem foldl_insertPath_headIn (ws : List (List Nat)) :
    ∀ (st : UnfoldState), StInv st → ∀ h, HeadIn st h →
    HeadIn (ws.foldl insertPath st) h := by
  induction ws with
  | nil => intro st _ h hh; exact hh
  | cons w rest ih =>
      intro st hinv h hh
      rw [List.foldl_cons]
      exact ih (insertPath st w) (insertPath_stInv st w hinv) h
        (insertPath_headIn_mono st w hinv h hh)

theorem foldl_insertPath_lastIn (ws : List (List Nat)) :
    ∀ (st : UnfoldState), StInv st → ∀ h, LastIn st h →
    LastIn (ws.foldl insertPath st) h := by
  induction ws with
  | nil => intro st _ h hh; exact hh
  | cons w rest ih =>
      intro st hinv h hh
      rw [List.foldl_cons]
      exact ih (insertPath st w) (insertPath_stInv st w hinv) h
        (insertPath_lastIn_mono st w hinv h hh)

theorem foldl_insertPath_endpoints (ws : List (List Nat)) :
    ∀ (st : UnfoldState), StInv st → ∀ w ∈ ws, 2 ≤ w.length →
    HeadIn (ws.foldl insertPath st) ((canonicalOf w).headD 0) ∧
    LastIn (ws.foldl insertPath st) ((canonicalOf w).getLastD 0) := by
  induction ws with
  | nil => intro st _ w hw; exact absurd hw (List.not_mem_nil w)
  | cons w0 rest ih =>
      intro st hinv w hw h2
      rw [List.foldl_cons]
      rcases List.mem_cons.mp hw with rfl | hw2
      · obtain ⟨hH, hL⟩ := insertPath_endpoints st w h2 hinv.1 hinv.2.1
          hinv.2.2.1 hinv.2.2.2
        have hinv2 := insertPath_stInv st w hinv
        exact ⟨foldl_insertPath_headIn rest _ hinv2 _ hH,
          foldl_insertPath_lastIn rest _ hinv2 _ hL⟩
      · exact ih (insertPath st w0) (insertPath_stInv st w0 hinv) w hw2 h2

theorem assemble_hasNode_head (st : UnfoldState) (u : Graph) (h : Nat)
    (hh : HeadIn st h) : (assemble st u).hasNode (hid h) = true := by
  unfold assemble
  rcases hh with ⟨e, he, hk⟩ | ⟨c, hc, hk⟩
  · have h1 : (st.prefixes.foldl assembleP u).hasNode (hid h) = true :=
      ((foldl_assembleP_spec st.prefixes u).2 (hid h)).mpr
        (Or.inr ⟨e, he, Or.inl (by rw [hk])⟩)
    have h2 := ((foldl_assembleS_spec st.suffixes _).2 (hid h)).mpr (Or.inl h1)
    exact ((foldl_assembleC_spec st.crossing _).2 (hid h)).mpr (Or.inl h2)
  · exact ((foldl_assembleC_spec st.crossing _).2 (hid h)).mpr
      (Or.inr ⟨c, hc, Or.inl (by rw [hk])⟩)

theorem assemble_hasNode_last (st : UnfoldState) (u : Graph) (h : Nat)
    (hh : LastIn st h) : (assemble st u).hasNode (hid h) = true := by
  unfold assemble
  rcases hh with ⟨e, he, hk⟩ | ⟨c, hc, hk⟩
  · have h1 := ((foldl_assembleS_spec st.suffixes
        (st.prefixes.foldl assembleP u)).2 (hid h)).mpr
      (Or.inr ⟨e, he, Or.inr (by rw [hk])⟩)
    exact ((foldl_assembleC_spec st.crossing _).2 (hid h)).mpr (Or.inl h1)
  · exact ((foldl_assembleC_spec st.crossing _).2 (hid h)).mpr
      (Or.inr ⟨c, hc, Or.inr (by rw [hk])⟩)

end PhaseUnfolder

namespace PhaseUnfolder

theorem extendWalk_cons (comp : Graph) (border : List Nat)
    (prev curr : Nat) (rest : List Nat) :
    extendWalk comp border prev (curr :: rest) =
      if comp.hasEdge (mkEdge prev curr) then
        curr :: (if border.contains (hid curr) then []
                 else extendWalk comp border curr rest)
      else [] := rfl

theorem generatePaths_start (xg : XgIndex) (K : Graph) (border : List Nat)
    (p : List Nat) (hp : p ∈ xg) (pr : Nat × Nat) (hpr : pr ∈ pairsOf p)
    (hKe : K.hasEdge (mkEdge pr.1 pr.2) = true) (n : Nat)
    (hn : n = hid pr.1 ∨ n = hid pr.2) :
    ∃ w ∈ generatePaths xg K border n, 2 ≤ w.length ∧ hid (w.headD 0) = n := by
  rcases pairsOf_index p pr hpr with ⟨i, hi1, hg1, hg2⟩
  rcases hn with rfl | rfl
  · -- The forward walk from the occurrence of pr.1 at position i.
    have hdrop : p.drop (i + 1) = pr.2 :: p.drop (i + 2) := by
      rw [← hg2, List.getD_eq_getElem p 0 hi1]
      exact List.drop_eq_getElem_cons hi1
    have hfw : forwardWalk K border p i = pr.1 :: pr.2 ::
        (if border.contains (hid pr.2) then []
         else extendWalk K border pr.2 (p.drop (i + 2))) := by
      unfold forwardWalk
      dsimp only
      rw [hg1, hdrop, extendWalk_cons, if_pos hKe]
    refine ⟨forwardWalk K border p i, ?_, ?_, ?_⟩
    · unfold generatePaths
      refine List.mem_flatMap.mpr ⟨p, hp, List.mem_flatMap.mpr ⟨i, ?_, by simp⟩⟩
      have := occurrencesOf_mem p i (by omega)
      rw [hg1] at this
      exact this
    · rw [hfw]
      simp
    · rw [hfw]
      rfl
  · -- The backward walk from the occurrence of pr.2 at position i + 1.
    have hi : i < p.length := by omega
    have htake : (p.take (i + 1)).reverse = pr.1 :: (p.take i).reverse := by
      rw [← List.take_concat_get p i hi, List.concat_eq_append,
        List.reverse_append]
      have hpe : p[i] = pr.1 := by
        rw [← hg1, List.getD_eq_getElem p 0 hi]
      rw [hpe]
      rfl
    have hbw : backwardWalk K border p (i + 1) = hrc pr.2 :: hrc pr.1 ::
        (if border.contains (hid (hrc pr.1)) then []
         else extendWalk K border (hrc pr.1) ((p.take i).reverse.map hrc)) := by
      unfold backwardWalk
      dsimp only
      rw [hg2, htake, List.map_cons, extendWalk_cons,
        if_pos (by rw [mkEdge_flip]; exact hKe)]
    refine ⟨backwardWalk K border p (i + 1), ?_, ?_, ?_⟩
    · unfold generatePaths
      refine List.mem_flatMap.mpr
        ⟨p, hp, List.mem_flatMap.mpr ⟨i + 1, ?_, by simp⟩⟩
      have := occurrencesOf_mem p (i + 1) hi1
      rw [hg2] at this
      exact this
    · rw [hbw]
      simp
    · rw [hbw]
      show hid (hrc pr.2) = hid pr.2
      exact hid_hrc pr.2

end PhaseUnfolder

namespace PhaseUnfolder

theorem canonical_end_ids (w : List Nat) (n : Nat) (hw2 : 2 ≤ w.length)
    (hwhead : hid (w.headD 0) = n) :
    hid ((canonicalOf w).headD 0) = n ∨
    hid ((canonicalOf w).getLastD 0) = n := by
  unfold canonicalOf
  split
  · right
    have hwne : w ≠ [] := by
      intro h
      rw [h] at hw2
      simp at hw2
    obtain ⟨h0, t, rfl⟩ := List.exists_cons_of_ne_nil hwne
    have hrc0 : rcPath (h0 :: t) = (t.map hrc).reverse ++ [hrc h0] := by
      unfold rcPath
      rw [List.map_cons, List.reverse_cons]
    rw [hrc0, List.getLastD_concat, hid_hrc]
    exact hwhead
  · left
    exact hwhead

/-- C8 (amended): border fidelity for components carried by reference-path
evidence, i.e. with the haplotype index empty.  For every component K whose
nodes are the endpoint ids of its edges and whose edges come from consecutive
pairs of reference paths of X (as every complement component does when H is
empty), every border node id — present both in K and in G — appears in the
unfolded output graph of unfold_component with that same id.  With a
haplotype thread traversed in a single orientation the property fails, as
the counterexample shows. -/
theorem border_fidelity (xg : XgIndex) (K g : Graph) (m : NodeMapping)
    (u : Graph) (fuel : Nat)
    (HN : ∀ x, x ∈ K.nodes ↔ ∃ e ∈ K.edges, x ∈ edgeIds e)
    (HP : ∀ e ∈ K.edges, ∃ p ∈ xg, ∃ pr ∈ pairsOf p, e = mkEdge pr.1 pr.2)
    (hwf : MappingWf m) (hfn : 1 ≤ m.first_node) :
    ∀ n ∈ K.nodes.filter (fun x => g.hasNode x),
      (unfoldComponent xg [] K g m u fuel).2.1.hasNode n = true := by
  intro n hn
  have hnK : n ∈ K.nodes := (List.mem_filter.mp hn).1
  rcases (HN n).mp hnK with ⟨e, he, hne⟩
  rcases HP e he with ⟨p, hp, pr, hpr, heq⟩
  rw [heq] at hne
  have hKe : K.hasEdge (mkEdge pr.1 pr.2) = true := by
    rw [← heq]
    unfold Graph.hasEdge
    simp
    exact he
  have hn2 : n = hid pr.1 ∨ n = hid pr.2 := (mem_edgeIds_mkEdge _ _ n).mp hne
  obtain ⟨w, hwmem, hw2, hwhead⟩ := generatePaths_start xg K
    (K.nodes.filter (fun x => g.hasNode x)) p hp pr hpr hKe n hn2
  rw [unfoldComponent_eq]
  dsimp only
  have hwalks : w ∈ ((K.nodes.filter (fun x => g.hasNode x)).flatMap fun b =>
      generatePaths xg K (K.nodes.filter (fun x => g.hasNode x)) b ++
      generateThreads [] K (K.nodes.filter (fun x => g.hasNode x)) b fuel) :=
    List.mem_flatMap.mpr ⟨n, hn, List.mem_append.mpr (Or.inl hwmem)⟩
  have hinv0 : StInv (UnfoldState.init m) := by
    refine ⟨hwf, ?_, ?_, hfn⟩
    · intro e2 he2
      exact absurd he2 (List.not_mem_nil e2)
    · intro e2 he2
      exact absurd he2 (List.not_mem_nil e2)
  obtain ⟨hH, hL⟩ := foldl_insertPath_endpoints
    ((K.nodes.filter (fun x => g.hasNode x)).flatMap fun b =>
      generatePaths xg K (K.nodes.filter (fun x => g.hasNode x)) b ++
      generateThreads [] K (K.nodes.filter (fun x => g.hasNode x)) b fuel)
    (UnfoldState.init m) hinv0 w hwalks hw2
  rcases canonical_end_ids w n hw2 hwhead with hcase | hcase
  · have hres := assemble_hasNode_head _ u _ hH
    rw [hcase] at hres
    exact hres
  · have hres := assemble_hasNode_last _ u _ hL
    rw [hcase] at hres
    exact hres

end PhaseUnfolder

namespace PhaseUnfolder

/-- C8 witness: the amended theorem at X = [path 1+ 2+], the component with
nodes {1, 2} and the complement edge 1+2+, G holding only node 1 (so the
border is {1}), fresh mapping at 3. -/
theorem border_fidelity_witness :
    ((∀ x, x ∈ (Graph.mk [1, 2] [(2, 4)]).nodes ↔
        ∃ e ∈ (Graph.mk [1, 2] [(2, 4)]).edges, x ∈ edgeIds e) ∧
     (∀ e ∈ (Graph.mk [1, 2] [(2, 4)]).edges, ∃ p ∈ [[2, 4]],
        ∃ pr ∈ pairsOf p, e = mkEdge pr.1 pr.2) ∧
     MappingWf (NodeMapping.init 3) ∧ 1 ≤ (NodeMapping.init 3).first_node) ∧
    (∀ n ∈ (Graph.mk [1, 2] [(2, 4)]).nodes.filter
        (fun x => (Graph.mk [1] []).hasNode x),
      (unfoldComponent [[2, 4]] [] (Graph.mk [1, 2] [(2, 4)])
        (Graph.mk [1] []) (NodeMapping.init 3) Graph.empty 1).2.1.hasNode n =
        true) :=
  ⟨⟨by intro x; simp [edgeIds, hid],
    by
      intro e he
      simp at he
      subst he
      exact ⟨[2, 4], by simp, (2, 4), by simp [pairsOf], by decide⟩,
    by unfold MappingWf NodeMapping.init; exact ⟨by decide, by decide⟩,
    by decide⟩,
   border_fidelity [[2, 4]] (Graph.mk [1, 2] [(2, 4)]) (Graph.mk [1] [])
     (NodeMapping.init 3) Graph.empty 1
     (by intro x; simp [edgeIds, hid])
     (by
       intro e he
       simp at he
       subst he
       exact ⟨[2, 4], by simp, (2, 4), by simp [pairsOf], by decide⟩)
     (by unfold MappingWf NodeMapping.init; exact ⟨by decide, by decide⟩)
     (by decide)⟩

end PhaseUnfolder

namespace PhaseUnfolder

theorem mem_insertSorted (a x : Nat) :
    ∀ (l : List Nat), x ∈ insertSorted a l ↔ (x = a ∨ x ∈ l) := by
  intro l
  induction l with
  | nil => simp [insertSorted]
  | cons y ys ih =>
      unfold insertSorted
      split
      · simp
      · simp only [List.mem_cons, ih]
        tauto

theorem mem_sortNat (x : Nat) (l : List Nat) : x ∈ sortNat l ↔ x ∈ l := by
  unfold sortNat
  induction l with
  | nil => simp
  | cons y ys ih =>
      rw [List.foldr_cons, mem_insertSorted]
      simp only [List.mem_cons, ih]

theorem mem_removeDuplicates (x : Nat) (l : List Nat) :
    x ∈ removeDuplicates l ↔ x ∈ l := by
  unfold removeDuplicates
  rw [List.mem_dedup, mem_sortNat]

theorem pairsOf_of_index (p : List Nat) (i : Nat) (hi : i + 1 < p.length) :
    (p.getD i 0, p.getD (i + 1) 0) ∈ pairsOf p := by
  unfold pairsOf
  have hip : i < p.length := by omega
  have htail : p.tail.length = p.length - 1 := List.length_tail p
  have hit : i < p.tail.length := by omega
  refine List.mem_iff_getElem.mpr ⟨i, ?_, ?_⟩
  · rw [List.length_zip]
    omega
  · rw [List.getElem_zip]
    have h1 : p[i] = p.getD i 0 := (List.getD_eq_getElem p 0 hip).symm
    have h2 : p.tail[i] = p.getD (i + 1) 0 := by
      rw [show p.tail[i] = p[i + 1] from by simp [List.getElem_tail]]
      exact (List.getD_eq_getElem p 0 hi).symm
    rw [h1, h2]

theorem sum_map_filter_partition {α : Type} (f : α → Nat) (p : α → Bool)
    (l : List α) :
    (((l.filter p).map f).sum) + (((l.filter (fun x => ! p x)).map f).sum) =
      ((l.map f).sum) := by
  induction l with
  | nil => rfl
  | cons a rest ih =>
      by_cases hp : p a = true
      · rw [List.filter_cons_of_pos hp,
          List.filter_cons_of_neg (by simp [hp]), List.map_cons,
          List.map_cons, List.sum_cons, List.sum_cons]
        omega
      · rw [List.filter_cons_of_neg (by simpa using hp),
          List.filter_cons_of_pos (by simp at hp; simp [hp]), List.map_cons,
          List.map_cons, List.sum_cons, List.sum_cons]
        omega

theorem componentsOfEdges_sum (es : List GEdge) :
    ∀ (comps : List (List GEdge)),
    (((es.foldl
      (fun comps e =>
        ((comps.filter (touchesEdge e)).flatten ++ [e]) ::
          comps.filter (fun grp => ! touchesEdge e grp))
      comps).map List.length).sum) =
      ((comps.map List.length).sum) + es.length := by
  induction es with
  | nil => intro comps; simp
  | cons e rest ih =>
      intro comps
      rw [List.foldl_cons, ih]
      have hpart := sum_map_filter_partition List.length (touchesEdge e) comps
      have hhead : ((((comps.filter (touchesEdge e)).flatten ++ [e]) ::
          comps.filter (fun grp => ! touchesEdge e grp)).map List.length).sum =
          ((comps.filter (touchesEdge e)).map List.length).sum + 1 +
          ((comps.filter (fun grp => ! touchesEdge e grp)).map
            List.length).sum := by
        rw [List.map_cons, List.sum_cons, List.length_append,
          List.length_flatten]
        simp
      rw [hhead]
      simp only [List.length_cons]
      omega

theorem componentsOfEdges_length_le (es : List GEdge) (grp : List GEdge)
    (hg : grp ∈ componentsOfEdges es) : grp.length ≤ es.length := by
  have hsum := componentsOfEdges_sum es []
  unfold componentsOfEdges at hg
  have hmem : grp.length ∈ ((es.foldl
      (fun comps e =>
        ((comps.filter (touchesEdge e)).flatten ++ [e]) ::
          comps.filter (fun grp => ! touchesEdge e grp))
      []).map List.length) := List.mem_map.mpr ⟨grp, hg, rfl⟩
  have := List.single_le_sum (fun x _ => Nat.zero_le x) grp.length hmem
  rw [hsum] at this
  simpa using this

theorem disjointSubgraphs_edges_length (g : Graph) (K : Graph)
    (hK : K ∈ disjointSubgraphs g) : K.edges.length ≤ g.edges.length := by
  unfold disjointSubgraphs at hK
  rcases List.mem_map.mp hK with ⟨grp, hgrp, rfl⟩
  exact componentsOfEdges_length_le g.edges grp hgrp

end PhaseUnfolder

namespace PhaseUnfolder

theorem complementOfThreads_eq (hIdx : GbwtIndex) (g scratch : Graph) :
    complementOfThreads hIdx g scratch =
      (removeDuplicates hIdx.flatten).foldl
        (fun c v =>
          (succsOf hIdx v).foldl
            (fun c2 nxt =>
              if g.hasEdge (mkEdge v nxt) then c2
              else ((c2.addNode (hid (mkEdge v nxt).1)).addNode
                (hid (mkEdge v nxt).2)).addEdge (mkEdge v nxt))
            c)
        scratch := rfl

theorem mem_succsOf (hIdx : GbwtIndex) (v nxt : Nat) :
    nxt ∈ succsOf hIdx v ↔ ∃ t ∈ hIdx, (v, nxt) ∈ pairsOf t := by
  unfold succsOf
  rw [mem_removeDuplicates]
  constructor
  · intro h
    rcases List.mem_flatMap.mp h with ⟨th, hth, h2⟩
    rcases List.mem_filterMap.mp h2 with ⟨i, hi, h3⟩
    by_cases hc : th.getD i 0 == v ∧ i + 1 < th.length
    · rw [if_pos hc] at h3
      obtain ⟨hgv, hlen⟩ := hc
      have hv : th.getD i 0 = v := by simpa using hgv
      have hn : th.getD (i + 1) 0 = nxt := by simpa using h3
      refine ⟨th, hth, ?_⟩
      rw [← hv, ← hn]
      exact pairsOf_of_index th i hlen
    · rw [if_neg hc] at h3
      exact Option.noConfusion h3
  · rintro ⟨t, ht, hpr⟩
    rcases pairsOf_index t (v, nxt) hpr with ⟨i, hi1, hg1, hg2⟩
    refine List.mem_flatMap.mpr ⟨t, ht, List.mem_filterMap.mpr ⟨i, ?_, ?_⟩⟩
    · exact List.mem_range.mpr (by omega)
    · rw [if_pos ⟨by simpa using hg1, hi1⟩, hg2]

theorem threadSuccFold_spec (g : Graph) (v : Nat) (succs : List Nat) :
    ∀ (c : Graph),
    (∀ f, ((succs.foldl
        (fun c2 nxt =>
          if g.hasEdge (mkEdge v nxt) then c2
          else ((c2.addNode (hid (mkEdge v nxt).1)).addNode
            (hid (mkEdge v nxt).2)).addEdge (mkEdge v nxt)) c).hasEdge f =
        true ↔
      (c.hasEdge f = true ∨ ∃ nxt ∈ succs, f = mkEdge v nxt ∧
        g.hasEdge (mkEdge v nxt) = false))) ∧
    (∀ x, ((succs.foldl
        (fun c2 nxt =>
          if g.hasEdge (mkEdge v nxt) then c2
          else ((c2.addNode (hid (mkEdge v nxt).1)).addNode
            (hid (mkEdge v nxt).2)).addEdge (mkEdge v nxt)) c).hasNode x =
        true ↔
      (c.hasNode x = true ∨ ∃ nxt ∈ succs, x ∈ edgeIds (mkEdge v nxt) ∧
        g.hasEdge (mkEdge v nxt) = false))) := by
  induction succs with
  | nil => intro c; constructor <;> intro y <;> simp
  | cons n0 rest ih =>
      intro c
      rw [List.foldl_cons]
      have hstep : ∀ f, ((if g.hasEdge (mkEdge v n0) then c
          else ((c.addNode (hid (mkEdge v n0).1)).addNode
            (hid (mkEdge v n0).2)).addEdge (mkEdge v n0)).hasEdge f = true ↔
          (c.hasEdge f = true ∨ (f = mkEdge v n0 ∧
            g.hasEdge (mkEdge v n0) = false))) := by
        intro f
        split
        · rename_i hg
          constructor
          · exact fun h => Or.inl h
          · rintro (h | ⟨rfl, hmiss⟩)
            · exact h
            · rw [hg] at hmiss
              exact Bool.noConfusion hmiss
        · rename_i hg
          rw [hasEdge_addEdge, hasEdge_addNode, hasEdge_addNode]
          have hgf : g.hasEdge (mkEdge v n0) = false := Bool.eq_false_iff.mpr hg
          constructor
          · rintro (h | rfl)
            · exact Or.inl h
            · exact Or.inr ⟨rfl, hgf⟩
          · rintro (h | ⟨rfl, _⟩)
            · exact Or.inl h
            · exact Or.inr rfl
      have hstepN : ∀ x, ((if g.hasEdge (mkEdge v n0) then c
          else ((c.addNode (hid (mkEdge v n0).1)).addNode
            (hid (mkEdge v n0).2)).addEdge (mkEdge v n0)).hasNode x = true ↔
          (c.hasNode x = true ∨ (x ∈ edgeIds (mkEdge v n0) ∧
            g.hasEdge (mkEdge v n0) = false))) := by
        intro x
        split
        · rename_i hg
          constructor
          · exact fun h => Or.inl h
          · rintro (h | ⟨_, hmiss⟩)
            · exact h
            · rw [hg] at hmiss
              exact Bool.noConfusion hmiss
        · rename_i hg
          rw [hasNode_addEdge, hasNode_addNode, hasNode_addNode]
          have hgf : g.hasEdge (mkEdge v n0) = false := Bool.eq_false_iff.mpr hg
          unfold edgeIds
          constructor
          · rintro ((h | rfl) | rfl)
            · exact Or.inl h
            · exact Or.inr ⟨by simp, hgf⟩
            · exact Or.inr ⟨by simp, hgf⟩
          · rintro (h | ⟨hx, _⟩)
            · exact Or.inl (Or.inl h)
            · simp at hx
              rcases hx with rfl | rfl
              · exact Or.inl (Or.inr rfl)
              · exact Or.inr rfl
      constructor
      · intro f
        rw [(ih _).1 f, hstep f]
        simp only [List.mem_cons]
        constructor
        · rintro ((h | ⟨h1, h2⟩) | ⟨nxt, hnxt, h1, h2⟩)
          · exact Or.inl h
          · exact Or.inr ⟨n0, Or.inl rfl, h1, h2⟩
          · exact Or.inr ⟨nxt, Or.inr hnxt, h1, h2⟩
        · rintro (h | ⟨nxt, hnxt | hnxt, h1, h2⟩)
          · exact Or.inl (Or.inl h)
          · subst hnxt
            exact Or.inl (Or.inr ⟨h1, h2⟩)
          · exact Or.inr ⟨nxt, hnxt, h1, h2⟩
      · intro x
        rw [(ih _).2 x, hstepN x]
        simp only [List.mem_cons]
        constructor
        · rintro ((h | ⟨h1, h2⟩) | ⟨nxt, hnxt, h1, h2⟩)
          · exact Or.inl h
          · exact Or.inr ⟨n0, Or.inl rfl, h1, h2⟩
          · exact Or.inr ⟨nxt, Or.inr hnxt, h1, h2⟩
        · rintro (h | ⟨nxt, hnxt | hnxt, h1, h2⟩)
          · exact Or.inl (Or.inl h)
          · subst hnxt
            exact Or.inl (Or.inr ⟨h1, h2⟩)
          · exact Or.inr ⟨nxt, hnxt, h1, h2⟩

end PhaseUnfolder

namespace PhaseUnfolder

theorem threadAlphaFold_spec (g : Graph) (hIdx : GbwtIndex)
    (alpha : List Nat) :
    ∀ (c : Graph),
    (∀ f, ((alpha.foldl
        (fun c v =>
          (succsOf hIdx v).foldl
            (fun c2 nxt =>
              if g.hasEdge (mkEdge v nxt) then c2
              else ((c2.addNode (hid (mkEdge v nxt).1)).addNode
                (hid (mkEdge v nxt).2)).addEdge (mkEdge v nxt))
            c) c).hasEdge f = true ↔
      (c.hasEdge f = true ∨ ∃ v ∈ alpha, ∃ nxt ∈ succsOf hIdx v,
        f = mkEdge v nxt ∧ g.hasEdge (mkEdge v nxt) = false))) ∧
    (∀ x, ((alpha.foldl
        (fun c v =>
          (succsOf hIdx v).foldl
            (fun c2 nxt =>
              if g.hasEdge (mkEdge v nxt) then c2
              else ((c2.addNode (hid (mkEdge v nxt).1)).addNode
                (hid (mkEdge v nxt).2)).addEdge (mkEdge v nxt))
            c) c).hasNode x = true ↔
      (c.hasNode x = true ∨ ∃ v ∈ alpha, ∃ nxt ∈ succsOf hIdx v,
        x ∈ edgeIds (mkEdge v nxt) ∧
        g.hasEdge (mkEdge v nxt) = false))) := by
  induction alpha with
  | nil => intro c; constructor <;> intro y <;> simp
  | cons v0 rest ih =>
      intro c
      rw [List.foldl_cons]
      constructor
      · intro f
        rw [(ih _).1 f, (threadSuccFold_spec g v0 (succsOf hIdx v0) c).1 f]
        simp only [List.mem_cons]
        constructor
        · rintro ((h | ⟨nxt, hnxt, h1, h2⟩) | ⟨v, hv, nxt, hnxt, h1, h2⟩)
          · exact Or.inl h
          · exact Or.inr ⟨v0, Or.inl rfl, nxt, hnxt, h1, h2⟩
          · exact Or.inr ⟨v, Or.inr hv, nxt, hnxt, h1, h2⟩
        · rintro (h | ⟨v, hv | hv, nxt, hnxt, h1, h2⟩)
          · exact Or.inl (Or.inl h)
          · subst hv
            exact Or.inl (Or.inr ⟨nxt, hnxt, h1, h2⟩)
          · exact Or.inr ⟨v, hv, nxt, hnxt, h1, h2⟩
      · intro x
        rw [(ih _).2 x, (threadSuccFold_spec g v0 (succsOf hIdx v0) c).2 x]
        simp only [List.mem_cons]
        constructor
        · rintro ((h | ⟨nxt, hnxt, h1, h2⟩) | ⟨v, hv, nxt, hnxt, h1, h2⟩)
          · exact Or.inl h
          · exact Or.inr ⟨v0, Or.inl rfl, nxt, hnxt, h1, h2⟩
          · exact Or.inr ⟨v, Or.inr hv, nxt, hnxt, h1, h2⟩
        · rintro (h | ⟨v, hv | hv, nxt, hnxt, h1, h2⟩)
          · exact Or.inl (Or.inl h)
          · subst hv
            exact Or.inl (Or.inr ⟨nxt, hnxt, h1, h2⟩)
          · exact Or.inr ⟨v, hv, nxt, hnxt, h1, h2⟩

theorem complementOfThreads_spec (hIdx : GbwtIndex) (g : Graph)
    (scratch : Graph) :
    (∀ f, ((complementOfThreads hIdx g scratch).hasEdge f = true ↔
      (scratch.hasEdge f = true ∨ ∃ t ∈ hIdx, ∃ pr ∈ pairsOf t,
        f = mkEdge pr.1 pr.2 ∧ g.hasEdge (mkEdge pr.1 pr.2) = false))) ∧
    (∀ x, ((complementOfThreads hIdx g scratch).hasNode x = true ↔
      (scratch.hasNode x = true ∨ ∃ t ∈ hIdx, ∃ pr ∈ pairsOf t,
        x ∈ edgeIds (mkEdge pr.1 pr.2) ∧
        g.hasEdge (mkEdge pr.1 pr.2) = false))) := by
  rw [complementOfThreads_eq]
  have htrans : ∀ (v nxt : Nat),
      ((v ∈ removeDuplicates hIdx.flatten ∧ nxt ∈ succsOf hIdx v) ↔
       ∃ t ∈ hIdx, (v, nxt) ∈ pairsOf t) := by
    intro v nxt
    constructor
    · rintro ⟨_, hs⟩
      exact (mem_succsOf hIdx v nxt).mp hs
    · rintro ⟨t, ht, hpr⟩
      refine ⟨?_, (mem_succsOf hIdx v nxt).mpr ⟨t, ht, hpr⟩⟩
      rw [mem_removeDuplicates]
      exact List.mem_flatten.mpr ⟨t, ht,
        (pairsOf_mem_of_mem t (v, nxt) hpr).1⟩
  constructor
  · intro f
    rw [(threadAlphaFold_spec g hIdx (removeDuplicates hIdx.flatten)
      scratch).1 f]
    constructor
    · rintro (h | ⟨v, hv, nxt, hnxt, h1, h2⟩)
      · exact Or.inl h
      · rcases (htrans v nxt).mp ⟨hv, hnxt⟩ with ⟨t, ht, hpr⟩
        exact Or.inr ⟨t, ht, (v, nxt), hpr, h1, h2⟩
    · rintro (h | ⟨t, ht, pr, hpr, h1, h2⟩)
      · exact Or.inl h
      · obtain ⟨hv, hnxt⟩ := (htrans pr.1 pr.2).mpr ⟨t, ht, hpr⟩
        exact Or.inr ⟨pr.1, hv, pr.2, hnxt, h1, h2⟩
  · intro x
    rw [(threadAlphaFold_spec g hIdx (removeDuplicates hIdx.flatten)
      scratch).2 x]
    constructor
    · rintro (h | ⟨v, hv, nxt, hnxt, h1, h2⟩)
      · exact Or.inl h
      · rcases (htrans v nxt).mp ⟨hv, hnxt⟩ with ⟨t, ht, hpr⟩
        exact Or.inr ⟨t, ht, (v, nxt), hpr, h1, h2⟩
    · rintro (h | ⟨t, ht, pr, hpr, h1, h2⟩)
      · exact Or.inl h
      · obtain ⟨hv, hnxt⟩ := (htrans pr.1 pr.2).mpr ⟨t, ht, hpr⟩
        exact Or.inr ⟨pr.1, hv, pr.2, hnxt, h1, h2⟩

theorem complementGraph_all_spec (xg : XgIndex) (hIdx : GbwtIndex)
    (g : Graph) :
    (∀ f, ((complementGraph xg hIdx g).hasEdge f = true ↔
      (∃ p ∈ xg ++ hIdx, ∃ pr ∈ pairsOf p,
        f = mkEdge pr.1 pr.2 ∧ g.hasEdge (mkEdge pr.1 pr.2) = false))) ∧
    (∀ x, ((complementGraph xg hIdx g).hasNode x = true ↔
      (∃ p ∈ xg ++ hIdx, ∃ pr ∈ pairsOf p,
        x ∈ edgeIds (mkEdge pr.1 pr.2) ∧
        g.hasEdge (mkEdge pr.1 pr.2) = false))) := by
  have hpaths := complementOfPaths_spec g xg Graph.empty
  have hthreads := complementOfThreads_spec hIdx g
    (complementOfPaths xg g Graph.empty)
  have hE : ∀ f, Graph.empty.hasEdge f = false := fun _ => rfl
  have hN : ∀ x, Graph.empty.hasNode x = false := fun _ => rfl
  constructor
  · intro f
    rw [show complementGraph xg hIdx g =
        complementOfThreads hIdx g (complementOfPaths xg g Graph.empty)
        from rfl, hthreads.1 f, (hpaths).1 f]
    simp only [hE, List.mem_append]
    constructor
    · rintro ((h | ⟨p, hp, pr, hpr, h1, h2⟩) | ⟨t, ht, pr, hpr, h1, h2⟩)
      · exact absurd h (by simp)
      · exact ⟨p, Or.inl hp, pr, hpr, h1, h2⟩
      · exact ⟨t, Or.inr ht, pr, hpr, h1, h2⟩
    · rintro ⟨p, hp | hp, pr, hpr, h1, h2⟩
      · exact Or.inl (Or.inr ⟨p, hp, pr, hpr, h1, h2⟩)
      · exact Or.inr ⟨p, hp, pr, hpr, h1, h2⟩
  · intro x
    rw [show complementGraph xg hIdx g =
        complementOfThreads hIdx g (complementOfPaths xg g Graph.empty)
        from rfl, hthreads.2 x, (hpaths).2 x]
    simp only [hN, List.mem_append]
    constructor
    · rintro ((h | ⟨p, hp, pr, hpr, h1, h2⟩) | ⟨t, ht, pr, hpr, h1, h2⟩)
      · exact absurd h (by simp)
      · exact ⟨p, Or.inl hp, pr, hpr, h1, h2⟩
      · exact ⟨t, Or.inr ht, pr, hpr, h1, h2⟩
    · rintro ⟨p, hp | hp, pr, hpr, h1, h2⟩
      · exact Or.inl (Or.inr ⟨p, hp, pr, hpr, h1, h2⟩)
      · exact Or.inr ⟨p, hp, pr, hpr, h1, h2⟩

end PhaseUnfolder

namespace PhaseUnfolder

theorem mkEdge_idem (u v : Nat) :
    mkEdge (mkEdge u v).1 (mkEdge u v).2 = mkEdge u v := by
  by_cases h : hid v < hid u ∨ (hid u = hid v ∧ hrev u = true ∧ hrev v = true)
  · have he : mkEdge u v = (hrc v, hrc u) := by
      unfold mkEdge
      rw [if_pos h]
    rw [he]
    show mkEdge (hrc v) (hrc u) = (hrc v, hrc u)
    rw [mkEdge_flip, he]
  · have he : mkEdge u v = (u, v) := by
      unfold mkEdge
      rw [if_neg h]
    rw [he]
    show mkEdge u v = (u, v)
    exact he

theorem mkEdge_incident (a b : Nat) :
    ((hid (mkEdge a b).1 == hid a && hrev (mkEdge a b).1 == hrev a) ||
     (hid (mkEdge a b).2 == hid a && hrev (mkEdge a b).2 != hrev a)) =
      true := by
  by_cases h : hid b < hid a ∨ (hid a = hid b ∧ hrev a = true ∧ hrev b = true)
  · rw [show mkEdge a b = (hrc b, hrc a) from by unfold mkEdge; rw [if_pos h]]
    dsimp only
    simp only [hid_hrc, hrev_hrc]
    refine Bool.or_eq_true_iff.mpr (Or.inr ?_)
    refine Bool.and_eq_true_iff.mpr ⟨by simp, ?_⟩
    cases hrev a <;> simp
  · rw [show mkEdge a b = (a, b) from by unfold mkEdge; rw [if_neg h]]
    simp

theorem mkEdge_next (a b : Nat) :
    (if hid (mkEdge a b).1 == hid a && hrev (mkEdge a b).1 == hrev a
     then (mkEdge a b).2 else hrc (mkEdge a b).1) = b := by
  by_cases h : hid b < hid a ∨ (hid a = hid b ∧ hrev a = true ∧ hrev b = true)
  · rw [show mkEdge a b = (hrc b, hrc a) from by unfold mkEdge; rw [if_pos h]]
    dsimp only
    simp only [hid_hrc, hrev_hrc]
    rcases h with h | ⟨h1, h2, h3⟩
    · rw [if_neg (by
        simp only [Bool.and_eq_true, beq_iff_eq]
        rintro ⟨h2, _⟩
        omega)]
      exact hrc_hrc b
    · rw [if_neg (by simp [h2, h3])]
      exact hrc_hrc b
  · rw [show mkEdge a b = (a, b) from by unfold mkEdge; rw [if_neg h]]
    simp

theorem incident_next_mkEdge (a : Nat) (e : GEdge)
    (hIdem : mkEdge e.1 e.2 = e)
    (hinc : ((hid e.1 == hid a && hrev e.1 == hrev a) ||
      (hid e.2 == hid a && hrev e.2 != hrev a)) = true) :
    mkEdge a (if hid e.1 == hid a && hrev e.1 == hrev a then e.2
      else hrc e.1) = e := by
  by_cases hc : (hid e.1 == hid a && hrev e.1 == hrev a) = true
  · rw [if_pos hc]
    simp only [Bool.and_eq_true, beq_iff_eq] at hc
    have h1 : e.1 = a := handle_ext e.1 a hc.1 hc.2
    rw [← h1]
    exact hIdem
  · rw [if_neg hc]
    have h2 : hid e.2 = hid a ∧ ¬ hrev e.2 = hrev a := by
      simp only [Bool.or_eq_true, Bool.and_eq_true, beq_iff_eq,
        bne_iff_ne, ne_eq] at hinc
      simp only [Bool.and_eq_true, beq_iff_eq, not_and] at hc
      tauto
    have ha : hrc e.2 = a := by
      refine handle_ext (hrc e.2) a ?_ ?_
      · rw [hid_hrc]
        exact h2.1
      · rw [hrev_hrc]
        cases hx : hrev e.2 <;> cases hy : hrev a <;> simp_all
    rw [show a = hrc e.2 from ha.symm, mkEdge_flip]
    exact hIdem

theorem gbwtFind_pos (hIdx : GbwtIndex) (tIdx i h : Nat)
    (h1 : tIdx < hIdx.length) (h2 : i < (hIdx.getD tIdx []).length)
    (h3 : (hIdx.getD tIdx []).getD i 0 = h) :
    (tIdx, i) ∈ gbwtFind hIdx h := by
  unfold gbwtFind
  refine List.mem_flatMap.mpr ⟨tIdx, List.mem_range.mpr h1,
    List.mem_filterMap.mpr ⟨i, List.mem_range.mpr h2, ?_⟩⟩
  rw [if_pos (by simpa using h3)]

theorem gbwtExtend_pos (hIdx : GbwtIndex) (s : List (Nat × Nat))
    (oc : Nat × Nat) (hoc : oc ∈ s) (b : Nat)
    (h2 : oc.2 + 1 < (hIdx.getD oc.1 []).length)
    (h3 : (hIdx.getD oc.1 []).getD (oc.2 + 1) 0 = b) :
    (oc.1, oc.2 + 1) ∈ gbwtExtend hIdx s b := by
  unfold gbwtExtend
  refine List.mem_filterMap.mpr ⟨oc, hoc, ?_⟩
  rw [if_pos ⟨h2, by simpa using h3⟩]

theorem gbwtExtend_pair (hIdx : GbwtIndex) (t : List Nat) (ht : t ∈ hIdx)
    (pr : Nat × Nat) (hpr : pr ∈ pairsOf t) :
    (gbwtExtend hIdx (gbwtFind hIdx pr.1) pr.2).isEmpty = false := by
  rcases pairsOf_index t pr hpr with ⟨i, hi1, hg1, hg2⟩
  rcases List.mem_iff_getElem.mp ht with ⟨tIdx, htl, hteq⟩
  have hgetT : hIdx.getD tIdx [] = t := by
    rw [List.getD_eq_getElem hIdx [] htl]
    exact hteq
  have hfind : (tIdx, i) ∈ gbwtFind hIdx pr.1 := by
    refine gbwtFind_pos hIdx tIdx i pr.1 htl ?_ ?_
    · rw [hgetT]
      omega
    · rw [hgetT]
      exact hg1
  have hext : (tIdx, i + 1) ∈ gbwtExtend hIdx (gbwtFind hIdx pr.1) pr.2 := by
    refine gbwtExtend_pos hIdx _ (tIdx, i) hfind pr.2 ?_ ?_
    · dsimp only
      rw [hgetT]
      exact hi1
    · dsimp only
      rw [hgetT]
      exact hg2
  rcases hq : gbwtExtend hIdx (gbwtFind hIdx pr.1) pr.2 with _ | ⟨x, xs⟩
  · rw [hq] at hext
    exact absurd hext (List.not_mem_nil _)
  · rfl

theorem gbwtFind_of_mem (hIdx : GbwtIndex) (t : List Nat) (ht : t ∈ hIdx)
    (h : Nat) (hh : h ∈ t) : gbwtFind hIdx h ≠ [] := by
  rcases List.mem_iff_getElem.mp ht with ⟨tIdx, htl, hteq⟩
  rcases List.mem_iff_getElem.mp hh with ⟨i, hil, hieq⟩
  have hgetT : hIdx.getD tIdx [] = t := by
    rw [List.getD_eq_getElem hIdx [] htl]
    exact hteq
  have : (tIdx, i) ∈ gbwtFind hIdx h := by
    refine gbwtFind_pos hIdx tIdx i h htl (by rw [hgetT]; exact hil) ?_
    rw [hgetT, List.getD_eq_getElem t 0 hil]
    exact hieq
  exact List.ne_nil_of_mem this

end PhaseUnfolder

namespace PhaseUnfolder

theorem threadExtensions_eq (hIdx : GbwtIndex) (comp : Graph)
    (st : ThreadState) :
    threadExtensions hIdx comp st =
      (comp.edges.filter fun e =>
        (hid e.1 == hid (st.2.getLastD 0) &&
          hrev e.1 == hrev (st.2.getLastD 0)) ||
        (hid e.2 == hid (st.2.getLastD 0) &&
          hrev e.2 != hrev (st.2.getLastD 0))).foldl
      (extStep hIdx st.1 st.2 (hid (st.2.getLastD 0))
        (hrev (st.2.getLastD 0)))
      ([], false) := rfl

theorem extFold_spec (hIdx : GbwtIndex) (s0 : List (Nat × Nat))
    (w0 : List Nat) (node : Nat) (isRev : Bool) (es : List GEdge) :
    ∀ (acc : List ThreadState × Bool),
    ((∀ s' ∈ (es.foldl (extStep hIdx s0 w0 node isRev) acc).1,
       (s' ∈ acc.1 ∨ ∃ e ∈ es,
         (gbwtExtend hIdx s0 (nextOf node isRev e)).isEmpty = false ∧
         s' = (gbwtExtend hIdx s0 (nextOf node isRev e),
           w0 ++ [nextOf node isRev e]))) ∧
     ((es.foldl (extStep hIdx s0 w0 node isRev) acc).1.length ≤
       acc.1.length + es.length) ∧
     (∀ e ∈ es, (gbwtExtend hIdx s0 (nextOf node isRev e)).isEmpty = false →
       ((gbwtExtend hIdx s0 (nextOf node isRev e),
           w0 ++ [nextOf node isRev e]) ∈
         (es.foldl (extStep hIdx s0 w0 node isRev) acc).1 ∧
        (es.foldl (extStep hIdx s0 w0 node isRev) acc).2 = true)) ∧
     ((es.foldl (extStep hIdx s0 w0 node isRev) acc).2 = false →
       (es.foldl (extStep hIdx s0 w0 node isRev) acc).1 = acc.1) ∧
     (∀ s' ∈ acc.1, s' ∈ (es.foldl (extStep hIdx s0 w0 node isRev) acc).1) ∧
     (acc.2 = true → (es.foldl (extStep hIdx s0 w0 node isRev) acc).2 =
       true)) := by
  induction es with
  | nil =>
      intro acc
      exact ⟨fun s' hs => Or.inl hs, by simp, fun e he => absurd he
        (List.not_mem_nil e), fun _ => rfl, fun s' hs => hs, fun h => h⟩
  | cons e0 rest ih =>
      intro acc
      rw [List.foldl_cons]
      by_cases hemp : (gbwtExtend hIdx s0 (nextOf node isRev e0)).isEmpty =
          true
      · have hstep : extStep hIdx s0 w0 node isRev acc e0 = acc := by
          unfold extStep
          rw [if_pos (by unfold nextOf at hemp ⊢; exact hemp)]
        rw [hstep]
        obtain ⟨i1, i2, i3, i4, i5, i6⟩ := ih acc
        refine ⟨?_, ?_, ?_, i4, i5, i6⟩
        · intro s' hs
          rcases i1 s' hs with h | ⟨e, he, h1, h2⟩
          · exact Or.inl h
          · exact Or.inr ⟨e, List.mem_cons_of_mem _ he, h1, h2⟩
        · simp only [List.length_cons]
          omega
        · intro e he hne
          rcases List.mem_cons.mp he with rfl | he2
          · rw [hne] at hemp
            exact Bool.noConfusion hemp
          · exact i3 e he2 hne
      · have hne0 : (gbwtExtend hIdx s0 (nextOf node isRev e0)).isEmpty =
            false := Bool.eq_false_iff.mpr (by simpa using hemp)
        have hstep : extStep hIdx s0 w0 node isRev acc e0 =
            (acc.1 ++ [(gbwtExtend hIdx s0 (nextOf node isRev e0),
              w0 ++ [nextOf node isRev e0])], true) := by
          unfold extStep
          rw [if_neg (by
            unfold nextOf at hne0 ⊢
            rw [hne0]
            exact Bool.false_ne_true)]
        rw [hstep]
        obtain ⟨i1, i2, i3, i4, i5, i6⟩ := ih
          (acc.1 ++ [(gbwtExtend hIdx s0 (nextOf node isRev e0),
            w0 ++ [nextOf node isRev e0])], true)
        refine ⟨?_, ?_, ?_, ?_, ?_, fun _ => i6 rfl⟩
        · intro s' hs
          rcases i1 s' hs with h | ⟨e, he, h1, h2⟩
          · rcases List.mem_append.mp h with h3 | h3
            · exact Or.inl h3
            · rcases List.mem_singleton.mp h3 with rfl
              exact Or.inr ⟨e0, List.mem_cons_self _ _, hne0, rfl⟩
          · exact Or.inr ⟨e, List.mem_cons_of_mem _ he, h1, h2⟩
        · have := i2
          simp only [List.length_append, List.length_singleton] at this
          simp only [List.length_cons]
          omega
        · intro e he hne
          rcases List.mem_cons.mp he with rfl | he2
          · refine ⟨i5 _ (List.mem_append.mpr (Or.inr ?_)), i6 rfl⟩
            simp
          · exact i3 e he2 hne
        · intro hflag
          rw [i6 rfl] at hflag
          exact Bool.noConfusion hflag
        · intro s' hs
          exact i5 s' (List.mem_append.mpr (Or.inl hs))

end PhaseUnfolder

namespace PhaseUnfolder

theorem threadLoop_zero (hIdx : GbwtIndex) (K : Graph) (border : List Nat)
    (stack : List ThreadState) : threadLoop hIdx K border 0 stack = [] := by
  cases stack <;> rfl

theorem threadLoop_succ_cons (hIdx : GbwtIndex) (K : Graph)
    (border : List Nat) (fuel : Nat) (st : ThreadState)
    (stack : List ThreadState) :
    threadLoop hIdx K border (fuel + 1) (st :: stack) =
      if st.2.length ≥ 2 ∧ border.contains (hid (st.2.getLastD 0)) then
        st.2 :: threadLoop hIdx K border fuel stack
      else
        if (threadExtensions hIdx K st).2 then
          threadLoop hIdx K border fuel
            ((threadExtensions hIdx K st).1.reverse ++ stack)
        else st.2 :: threadLoop hIdx K border fuel stack := rfl

theorem stackWeight_nil (E : Nat) : stackWeight E [] = 0 := rfl

theorem stackWeight_cons (E : Nat) (st : ThreadState)
    (rest : List ThreadState) :
    stackWeight E (st :: rest) =
      (if st.2.length = 1 then E + 1 else 1) + stackWeight E rest := by
  unfold stackWeight
  rw [List.map_cons, List.sum_cons]

theorem stackWeight_append (E : Nat) (l1 l2 : List ThreadState) :
    stackWeight E (l1 ++ l2) = stackWeight E l1 + stackWeight E l2 := by
  unfold stackWeight
  rw [List.map_append, List.sum_append]

theorem stackWeight_reverse (E : Nat) (l : List ThreadState) :
    stackWeight E l.reverse = stackWeight E l := by
  unfold stackWeight
  rw [List.map_reverse, List.sum_reverse]

theorem stackWeight_of_long (E : Nat) (l : List ThreadState)
    (h : ∀ st ∈ l, st.2.length ≠ 1) : stackWeight E l = l.length := by
  induction l with
  | nil => rfl
  | cons st rest ih =>
      rw [stackWeight_cons, if_neg (h st (List.mem_cons_self _ _)),
        ih (fun s hs => h s (List.mem_cons_of_mem _ hs))]
      simp only [List.length_cons]
      omega

theorem threadLoop_spec (hIdx : GbwtIndex) (K : Graph) (border : List Nat)
    (hIdem : ∀ e ∈ K.edges, mkEdge e.1 e.2 = e)
    (hBe : ∀ e ∈ K.edges, ∀ x ∈ edgeIds e, border.contains x = true) :
    ∀ (fuel : Nat) (stack : List ThreadState),
    (∀ st ∈ stack, StateOK K border st) →
    stackWeight K.edges.length stack ≤ fuel →
    ((∀ w ∈ threadLoop hIdx K border fuel stack,
       w.length = 1 ∨ ∃ a b, w = [a, b] ∧ K.hasEdge (mkEdge a b) = true) ∧
     (∀ st ∈ stack, st.2.length = 1 →
       ∀ s' ∈ (threadExtensions hIdx K st).1,
         s'.2 ∈ threadLoop hIdx K border fuel stack) ∧
     (∀ st ∈ stack, 2 ≤ st.2.length →
       st.2 ∈ threadLoop hIdx K border fuel stack)) := by
  intro fuel
  induction fuel with
  | zero =>
      intro stack hok hw
      cases stack with
      | nil =>
          rw [threadLoop_zero]
          exact ⟨fun w hw2 => absurd hw2 (List.not_mem_nil w),
            fun st hst => absurd hst (List.not_mem_nil st),
            fun st hst => absurd hst (List.not_mem_nil st)⟩
      | cons st rest =>
          exfalso
          rw [stackWeight_cons] at hw
          revert hw
          split <;> omega
  | succ fuel ih =>
      intro stack hok hw
      cases stack with
      | nil =>
          rw [show threadLoop hIdx K border (fuel + 1) [] = [] from rfl]
          exact ⟨fun w hw2 => absurd hw2 (List.not_mem_nil w),
            fun st hst => absurd hst (List.not_mem_nil st),
            fun st hst => absurd hst (List.not_mem_nil st)⟩
      | cons st rest =>
          rcases hok st (List.mem_cons_self _ _) with ⟨h0, hh⟩ |
            ⟨a, b, hab, hKab, hbb⟩
          · -- A starting state with a single handle.
            have hcond : ¬ (st.2.length ≥ 2 ∧
                border.contains (hid (st.2.getLastD 0)) = true) := by
              rw [hh]
              simp
            rw [threadLoop_succ_cons, if_neg hcond]
            -- The extension attempts of this state.
            obtain ⟨f1, f2, f3, f4, f5, f6⟩ := extFold_spec hIdx st.1 st.2
              (hid (st.2.getLastD 0)) (hrev (st.2.getLastD 0))
              (K.edges.filter fun e =>
                (hid e.1 == hid (st.2.getLastD 0) &&
                  hrev e.1 == hrev (st.2.getLastD 0)) ||
                (hid e.2 == hid (st.2.getLastD 0) &&
                  hrev e.2 != hrev (st.2.getLastD 0))) ([], false)
            rw [← threadExtensions_eq] at f1 f2 f3 f4 f5 f6
            have hmem1 : ∀ s' ∈ (threadExtensions hIdx K st).1,
                ∃ e ∈ K.edges, mkEdge (st.2.getLastD 0)
                  (nextOf (hid (st.2.getLastD 0))
                    (hrev (st.2.getLastD 0)) e) = e ∧
                s'.2 = st.2 ++ [nextOf (hid (st.2.getLastD 0))
                  (hrev (st.2.getLastD 0)) e] := by
              intro s' hs'
              rcases f1 s' hs' with h | ⟨e, he, hne, heq⟩
              · exact absurd h (List.not_mem_nil s')
              · obtain ⟨heK, hpred⟩ := List.mem_filter.mp he
                refine ⟨e, heK, ?_, by rw [heq]⟩
                have := incident_next_mkEdge (st.2.getLastD 0) e
                  (hIdem e heK) hpred
                unfold nextOf
                exact this
            have hstok : ∀ s' ∈ (threadExtensions hIdx K st).1,
                StateOK K border s' ∧ s'.2.length = 2 := by
              intro s' hs'
              obtain ⟨e, heK, hmk, heq⟩ := hmem1 s' hs'
              have hKe2 : K.hasEdge (mkEdge (st.2.getLastD 0)
                  (nextOf (hid (st.2.getLastD 0))
                    (hrev (st.2.getLastD 0)) e)) = true := by
                rw [hmk]
                unfold Graph.hasEdge
                simp
                exact heK
              have hbb2 : border.contains (hid (nextOf
                  (hid (st.2.getLastD 0)) (hrev (st.2.getLastD 0)) e)) =
                  true := by
                have hmem : hid (nextOf (hid (st.2.getLastD 0))
                    (hrev (st.2.getLastD 0)) e) ∈ edgeIds (mkEdge
                    (st.2.getLastD 0) (nextOf (hid (st.2.getLastD 0))
                      (hrev (st.2.getLastD 0)) e)) :=
                  (mem_edgeIds_mkEdge _ _ _).mpr (Or.inr rfl)
                rw [hmk] at hmem
                exact hBe e heK _ hmem
              have hw2 : s'.2 = [st.2.getLastD 0,
                  nextOf (hid (st.2.getLastD 0))
                    (hrev (st.2.getLastD 0)) e] := by
                rw [heq, hh]
                rfl
              constructor
              · right
                exact ⟨st.2.getLastD 0, _, hw2, hKe2, hbb2⟩
              · rw [hw2]
                rfl
            by_cases hflag : (threadExtensions hIdx K st).2 = true
            · rw [if_pos hflag]
              have hokNew : ∀ s ∈ (threadExtensions hIdx K st).1.reverse ++
                  rest, StateOK K border s := by
                intro s hs
                rcases List.mem_append.mp hs with h | h
                · exact (hstok s (List.mem_reverse.mp h)).1
                · exact hok s (List.mem_cons_of_mem _ h)
              have hwst : st.2.length = 1 := by
                rw [hh]
                rfl
              have hwNew : stackWeight K.edges.length
                  ((threadExtensions hIdx K st).1.reverse ++ rest) ≤ fuel := by
                rw [stackWeight_append, stackWeight_reverse]
                have hlong : stackWeight K.edges.length
                    (threadExtensions hIdx K st).1 =
                    (threadExtensions hIdx K st).1.length :=
                  stackWeight_of_long _ _ (fun s hs => by
                    rw [(hstok s hs).2]
                    omega)
                have hlen2 : (threadExtensions hIdx K st).1.length ≤
                    K.edges.length := by
                  have hf2 : (threadExtensions hIdx K st).1.length ≤
                      (K.edges.filter fun e =>
                        (hid e.1 == hid (st.2.getLastD 0) &&
                          hrev e.1 == hrev (st.2.getLastD 0)) ||
                        (hid e.2 == hid (st.2.getLastD 0) &&
                          hrev e.2 != hrev (st.2.getLastD 0))).length := by
                    have h := f2
                    simpa using h
                  have hf3 := List.length_filter_le (fun e =>
                      (hid e.1 == hid (st.2.getLastD 0) &&
                        hrev e.1 == hrev (st.2.getLastD 0)) ||
                      (hid e.2 == hid (st.2.getLastD 0) &&
                        hrev e.2 != hrev (st.2.getLastD 0))) K.edges
                  omega
                rw [stackWeight_cons, if_pos hwst] at hw
                omega
              obtain ⟨r1, r2, r3⟩ := ih _ hokNew hwNew
              refine ⟨r1, ?_, ?_⟩
              · intro s hs hlen s' hs'
                rcases List.mem_cons.mp hs with rfl | hs2
                · refine r3 s' (List.mem_append.mpr
                    (Or.inl (List.mem_reverse.mpr hs'))) ?_
                  rw [(hstok s' hs').2]
                · exact r2 s (List.mem_append.mpr (Or.inr hs2)) hlen s' hs'
              · intro s hs hlen
                rcases List.mem_cons.mp hs with rfl | hs2
                · rw [hh] at hlen
                  simp at hlen
                · exact r3 s (List.mem_append.mpr (Or.inr hs2)) hlen
            · have hflag2 : (threadExtensions hIdx K st).2 = false :=
                Bool.eq_false_iff.mpr hflag
              rw [if_neg (by rw [hflag2]; exact Bool.false_ne_true)]
              have hempty : (threadExtensions hIdx K st).1 = [] := f4 hflag2
              have hwrest : stackWeight K.edges.length rest ≤ fuel := by
                rw [stackWeight_cons, if_pos (by rw [hh]; rfl)] at hw
                omega
              obtain ⟨r1, r2, r3⟩ := ih rest
                (fun s hs => hok s (List.mem_cons_of_mem _ hs)) hwrest
              refine ⟨?_, ?_, ?_⟩
              · intro w hwm
                rcases List.mem_cons.mp hwm with rfl | hw2
                · left
                  rw [hh]
                  rfl
                · exact r1 w hw2
              · intro s hs hlen s' hs'
                rcases List.mem_cons.mp hs with rfl | hs2
                · rw [hempty] at hs'
                  exact absurd hs' (List.not_mem_nil s')
                · exact List.mem_cons_of_mem _ (r2 s hs2 hlen s' hs')
              · intro s hs hlen
                rcases List.mem_cons.mp hs with rfl | hs2
                · rw [hh] at hlen
                  simp at hlen
                · exact List.mem_cons_of_mem _ (r3 s hs2 hlen)
          · -- A border-ending 2-walk: emitted directly.
            have hcond : st.2.length ≥ 2 ∧
                border.contains (hid (st.2.getLastD 0)) = true := by
              rw [hab]
              exact ⟨by simp, by simpa using hbb⟩
            rw [threadLoop_succ_cons, if_pos hcond]
            have hwrest : stackWeight K.edges.length rest ≤ fuel := by
              rw [stackWeight_cons, if_neg (by rw [hab]; simp)] at hw
              omega
            obtain ⟨r1, r2, r3⟩ := ih rest
              (fun s hs => hok s (List.mem_cons_of_mem _ hs)) hwrest
            refine ⟨?_, ?_, ?_⟩
            · intro w hwm
              rcases List.mem_cons.mp hwm with rfl | hw2
              · right
                exact ⟨a, b, hab, hKab⟩
              · exact r1 w hw2
            · intro s hs hlen s' hs'
              rcases List.mem_cons.mp hs with rfl | hs2
              · rw [hab] at hlen
                simp at hlen
              · exact List.mem_cons_of_mem _ (r2 s hs2 hlen s' hs')
            · intro s hs hlen
              rcases List.mem_cons.mp hs with rfl | hs2
              · exact List.mem_cons_self _ _
              · exact List.mem_cons_of_mem _ (r3 s hs2 hlen)

end PhaseUnfolder

namespace PhaseUnfolder

theorem createStates_ok (hIdx : GbwtIndex) (n : Nat) :
    ∀ st ∈ createStates hIdx n, ∃ h, st.2 = [h] := by
  intro st hst
  unfold createStates at hst
  rcases List.mem_append.mp hst with h | h
  · revert h
    split
    · intro h
      exact absurd h (List.not_mem_nil st)
    · intro h
      rcases List.mem_singleton.mp h with rfl
      exact ⟨hencode n true, rfl⟩
  · revert h
    split
    · intro h
      exact absurd h (List.not_mem_nil st)
    · intro h
      rcases List.mem_singleton.mp h with rfl
      exact ⟨hencode n false, rfl⟩

theorem createStates_weight (hIdx : GbwtIndex) (n E : Nat) :
    stackWeight E (createStates hIdx n) ≤ 2 * (E + 1) := by
  unfold createStates
  rw [stackWeight_append]
  have h1 : stackWeight E
      (if (gbwtFind hIdx (hencode n true)).isEmpty then []
       else [(gbwtFind hIdx (hencode n true), [hencode n true])]) ≤ E + 1 := by
    split
    · rw [stackWeight_nil]
      omega
    · rw [stackWeight_cons, stackWeight_nil]
      split <;> omega
  have h2 : stackWeight E
      (if (gbwtFind hIdx (hencode n false)).isEmpty then []
       else [(gbwtFind hIdx (hencode n false), [hencode n false])]) ≤
      E + 1 := by
    split
    · rw [stackWeight_nil]
      omega
    · rw [stackWeight_cons, stackWeight_nil]
      split <;> omega
  omega

theorem createStates_mem (hIdx : GbwtIndex) (n a : Nat) (ha : hid a = n)
    (hne : gbwtFind hIdx a ≠ []) :
    (gbwtFind hIdx a, [a]) ∈ createStates hIdx n := by
  unfold createStates
  have hemp : (gbwtFind hIdx a).isEmpty = false := by
    rcases hq : gbwtFind hIdx a with _ | ⟨x, xs⟩
    · exact absurd hq hne
    · rfl
  cases hr : hrev a
  · have haeq : hencode n false = a :=
      handle_ext (hencode n false) a
        (by rw [hid_hencode, ha]) (by rw [hrev_hencode, hr])
    refine List.mem_append.mpr (Or.inr ?_)
    rw [haeq, if_neg (by rw [hemp]; exact Bool.false_ne_true)]
    exact List.mem_singleton.mpr rfl
  · have haeq : hencode n true = a :=
      handle_ext (hencode n true) a
        (by rw [hid_hencode, ha]) (by rw [hrev_hencode, hr])
    refine List.mem_append.mpr (Or.inl ?_)
    rw [haeq, if_neg (by rw [hemp]; exact Bool.false_ne_true)]
    exact List.mem_singleton.mpr rfl

theorem generateThreads_shape (hIdx : GbwtIndex) (K : Graph)
    (border : List Nat) (n fuel : Nat)
    (hIdem : ∀ e ∈ K.edges, mkEdge e.1 e.2 = e)
    (hBe : ∀ e ∈ K.edges, ∀ x ∈ edgeIds e, border.contains x = true)
    (hfuel : 2 * (K.edges.length + 1) ≤ fuel) :
    ∀ w ∈ generateThreads hIdx K border n fuel,
      w.length = 1 ∨ ∃ a b, w = [a, b] ∧ K.hasEdge (mkEdge a b) = true := by
  unfold generateThreads
  exact (threadLoop_spec hIdx K border hIdem hBe fuel (createStates hIdx n)
    (fun st hst => Or.inl (createStates_ok hIdx n st hst))
    (le_trans (createStates_weight hIdx n K.edges.length) hfuel)).1

theorem generateThreads_cover2 (hIdx : GbwtIndex) (K : Graph)
    (border : List Nat) (fuel : Nat)
    (hIdem : ∀ e ∈ K.edges, mkEdge e.1 e.2 = e)
    (hBe : ∀ e ∈ K.edges, ∀ x ∈ edgeIds e, border.contains x = true)
    (t : List Nat) (ht : t ∈ hIdx) (pr : Nat × Nat) (hpr : pr ∈ pairsOf t)
    (hKe : mkEdge pr.1 pr.2 ∈ K.edges)
    (hfuel : 2 * (K.edges.length + 1) ≤ fuel) :
    [pr.1, pr.2] ∈ generateThreads hIdx K border (hid pr.1) fuel := by
  have hfind : gbwtFind hIdx pr.1 ≠ [] :=
    gbwtFind_of_mem hIdx t ht pr.1 (pairsOf_mem_of_mem t pr hpr).1
  have hst0 : (gbwtFind hIdx pr.1, [pr.1]) ∈ createStates hIdx (hid pr.1) :=
    createStates_mem hIdx (hid pr.1) pr.1 rfl hfind
  -- The last handle of the starting walk is pr.1 itself.
  have hlast : (((gbwtFind hIdx pr.1, [pr.1]) :
      ThreadState)).2.getLastD 0 = pr.1 := rfl
  -- The next handle offered for the evidence edge is pr.2.
  have hnext : nextOf (hid pr.1) (hrev pr.1) (mkEdge pr.1 pr.2) = pr.2 := by
    unfold nextOf
    exact mkEdge_next pr.1 pr.2
  -- The evidence edge passes the incidence filter of the starting state.
  have hinc : ((hid (mkEdge pr.1 pr.2).1 == hid pr.1 &&
      hrev (mkEdge pr.1 pr.2).1 == hrev pr.1) ||
      (hid (mkEdge pr.1 pr.2).2 == hid pr.1 &&
      hrev (mkEdge pr.1 pr.2).2 != hrev pr.1)) = true :=
    mkEdge_incident pr.1 pr.2
  obtain ⟨f1, f2, f3, f4, f5, f6⟩ := extFold_spec hIdx
    (gbwtFind hIdx pr.1) [pr.1] (hid pr.1) (hrev pr.1)
    (K.edges.filter fun e =>
      (hid e.1 == hid pr.1 && hrev e.1 == hrev pr.1) ||
      (hid e.2 == hid pr.1 && hrev e.2 != hrev pr.1)) ([], false)
  have hmemfilter : mkEdge pr.1 pr.2 ∈ K.edges.filter fun e =>
      (hid e.1 == hid pr.1 && hrev e.1 == hrev pr.1) ||
      (hid e.2 == hid pr.1 && hrev e.2 != hrev pr.1) :=
    List.mem_filter.mpr ⟨hKe, hinc⟩
  have hextne : (gbwtExtend hIdx (gbwtFind hIdx pr.1)
      (nextOf (hid pr.1) (hrev pr.1) (mkEdge pr.1 pr.2))).isEmpty =
      false := by
    rw [hnext]
    exact gbwtExtend_pair hIdx t ht pr hpr
  obtain ⟨hmem, _⟩ := f3 (mkEdge pr.1 pr.2) hmemfilter hextne
  have hmem2 : (gbwtExtend hIdx (gbwtFind hIdx pr.1)
      (nextOf (hid pr.1) (hrev pr.1) (mkEdge pr.1 pr.2)),
      [pr.1] ++ [nextOf (hid pr.1) (hrev pr.1) (mkEdge pr.1 pr.2)]) ∈
      (threadExtensions hIdx K ((gbwtFind hIdx pr.1, [pr.1]) :
        ThreadState)).1 := by
    rw [threadExtensions_eq]
    exact hmem
  obtain ⟨r1, r2, r3⟩ := threadLoop_spec hIdx K border hIdem hBe fuel
    (createStates hIdx (hid pr.1))
    (fun st hst => Or.inl (createStates_ok hIdx (hid pr.1) st hst))
    (le_trans (createStates_weight hIdx (hid pr.1) K.edges.length) hfuel)
  have := r2 (gbwtFind hIdx pr.1, [pr.1]) hst0 rfl _ hmem2
  unfold generateThreads
  rw [show ([pr.1] ++ [nextOf (hid pr.1) (hrev pr.1)
      (mkEdge pr.1 pr.2)]) = [pr.1, pr.2] from by rw [hnext]; rfl] at this
  exact this

end PhaseUnfolder

namespace PhaseUnfolder

theorem unfoldComponent_covered (xg : XgIndex) (hIdx : GbwtIndex)
    (K g : Graph) (m : NodeMapping) (u : Graph) (fuel : Nat)
    (HN : ∀ x, x ∈ K.nodes ↔ ∃ e ∈ K.edges, x ∈ edgeIds e)
    (HP : ∀ e ∈ K.edges, ∃ p ∈ xg ++ hIdx, ∃ pr ∈ pairsOf p,
      e = mkEdge pr.1 pr.2)
    (HB : ∀ n ∈ K.nodes, g.hasNode n = true)
    (hfuel : 2 * (K.edges.length + 1) ≤ fuel) :
    (unfoldComponent xg hIdx K g m u fuel).1 = m ∧
    (∀ f, ((unfoldComponent xg hIdx K g m u fuel).2.1.hasEdge f = true ↔
      (u.hasEdge f = true ∨ f ∈ K.edges))) ∧
    (∀ x, ((unfoldComponent xg hIdx K g m u fuel).2.1.hasNode x = true ↔
      (u.hasNode x = true ∨ x ∈ K.nodes))) := by
  rw [unfoldComponent_eq]
  have hborder : K.nodes.filter (fun n => g.hasNode n) = K.nodes :=
    List.filter_eq_self.mpr (fun a ha => HB a ha)
  rw [hborder]
  have hKm : ∀ e, K.hasEdge e = true ↔ e ∈ K.edges := by
    intro e
    unfold Graph.hasEdge
    simp
  have hB : ∀ e, K.hasEdge e = true → ∀ n ∈ edgeIds e, n ∈ K.nodes := by
    intro e he n hn
    exact (HN n).mpr ⟨e, (hKm e).mp he, hn⟩
  have hIdem : ∀ e ∈ K.edges, mkEdge e.1 e.2 = e := by
    intro e he
    obtain ⟨p, _, pr, _, hmk⟩ := HP e he
    rw [hmk]
    exact mkEdge_idem pr.1 pr.2
  have hBe : ∀ e ∈ K.edges, ∀ x ∈ edgeIds e, K.nodes.contains x = true := by
    intro e he x hx
    have : x ∈ K.nodes := (HN x).mpr ⟨e, he, hx⟩
    simpa using this
  have hshape : ∀ w ∈ (K.nodes.flatMap fun n =>
      generatePaths xg K K.nodes n ++ generateThreads hIdx K K.nodes n fuel),
      w.length = 1 ∨
      ∃ a b, w = [a, b] ∧ K.hasEdge (mkEdge a b) = true := by
    intro w hw
    rcases List.mem_flatMap.mp hw with ⟨n, hn, hw2⟩
    rcases List.mem_append.mp hw2 with h1 | h2
    · exact generatePaths_shape xg K K.nodes n hB w h1
    · exact generateThreads_shape hIdx K K.nodes n fuel hIdem hBe hfuel w h2
  obtain ⟨g1, g2, g3, g4, g5⟩ := insertPath_fold_pairs
    (fun a b => K.hasEdge (mkEdge a b) = true)
    (K.nodes.flatMap fun n =>
      generatePaths xg K K.nodes n ++ generateThreads hIdx K K.nodes n fuel)
    (UnfoldState.init m) hshape
  have hcover : ∀ e ∈ K.edges,
      ∃ c ∈ ((K.nodes.flatMap fun n =>
        generatePaths xg K K.nodes n ++
        generateThreads hIdx K K.nodes n fuel).foldl insertPath
          (UnfoldState.init m)).crossing,
      mkEdge c.1 c.2 = e := by
    intro e he
    obtain ⟨p, hp, pr, hpr, hmk⟩ := HP e he
    have he1 : hid pr.1 ∈ K.nodes :=
      (HN _).mpr ⟨e, he, by
        rw [hmk]
        exact (mem_edgeIds_mkEdge pr.1 pr.2 (hid pr.1)).mpr (Or.inl rfl)⟩
    have he2 : hid pr.2 ∈ K.nodes :=
      (HN _).mpr ⟨e, he, by
        rw [hmk]
        exact (mem_edgeIds_mkEdge pr.1 pr.2 (hid pr.2)).mpr (Or.inr rfl)⟩
    have hKe : K.hasEdge (mkEdge pr.1 pr.2) = true := by
      rw [hKm, ← hmk]
      exact he
    have hwalkmem : [pr.1, pr.2] ∈ (K.nodes.flatMap fun n =>
        generatePaths xg K K.nodes n ++
        generateThreads hIdx K K.nodes n fuel) := by
      refine List.mem_flatMap.mpr ⟨hid pr.1, he1, ?_⟩
      rcases List.mem_append.mp hp with hpx | hph
      · exact List.mem_append.mpr
          (Or.inl (generatePaths_cover xg K K.nodes p hpx pr hpr hKe he2))
      · refine List.mem_append.mpr (Or.inr ?_)
        refine generateThreads_cover2 hIdx K K.nodes fuel hIdem hBe
          p hph pr hpr ?_ hfuel
        rw [← hmk]
        exact he
    obtain ⟨c, hc, hmkc⟩ := g5 _ hwalkmem pr.1 pr.2 rfl
    refine ⟨c, hc, ?_⟩
    rw [hmkc, ← hmk]
  have hasmb : assemble ((K.nodes.flatMap fun n =>
      generatePaths xg K K.nodes n ++
      generateThreads hIdx K K.nodes n fuel).foldl insertPath
        (UnfoldState.init m)) u =
      ((K.nodes.flatMap fun n =>
        generatePaths xg K K.nodes n ++
        generateThreads hIdx K K.nodes n fuel).foldl insertPath
          (UnfoldState.init m)).crossing.foldl assembleC u := by
    unfold assemble
    rw [g2, g3]
    rfl
  refine ⟨g1, ?_, ?_⟩
  · intro f
    dsimp only
    rw [hasmb, (foldl_assembleC_spec _ u).1 f]
    constructor
    · rintro (h | ⟨c, hc, rfl⟩)
      · exact Or.inl h
      · rcases g4 c hc with hcin | ⟨a, b, hPab, hmkc⟩
        · rw [show (UnfoldState.init m).crossing = [] from rfl] at hcin
          exact absurd hcin (List.not_mem_nil _)
        · rw [hmkc]
          exact Or.inr ((hKm _).mp hPab)
    · rintro (h | he)
      · exact Or.inl h
      · obtain ⟨c, hc, hmkc⟩ := hcover f he
        exact Or.inr ⟨c, hc, hmkc.symm⟩
  · intro x
    dsimp only
    rw [hasmb, (foldl_assembleC_spec _ u).2 x]
    constructor
    · rintro (h | ⟨c, hc, hx⟩)
      · exact Or.inl h
      · rcases g4 c hc with hcin | ⟨a, b, hPab, hmkc⟩
        · rw [show (UnfoldState.init m).crossing = [] from rfl] at hcin
          exact absurd hcin (List.not_mem_nil _)
        · right
          refine (HN x).mpr ⟨mkEdge a b, (hKm _).mp hPab, ?_⟩
          rw [← hmkc]
          rcases hx with rfl | rfl
          · exact (mem_edgeIds_mkEdge c.1 c.2 _).mpr (Or.inl rfl)
          · exact (mem_edgeIds_mkEdge c.1 c.2 _).mpr (Or.inr rfl)
    · rintro (h | hx)
      · exact Or.inl h
      · obtain ⟨e, he, hxe⟩ := (HN x).mp hx
        obtain ⟨c, hc, hmkc⟩ := hcover e he
        right
        refine ⟨c, hc, ?_⟩
        rw [← hmkc] at hxe
        exact (mem_edgeIds_mkEdge c.1 c.2 x).mp hxe

end PhaseUnfolder

namespace PhaseUnfolder

theorem foldComps_covered (xg : XgIndex) (hIdx : GbwtIndex) (g : Graph)
    (fuel : Nat) (comps : List Graph) :
    ∀ (acc : NodeMapping × Graph × Nat),
    (∀ K ∈ comps,
      (∀ x, x ∈ K.nodes ↔ ∃ e ∈ K.edges, x ∈ edgeIds e) ∧
      (∀ e ∈ K.edges, ∃ p ∈ xg ++ hIdx, ∃ pr ∈ pairsOf p,
        e = mkEdge pr.1 pr.2) ∧
      (∀ n ∈ K.nodes, g.hasNode n = true) ∧
      2 * (K.edges.length + 1) ≤ fuel) →
    ((comps.foldl
        (fun (acc : NodeMapping × Graph × Nat) comp =>
          let r := unfoldComponent xg hIdx comp g acc.1 acc.2.1 fuel
          (r.1, r.2.1, acc.2.2 + r.2.2)) acc).1 = acc.1 ∧
     (∀ f, ((comps.foldl
        (fun (acc : NodeMapping × Graph × Nat) comp =>
          let r := unfoldComponent xg hIdx comp g acc.1 acc.2.1 fuel
          (r.1, r.2.1, acc.2.2 + r.2.2)) acc).2.1.hasEdge f = true ↔
       (acc.2.1.hasEdge f = true ∨ ∃ K ∈ comps, f ∈ K.edges))) ∧
     (∀ x, ((comps.foldl
        (fun (acc : NodeMapping × Graph × Nat) comp =>
          let r := unfoldComponent xg hIdx comp g acc.1 acc.2.1 fuel
          (r.1, r.2.1, acc.2.2 + r.2.2)) acc).2.1.hasNode x = true ↔
       (acc.2.1.hasNode x = true ∨ ∃ K ∈ comps, x ∈ K.nodes)))) := by
  induction comps with
  | nil =>
      intro acc hh
      refine ⟨rfl, fun f => by simp, fun x => by simp⟩
  | cons K rest ih =>
      intro acc hh
      rw [List.foldl_cons]
      obtain ⟨hKN, hKP, hKB, hKF⟩ := hh K (List.mem_cons_self _ _)
      obtain ⟨s1, s2, s3⟩ :=
        unfoldComponent_covered xg hIdx K g acc.1 acc.2.1 fuel hKN hKP hKB hKF
      obtain ⟨r1, r2, r3⟩ := ih
        ((unfoldComponent xg hIdx K g acc.1 acc.2.1 fuel).1,
         (unfoldComponent xg hIdx K g acc.1 acc.2.1 fuel).2.1,
         acc.2.2 + (unfoldComponent xg hIdx K g acc.1 acc.2.1 fuel).2.2)
        (fun K2 hK2 => hh K2 (List.mem_cons_of_mem _ hK2))
      refine ⟨by rw [r1]; exact s1, ?_, ?_⟩
      · intro f
        rw [r2 f]
        dsimp only
        rw [s2 f]
        simp only [List.mem_cons]
        constructor
        · rintro ((h | h) | ⟨K2, hK2, h⟩)
          · exact Or.inl h
          · exact Or.inr ⟨K, Or.inl rfl, h⟩
          · exact Or.inr ⟨K2, Or.inr hK2, h⟩
        · rintro (h | ⟨K2, hK2 | hK2, h⟩)
          · exact Or.inl (Or.inl h)
          · subst hK2
            exact Or.inl (Or.inr h)
          · exact Or.inr ⟨K2, hK2, h⟩
      · intro x
        rw [r3 x]
        dsimp only
        rw [s3 x]
        simp only [List.mem_cons]
        constructor
        · rintro ((h | h) | ⟨K2, hK2, h⟩)
          · exact Or.inl h
          · exact Or.inr ⟨K, Or.inl rfl, h⟩
          · exact Or.inr ⟨K2, Or.inr hK2, h⟩
        · rintro (h | ⟨K2, hK2 | hK2, h⟩)
          · exact Or.inl (Or.inl h)
          · subst hK2
            exact Or.inl (Or.inr h)
          · exact Or.inr ⟨K2, hK2, h⟩

theorem unfoldParts_covered (xg : XgIndex) (hIdx : GbwtIndex) (g : Graph)
    (m : NodeMapping) (fuel : Nat)
    (hnodes : ∀ p ∈ xg ++ hIdx, ∀ h ∈ p, g.hasNode (hid h) = true)
    (hfuel : 2 * ((complementGraph xg hIdx g).edges.length + 1) ≤ fuel) :
    (unfoldParts xg hIdx g m fuel).2.1 = m ∧
    (∀ f, ((unfoldParts xg hIdx g m fuel).1.hasEdge f = true ↔
      (g.hasEdge f = true ∨ ∃ p ∈ xg ++ hIdx, ∃ pr ∈ pairsOf p,
        f = mkEdge pr.1 pr.2))) ∧
    (∀ x, ((unfoldParts xg hIdx g m fuel).1.hasNode x = true ↔
      g.hasNode x = true)) := by
  unfold unfoldParts
  dsimp only
  set comp := complementGraph xg hIdx g with hcomp
  set comps := disjointSubgraphs comp with hcomps
  have hmemEdge : ∀ e, e ∈ comp.edges ↔ comp.hasEdge e = true := by
    intro e
    unfold Graph.hasEdge
    simp
  have hhyp : ∀ K ∈ comps,
      (∀ x, x ∈ K.nodes ↔ ∃ e ∈ K.edges, x ∈ edgeIds e) ∧
      (∀ e ∈ K.edges, ∃ p ∈ xg ++ hIdx, ∃ pr ∈ pairsOf p,
        e = mkEdge pr.1 pr.2) ∧
      (∀ n ∈ K.nodes, g.hasNode n = true) ∧
      2 * (K.edges.length + 1) ≤ fuel := by
    intro K hK
    have hN := disjointSubgraphs_nodes comp K hK
    have hE : ∀ e ∈ K.edges, comp.hasEdge e = true := by
      intro e he
      exact (hmemEdge e).mp ((disjointSubgraphs_edges comp e).mp ⟨K, hK, he⟩)
    refine ⟨hN, ?_, ?_, ?_⟩
    · intro e he
      rcases ((complementGraph_all_spec xg hIdx g).1 e).mp (hE e he) with
        ⟨p, hp, pr, hpr, heq, _⟩
      exact ⟨p, hp, pr, hpr, heq⟩
    · intro n hn
      rcases (hN n).mp hn with ⟨e, he, hne⟩
      rcases ((complementGraph_all_spec xg hIdx g).1 e).mp (hE e he) with
        ⟨p, hp, pr, hpr, heq, _⟩
      rw [heq] at hne
      rcases (mem_edgeIds_mkEdge pr.1 pr.2 n).mp hne with h1 | h1
      · rw [h1]
        exact hnodes p hp pr.1 (pairsOf_mem_of_mem p pr hpr).1
      · rw [h1]
        exact hnodes p hp pr.2 (pairsOf_mem_of_mem p pr hpr).2
    · have := disjointSubgraphs_edges_length comp K hK
      omega
  obtain ⟨r1, r2, r3⟩ := foldComps_covered xg hIdx g fuel comps
    (m, Graph.empty, 0) hhyp
  have hEmptyE : ∀ f, Graph.empty.hasEdge f = false := fun _ => rfl
  have hEmptyN : ∀ x, Graph.empty.hasNode x = false := fun _ => rfl
  refine ⟨r1, ?_, ?_⟩
  · intro f
    rw [extend_hasEdge, r2 f]
    simp only [hEmptyE]
    constructor
    · rintro (h | h | ⟨K, hK, hf⟩)
      · exact Or.inl h
      · exact absurd h (by simp)
      · rcases ((complementGraph_all_spec xg hIdx g).1 f).mp
          ((hmemEdge f).mp ((disjointSubgraphs_edges comp f).mp ⟨K, hK, hf⟩))
          with ⟨p, hp, pr, hpr, heq, _⟩
        exact Or.inr ⟨p, hp, pr, hpr, heq⟩
    · rintro (h | ⟨p, hp, pr, hpr, heq⟩)
      · exact Or.inl h
      · by_cases hg : g.hasEdge f = true
        · exact Or.inl hg
        · refine Or.inr (Or.inr ?_)
          have hc : comp.hasEdge f = true := by
            refine ((complementGraph_all_spec xg hIdx g).1 f).mpr
              ⟨p, hp, pr, hpr, heq, ?_⟩
            rw [← heq]
            exact Bool.eq_false_iff.mpr (fun hx => hg hx)
          rcases (disjointSubgraphs_edges comp f).mpr ((hmemEdge f).mpr hc)
            with ⟨K, hK, hf⟩
          exact ⟨K, hK, hf⟩
  · intro x
    rw [extend_hasNode, r3 x]
    simp only [hEmptyN]
    constructor
    · rintro (h | h | ⟨K, hK, hx⟩)
      · exact h
      · exact absurd h (by simp)
      · exact (hhyp K hK).2.2.1 x hx
    · intro h
      exact Or.inl h

end PhaseUnfolder

namespace PhaseUnfolder

/-- C1 (amended): evidence preservation under coverage.  For every graph G,
reference-path index X and haplotype index H whose paths and threads only
visit nodes present in G, with the mapping in the constructor's state (no
duplicates allocated yet: next_node = first_node) and enough DFS fuel for the
thread walks, verify_paths counts zero failures on the graph unfold returns:
every reference path of X and every haplotype thread of H is realized. -/
theorem evidence_preservation (xg hIdx : List (List Nat)) (g : Graph)
    (m : NodeMapping) (fuel vfuel : Nat)
    (hm : m.next_node = m.first_node)
    (hvfuel : 1 ≤ vfuel)
    (hfuel : 2 * ((complementGraph xg hIdx g).edges.length + 1) ≤ fuel)
    (hnodes : ∀ p ∈ xg ++ hIdx, ∀ h ∈ p, g.hasNode (hid h) = true) :
    verifyPaths xg hIdx (unfold xg hIdx g m fuel).2
      (unfold xg hIdx g m fuel).1 vfuel = some 0 := by
  obtain ⟨hmap, hE, hN⟩ := unfoldParts_covered xg hIdx g m fuel hnodes hfuel
  have hu1 : (unfold xg hIdx g m fuel).1 =
      (unfoldParts xg hIdx g m fuel).1 := rfl
  have hu2 : (unfold xg hIdx g m fuel).2 =
      (unfoldParts xg hIdx g m fuel).2.1 := rfl
  rw [hu1, hu2, hmap]
  apply verifyPaths_zero
  intro p hp
  rw [reverseMapping_eq_nil _ _ hm]
  apply verifyPath_chain _ _ _ hvfuel
  intro pr hpr
  exact (hE (mkEdge pr.1 pr.2)).mpr (Or.inr ⟨p, hp, pr, hpr, rfl⟩)

/-- C1 witness: the amended theorem at X = [path 1+ 2+], H = [thread 3+ 4+],
G with nodes 1, 2, 3, 4 and no edges, constructor mapping at 5, and DFS fuel
matching the two complement edges. -/
theorem evidence_preservation_witness :
    ((NodeMapping.init 5).next_node = (NodeMapping.init 5).first_node ∧
     (1:Nat) ≤ 1 ∧
     2 * ((complementGraph [[2, 4]] [[6, 8]]
        (Graph.mk [1, 2, 3, 4] [])).edges.length + 1) ≤ 6 ∧
     (∀ p ∈ [[2, 4]] ++ [[6, 8]], ∀ h ∈ p,
       (Graph.mk [1, 2, 3, 4] []).hasNode (hid h) = true)) ∧
    verifyPaths [[2, 4]] [[6, 8]]
      (unfold [[2, 4]] [[6, 8]] (Graph.mk [1, 2, 3, 4] [])
        (NodeMapping.init 5) 6).2
      (unfold [[2, 4]] [[6, 8]] (Graph.mk [1, 2, 3, 4] [])
        (NodeMapping.init 5) 6).1 1 = some 0 :=
  ⟨⟨rfl, by decide, by decide, by decide⟩,
   evidence_preservation [[2, 4]] [[6, 8]] (Graph.mk [1, 2, 3, 4] [])
     (NodeMapping.init 5) 6 1 rfl (by decide) (by decide) (by decide)⟩

end PhaseUnfolder
